import Mathlib

/-!
# The S3 lock manager of `libs/locking/aws/s3_lock.go`

A shallow embedding of the lock manager (`S3Lock.Lock`, `S3Lock.Unlock`,
`S3Lock.GetLock`, `NewS3Lock`) together with the parts of the Go standard
library that decide what it does: `encoding/json` applied to the struct
`LockContent`, `strconv` for the holder and `time` for the creation time.

Conventions of the embedding.

* Object payloads (`[]byte`) are lists of characters; a payload is therefore
  well-formed UTF-8 text.
* Go `int` is the 64-bit signed integer; holders are `Int` values and the
  predicate `isGoInt` says that a value is one the Go type can hold.
* The standard library is that of Go 1.20 and later, where `Time.MarshalJSON`
  and `Time.UnmarshalJSON` go through `appendStrictRFC3339` and
  `parseStrictRFC3339`, the latter being `parseRFC3339` and, for a text that
  function refuses, `time.Parse` with the layout `time.RFC3339`.
* A `time.Time` is represented by what its RFC 3339 text carries: the civil
  date and time in the value's own zone and the zone's offset from UTC. The
  monotonic clock reading and the zone's name are not represented.
* The S3 client is an interface; it is a record of state-passing functions
  over an arbitrary state type, so that both the in-memory store of the test
  file and stores that fail are instances.
-/

namespace Digger

deriving instance DecidableEq for Except

/-! ## Decimal digits (`strconv`) -/

/-- The ASCII decimal digits. -/
def isDigit (c : Char) : Bool := decide (48 ≤ c.toNat) && decide (c.toNat ≤ 57)

/-- Value of a decimal digit character (`c - '0'`). -/
def digitVal (c : Char) : Nat := c.toNat - 48

/-- Go's `utod`: the character of a one-digit number. -/
def utod (u : Nat) : Char := Char.ofNat (48 + u)

/-- The loop of `strconv.formatBits` for base 10: the digits of `n`, most
significant first, pushed in front of `acc`. The first argument bounds the
number of iterations. -/
def formatBits : Nat → Nat → List Char → List Char
  | 0, _, acc => acc
  | fuel + 1, n, acc =>
    if n < 10 then utod n :: acc else formatBits fuel (n / 10) (utod (n % 10) :: acc)

/-- Decimal text of a natural number, without leading zeros. -/
def formatUint (n : Nat) : List Char := formatBits (n + 1) n []

/-- The function `strconv.AppendInt(nil, i, 10)`. -/
def formatInt (i : Int) : List Char :=
  if i < 0 then '-' :: formatUint i.natAbs else formatUint i.natAbs

/-- Value of a run of decimal digits read left to right (the accumulation loop
of `strconv.ParseUint` and of `time.atoi`). -/
def digitsValue (s : List Char) : Nat := s.foldl (fun acc c => acc * 10 + digitVal c) 0

/-- Bounds of Go's 64-bit `int`. -/
def isGoInt (i : Int) : Prop := -9223372036854775808 ≤ i ∧ i ≤ 9223372036854775807

instance (i : Int) : Decidable (isGoInt i) := by unfold isGoInt; exact inferInstance

/-- The function `strconv.ParseInt(s, 10, 64)`: an optional sign, then one or
more decimal digits and nothing else; `none` stands for both of its errors
(syntax and range). -/
def parseInt (s : List Char) : Option Int :=
  match s with
  | [] => none
  | c :: r =>
    let body : List Char := if c = '+' ∨ c = '-' then r else c :: r
    if body.isEmpty || !body.all isDigit then none
    else
      let v : Int := if c = '-' then -(digitsValue body : Int) else (digitsValue body : Int)
      if isGoInt v then some v else none

/-! ## `time.Time` and its JSON text -/

/-- A `time.Time`: civil date and time in the value's zone, and the zone's
offset east of UTC in seconds. -/
structure Time where
  year : Int
  month : Nat
  day : Nat
  hour : Nat
  minute : Nat
  second : Nat
  nanosecond : Nat
  offset : Int
deriving DecidableEq, Repr

/-- Go's `time.isLeap`. -/
def isLeap (year : Int) : Bool :=
  decide (year % 4 = 0) && (decide (year % 100 ≠ 0) || decide (year % 400 = 0))

/-- Go's `time.daysIn` for a month in 1..12. -/
def daysIn (month : Nat) (year : Int) : Nat :=
  if month = 2 then (if isLeap year then 29 else 28)
  else if month = 4 ∨ month = 6 ∨ month = 9 ∨ month = 11 then 30
  else 31

/-- What holds of the civil fields of every `time.Time`: they name a real
calendar day and a real time of day. -/
def Time.wellFormed (t : Time) : Prop :=
  1 ≤ t.month ∧ t.month ≤ 12 ∧ 1 ≤ t.day ∧ t.day ≤ daysIn t.month t.year ∧
  t.hour < 24 ∧ t.minute < 60 ∧ t.second < 60 ∧ t.nanosecond < 1000000000

instance (t : Time) : Decidable t.wellFormed := by unfold Time.wellFormed; exact inferInstance

/-- Go's `time.appendInt`: the decimal text of `x`, zero-padded on the left to
`width` digits, with a leading minus sign for a negative number. -/
def appendInt (x : Int) (width : Nat) : List Char :=
  let u := x.natAbs
  let sign : List Char := if x < 0 then ['-'] else []
  if width = 2 ∧ u < 100 then sign ++ [utod (u / 10), utod (u % 10)]
  else if width = 4 ∧ u < 10000 then
    sign ++ [utod (u / 1000), utod (u / 100 % 10), utod (u / 10 % 10), utod (u % 10)]
  else
    let digits := formatUint u
    sign ++ List.replicate (width - digits.length) '0' ++ digits

/-- Drops the trailing zeros of a fraction and then a dot left bare, as the
trimming loop of `time.appendNano` does. -/
def trimFraction (b : List Char) : List Char :=
  match b.reverse.dropWhile (fun c => c == '0') with
  | [] => []
  | c :: r => if c = '.' then r.reverse else (c :: r).reverse

/-- Go's `time.appendNano` for the layout element `.999999999`: nothing for a
whole second, else a dot and the nanoseconds without trailing zeros. -/
def appendNano (nanosec : Nat) : List Char :=
  if nanosec = 0 then [] else trimFraction ('.' :: appendInt nanosec 9)

/-- The zone suffix written by `Time.appendFormatRFC3339`: `Z` for offset 0,
else the sign and the offset cut to whole minutes as `hh:mm`. -/
def appendZone (offset : Int) : List Char :=
  if offset = 0 then ['Z']
  else
    let zone : Int := Int.tdiv offset 60
    let sign : Char := if zone < 0 then '-' else '+'
    let z : Int := if zone < 0 then -zone else zone
    sign :: appendInt (Int.tdiv z 60) 2 ++ ':' :: appendInt (Int.tmod z 60) 2

/-- Go's `Time.appendFormatRFC3339(b, true)`: the layout
`2006-01-02T15:04:05.999999999Z07:00`. -/
def appendFormatRFC3339 (t : Time) : List Char :=
  appendInt t.year 4 ++ '-' :: appendInt t.month 2 ++ '-' :: appendInt t.day 2 ++
  'T' :: appendInt t.hour 2 ++ ':' :: appendInt t.minute 2 ++ ':' :: appendInt t.second 2 ++
  appendNano t.nanosecond ++ appendZone t.offset

/-- Go's `Time.appendStrictRFC3339`: the text of `appendFormatRFC3339`, refused
when the year is not four digits wide or the zone's hour is above 23. -/
def appendStrictRFC3339 (t : Time) : Except String (List Char) :=
  if t.year < 0 ∨ 9999 < t.year then .error "year outside of range [0,9999]"
  else if t.offset ≠ 0 ∧ 24 ≤ (Int.tdiv t.offset 60).natAbs / 60 then
    .error "timezone hour outside of range [0,23]"
  else .ok (appendFormatRFC3339 t)

/-- Go's `Time.MarshalJSON`: the strict RFC 3339 text between double quotes. -/
def Time.MarshalJSON (t : Time) : Except String (List Char) :=
  match appendStrictRFC3339 t with
  | .error e => .error ("Time.MarshalJSON: " ++ e)
  | .ok b => .ok ('"' :: b ++ ['"'])

/-- The closure `parseUint` of `time.parseRFC3339`: a run of digits whose value
lies in `[min, max]`. -/
def parseUint (s : List Char) (min max : Nat) : Option Nat :=
  if s.all isDigit && decide (min ≤ digitsValue s) && decide (digitsValue s ≤ max) then
    some (digitsValue s)
  else none

/-- Go's `time.parseNanoseconds` on the digits that follow the dot: at most
nine count, read as a fraction of a second in nanoseconds. -/
def parseNanoseconds (digits : List Char) : Nat :=
  let kept := digits.take 9
  digitsValue kept * 10 ^ (9 - kept.length)

/-- The zone suffix accepted by `time.parseRFC3339`: exactly `Z`, or a sign
followed by `hh:mm` with `hh` in 0..23 and `mm` in 0..59. The result is the
offset in seconds. -/
def parseZone (s : List Char) : Option Int :=
  match s with
  | [c] => if c = 'Z' then some 0 else none
  | [sg, h1, h2, colon, m1, m2] =>
    match parseUint [h1, h2] 0 23, parseUint [m1, m2] 0 59 with
    | some hr, some mm =>
      if (sg = '-' ∨ sg = '+') ∧ colon = ':' then
        let zoneOffset : Int := ((hr * 60 + mm) * 60 : Nat)
        some (if sg = '-' then -zoneOffset else zoneOffset)
      else none
    | _, _ => none
  | _ => none

/-- The optional fraction of a second in `time.parseRFC3339`: a dot followed by
at least one digit takes all the digits that follow; the result is the
nanoseconds and the text after the fraction. -/
def parseFraction (rest : List Char) : Nat × List Char :=
  match rest with
  | dot :: d :: more =>
    if dot = '.' ∧ isDigit d then
      (parseNanoseconds ((d :: more).takeWhile isDigit), (d :: more).dropWhile isDigit)
    else (0, rest)
  | _ => (0, rest)

/-- Go's `time.parseRFC3339`: the date and time of day in fixed columns, an
optional fraction of a second, and the zone. -/
def parseRFC3339 (s : List Char) : Option Time :=
  match s with
  | y1 :: y2 :: y3 :: y4 :: c4 :: m1 :: m2 :: c7 :: d1 :: d2 :: c10 ::
      h1 :: h2 :: c13 :: n1 :: n2 :: c16 :: s1 :: s2 :: rest =>
    match parseUint [y1, y2, y3, y4] 0 9999, parseUint [m1, m2] 1 12 with
    | some year, some month =>
      match parseUint [d1, d2] 1 (daysIn month year), parseUint [h1, h2] 0 23,
          parseUint [n1, n2] 0 59, parseUint [s1, s2] 0 59 with
      | some day, some hour, some min, some sec =>
        if c4 = '-' ∧ c7 = '-' ∧ c10 = 'T' ∧ c13 = ':' ∧ c16 = ':' then
          match parseZone (parseFraction rest).2 with
          | some off => some ⟨year, month, day, hour, min, sec, (parseFraction rest).1, off⟩
          | none => none
        else none
      | _, _, _, _ => none
    | _, _ => none
  | _ => none

/-- Go's `time.getnum`: the number written by the one or two digits at the head
of the text, and the text after them; when `fixed` is set there must be two
digits. -/
def getnum (s : List Char) (fixed : Bool) : Option (Nat × List Char) :=
  match s with
  | c1 :: c2 :: r =>
    if !isDigit c1 then none
    else if !isDigit c2 then (if fixed then none else some (digitVal c1, c2 :: r))
    else some (digitVal c1 * 10 + digitVal c2, r)
  | [c1] => if !isDigit c1 then none else if fixed then none else some (digitVal c1, [])
  | [] => none

/-- Go's `time.skip` for the literal text between two fields of a layout that
holds no space: the value must begin with that text, which is removed. -/
def skip : List Char → List Char → Option (List Char)
  | value, [] => some value
  | [], _ :: _ => none
  | v :: value, p :: pre => if v = p then skip value pre else none

/-- The year of `time.Parse` for `2006` in the layout (`stdLongYear`): four
characters, all of them digits. -/
def parseLongYear (value : List Char) : Option (Nat × List Char) :=
  match value with
  | y1 :: y2 :: y3 :: y4 :: rest =>
    if [y1, y2, y3, y4].all isDigit then some (digitsValue [y1, y2, y3, y4], rest) else none
  | _ => none

/-- The fraction of a second that `time.Parse` reads after the seconds when the
layout has none: a period or a comma followed by at least one digit takes all
the digits that follow; the result is the nanoseconds and the text after the
fraction. -/
def parseFractionalSecond (value : List Char) : Nat × List Char :=
  match value with
  | sep :: d :: more =>
    if (sep = '.' ∨ sep = ',') ∧ isDigit d then
      (parseNanoseconds ((d :: more).takeWhile isDigit), (d :: more).dropWhile isDigit)
    else (0, value)
  | _ => (0, value)

/-- The zone of `time.Parse` for `Z07:00` in the layout (`stdISO8601ColonTZ`):
a `Z`, or a sign followed by `hh:mm`, two digits each, with `hh` at most 24 and
`mm` at most 60. The result is the offset in seconds and the text after the
zone. -/
def parseZoneColon (value : List Char) : Option (Int × List Char) :=
  match value with
  | [] => none
  | z :: after =>
    if z = 'Z' then some (0, after)
    else
      match value with
      | sg :: h1 :: h2 :: colon :: m1 :: m2 :: rest =>
        if colon = ':' then
          match getnum [h1, h2] true, getnum [m1, m2] true with
          | some (hr, _), some (mm, _) =>
            if 24 < hr ∨ 60 < mm then none
            else if sg = '+' then some ((((hr * 60 + mm) * 60 : Nat) : Int), rest)
            else if sg = '-' then some (-(((hr * 60 + mm) * 60 : Nat) : Int), rest)
            else none
          | _, _ => none
        else none
      | _ => none

/-- Go's `time.Parse(time.RFC3339, s)`, the layout being
`2006-01-02T15:04:05Z07:00`: the fields are read one after the other with the
literal text of the layout between them. The hour may have one digit or two,
the other fields of the date and the time of day have two; a fraction of a
second may follow the seconds; nothing may follow the zone. The day is checked
against the month at the end. -/
def time.Parse (s : List Char) : Option Time :=
  match parseLongYear s with
  | none => none
  | some (year, v1) =>
    match (skip v1 ['-']).bind (fun v => getnum v true) with
    | none => none
    | some (month, v2) =>
      if month = 0 ∨ 12 < month then none
      else
        match (skip v2 ['-']).bind (fun v => getnum v true) with
        | none => none
        | some (day, v3) =>
          match (skip v3 ['T']).bind (fun v => getnum v false) with
          | none => none
          | some (hour, v4) =>
            if 24 ≤ hour then none
            else
              match (skip v4 [':']).bind (fun v => getnum v true) with
              | none => none
              | some (minute, v5) =>
                if 60 ≤ minute then none
                else
                  match (skip v5 [':']).bind (fun v => getnum v true) with
                  | none => none
                  | some (sec, v6) =>
                    if 60 ≤ sec then none
                    else
                      match parseZoneColon (parseFractionalSecond v6).2 with
                      | none => none
                      | some (off, v7) =>
                        if v7 ≠ [] then none
                        else if day < 1 ∨ daysIn month year < day then none
                        else
                          some ⟨year, month, day, hour, minute, sec,
                            (parseFractionalSecond v6).1, off⟩

/-- Go's `time.parseStrictRFC3339`: the text is read by `parseRFC3339`, and a
text that function refuses is read by `time.Parse` with the layout
`time.RFC3339`; the further checks of the source on what `time.Parse` let
through stand after a `case true` and are never made. -/
def parseStrictRFC3339 (b : List Char) : Option Time :=
  match parseRFC3339 b with
  | some t => some t
  | none => time.Parse b

/-- Go's `Time.UnmarshalJSON`: the literal `null` changes nothing; any other
input must be a double-quoted text, which is read without unescaping by
`parseStrictRFC3339`. `cur` is the value the method is called on. -/
def Time.UnmarshalJSON (cur : Time) (data : List Char) : Option Time :=
  if data = ['n', 'u', 'l', 'l'] then some cur
  else
    match data with
    | q :: r =>
      match r.reverse with
      | q2 :: body => if q = '"' ∧ q2 = '"' then parseStrictRFC3339 body.reverse else none
      | [] => none
    | [] => none

/-! ## `encoding/json`: the scanner -/

/-- A JSON value as the scanner of `encoding/json` delimits it. A number keeps
its literal text and a string the text between its quotes, escapes
unprocessed, because the decoder hands these texts on as they are. -/
inductive JValue where
  | null : JValue
  | bool : Bool → JValue
  | number : List Char → JValue
  | string : List Char → JValue
  | array : List JValue → JValue
  | object : List (List Char × JValue) → JValue

/-- Go's `json.isSpace`. -/
def isSpace (c : Char) : Bool := c == ' ' || c == '\t' || c == '\r' || c == '\n'

/-- Skips JSON white space. -/
def skipSpace : List Char → List Char
  | [] => []
  | c :: r => if isSpace c then skipSpace r else c :: r

/-- Hexadecimal digits, as accepted after `\u`. -/
def isHex (c : Char) : Bool :=
  isDigit c || (decide (97 ≤ c.toNat) && decide (c.toNat ≤ 102)) ||
    (decide (65 ≤ c.toNat) && decide (c.toNat ≤ 70))

/-- The characters that may follow a backslash, `u` apart (`stateInStringEsc`). -/
def isSimpleEscape (c : Char) : Bool :=
  c == 'b' || c == 'f' || c == 'n' || c == 'r' || c == 't' || c == '\\' || c == '/' || c == '"'

/-- The characters that stand for themselves inside a string literal: all but
the quote, the backslash and the control characters. -/
def isPlain (c : Char) : Bool := c != '"' && c != '\\' && decide (32 ≤ c.toNat)

/-- The characters an RFC 3339 text is made of. -/
def isTimeChar (c : Char) : Bool :=
  isDigit c || c == '-' || c == '+' || c == ':' || c == '.' || c == 'T' || c == 'Z'

/-- The scanner inside a string literal (`stateInString` and the escape
states), started after the opening quote: the text up to the closing quote and
what follows that quote. Control characters and bad escapes are errors, and
so is the end of the input. -/
def scanString : List Char → Option (List Char × List Char)
  | [] => none
  | c :: rest =>
    if c = '"' then some ([], rest)
    else if c = '\\' then
      match rest with
      | [] => none
      | e :: rest2 =>
        if e = 'u' then
          match rest2 with
          | h1 :: h2 :: h3 :: h4 :: rest3 =>
            if isHex h1 && isHex h2 && isHex h3 && isHex h4 then
              match scanString rest3 with
              | some (body, after) => some (c :: e :: h1 :: h2 :: h3 :: h4 :: body, after)
              | none => none
            else none
          | _ => none
        else if isSimpleEscape e then
          match scanString rest2 with
          | some (body, after) => some (c :: e :: body, after)
          | none => none
        else none
    else if c.toNat < 32 then none
    else
      match scanString rest with
      | some (body, after) => some (c :: body, after)
      | none => none

/-- The exponent of a number (`stateE`, `stateESign`, `stateE0`), started after
the `e`: an optional sign and at least one digit. -/
def scanExponent (s : List Char) : Option (List Char × List Char) :=
  let signed : List Char × List Char :=
    match s with
    | c :: r => if c = '+' ∨ c = '-' then ([c], r) else ([], s)
    | [] => ([], s)
  let digits := signed.2.takeWhile isDigit
  if digits.isEmpty then none else some (signed.1 ++ digits, signed.2.dropWhile isDigit)

/-- What may follow the integer part of a number (`state0`, `state1`,
`stateDot`, `stateDot0`): a fraction, which needs a digit after its dot, and
an exponent. -/
def scanFraction (s : List Char) : Option (List Char × List Char) :=
  match s with
  | c :: r =>
    if c = '.' then
      let digits := r.takeWhile isDigit
      if digits.isEmpty then none
      else
        match r.dropWhile isDigit with
        | e :: r2 =>
          if e = 'e' ∨ e = 'E' then
            match scanExponent r2 with
            | some (ex, after) => some (c :: digits ++ e :: ex, after)
            | none => none
          else some (c :: digits, e :: r2)
        | [] => some (c :: digits, [])
    else if c = 'e' ∨ c = 'E' then
      match scanExponent r with
      | some (ex, after) => some (c :: ex, after)
      | none => none
    else some ([], s)
  | [] => some ([], [])

/-- The integer part of a number after its sign (`stateNeg`, `state0`,
`state1`): a single `0`, or a digit 1..9 and further digits. -/
def scanDigits (s : List Char) : Option (List Char × List Char) :=
  match s with
  | c :: r =>
    if c = '0' then some ([c], r)
    else if isDigit c then some (c :: r.takeWhile isDigit, r.dropWhile isDigit)
    else none
  | [] => none

/-- The scanner on a number: the literal and what follows it. -/
def scanNumber (s : List Char) : Option (List Char × List Char) :=
  let signed : List Char × List Char :=
    match s with
    | c :: r => if c = '-' then ([c], r) else ([], s)
    | [] => ([], s)
  match scanDigits signed.2 with
  | none => none
  | some (ds, r) =>
    match scanFraction r with
    | none => none
    | some (fr, after) => some (signed.1 ++ ds ++ fr, after)

/-- The scanner on the rest of a literal name (`true`, `false`, `null`) after
its first letter: the expected letters must follow one by one. -/
def scanLiteral : List Char → List Char → Option (List Char)
  | [], s => some s
  | _ :: _, [] => none
  | e :: es, c :: r => if c = e then scanLiteral es r else none

/-- Go's `maxNestingDepth`: how many arrays and objects may be open at once. -/
def maxNestingDepth : Nat := 10000

mutual
/-- The scanner on one JSON value, leading white space skipped: the value and
the input that follows it. `depth` counts the arrays and objects that are
open; the first argument bounds the recursion and is never exhausted when it
exceeds twice the length of the input. -/
def parseValue : Nat → Nat → List Char → Option (JValue × List Char)
  | 0, _, _ => none
  | fuel + 1, depth, s =>
    match skipSpace s with
    | [] => none
    | c :: r =>
      if c = '\x7b' then
        if maxNestingDepth ≤ depth then none
        else
          match skipSpace r with
          | [] => none
          | k :: r2 =>
            if k = '\x7d' then some (JValue.object [], r2)
            else
              match parseMembers fuel (depth + 1) (k :: r2) with
              | some (ms, after) => some (JValue.object ms, after)
              | none => none
      else if c = '[' then
        if maxNestingDepth ≤ depth then none
        else
          match skipSpace r with
          | [] => none
          | k :: r2 =>
            if k = ']' then some (JValue.array [], r2)
            else
              match parseElements fuel (depth + 1) (k :: r2) with
              | some (vs, after) => some (JValue.array vs, after)
              | none => none
      else if c = '"' then
        match scanString r with
        | some (body, after) => some (JValue.string body, after)
        | none => none
      else if c = '-' ∨ isDigit c then
        match scanNumber (c :: r) with
        | some (lit, after) => some (JValue.number lit, after)
        | none => none
      else if c = 't' then
        match scanLiteral ['r', 'u', 'e'] r with
        | some after => some (JValue.bool true, after)
        | none => none
      else if c = 'f' then
        match scanLiteral ['a', 'l', 's', 'e'] r with
        | some after => some (JValue.bool false, after)
        | none => none
      else if c = 'n' then
        match scanLiteral ['u', 'l', 'l'] r with
        | some after => some (JValue.null, after)
        | none => none
      else none
/-- The members of an object from the place where a key must begin (after the
opening brace or a comma) up to and including the closing brace. -/
def parseMembers : Nat → Nat → List Char → Option (List (List Char × JValue) × List Char)
  | 0, _, _ => none
  | fuel + 1, depth, s =>
    match skipSpace s with
    | [] => none
    | q :: r =>
      if q = '"' then
        match scanString r with
        | none => none
        | some (key, r1) =>
          match skipSpace r1 with
          | [] => none
          | colon :: r2 =>
            if colon = ':' then
              match parseValue fuel depth r2 with
              | none => none
              | some (v, r3) =>
                match skipSpace r3 with
                | [] => none
                | sep :: r4 =>
                  if sep = ',' then
                    match parseMembers fuel depth r4 with
                    | some (ms, after) => some ((key, v) :: ms, after)
                    | none => none
                  else if sep = '\x7d' then some ([(key, v)], r4)
                  else none
            else none
      else none
/-- The elements of an array from the place where a value must begin up to and
including the closing bracket. -/
def parseElements : Nat → Nat → List Char → Option (List JValue × List Char)
  | 0, _, _ => none
  | fuel + 1, depth, s =>
    match parseValue fuel depth s with
    | none => none
    | some (v, r) =>
      match skipSpace r with
      | [] => none
      | sep :: r2 =>
        if sep = ',' then
          match parseElements fuel depth r2 with
          | some (vs, after) => some (v :: vs, after)
          | none => none
        else if sep = ']' then some ([v], r2)
        else none
end

/-! ## `encoding/json`: decoding into `LockContent` and encoding it -/

/-- The struct `LockContent` of the source, with the JSON names
`transaction_id` and `created_at`. -/
structure LockContent where
  TransactionId : Int
  CreatedAt : Time
deriving DecidableEq, Repr

/-- The zero `time.Time`: January 1 of year 1, 00:00:00 UTC. -/
def zeroTime : Time := ⟨1, 1, 1, 0, 0, 0, 0, 0⟩

/-- The zero value of `LockContent`, what `var lockContent LockContent` holds. -/
def zeroLockContent : LockContent := ⟨0, zeroTime⟩

/-- Value of a hexadecimal digit. -/
def hexVal (c : Char) : Nat :=
  if isDigit c then c.toNat - 48 else if 97 ≤ c.toNat then c.toNat - 87 else c.toNat - 55

/-- Go's `json.getu4` on four hexadecimal digits. -/
def getu4 (h1 h2 h3 h4 : Char) : Nat :=
  ((hexVal h1 * 16 + hexVal h2) * 16 + hexVal h3) * 16 + hexVal h4

/-- The character a one-letter escape stands for. -/
def escapeChar (e : Char) : Char :=
  if e = 'b' then Char.ofNat 8
  else if e = 'f' then Char.ofNat 12
  else if e = 'n' then Char.ofNat 10
  else if e = 'r' then Char.ofNat 13
  else if e = 't' then Char.ofNat 9
  else e

/-- The low surrogate that a `\u` escape at the head of the text stands for,
if the text begins with such an escape (the second `getu4` of
`json.unquoteBytes`). -/
def lowSurrogateAhead (s : List Char) : Option Nat :=
  match s with
  | b :: u :: g1 :: g2 :: g3 :: g4 :: _ =>
    let rr1 := getu4 g1 g2 g3 g4
    if b = '\\' ∧ u = 'u' ∧ isHex g1 ∧ isHex g2 ∧ isHex g3 ∧ isHex g4 ∧
        0xDC00 ≤ rr1 ∧ rr1 < 0xE000 then some rr1
    else none
  | _ => none

/-- The loop of `json.unquoteBytes` on the text between the quotes of a string
the scanner accepted: escapes are replaced by what they stand for, a `\u` pair
of surrogates by the character it encodes and a lone surrogate by U+FFFD. The
first argument counts characters that are already consumed and to be passed
over (the second escape of a surrogate pair). -/
def unquoteFrom : Nat → List Char → List Char
  | _, [] => []
  | skip + 1, _ :: rest => unquoteFrom skip rest
  | 0, c :: rest =>
    if c = '\\' then
      match rest with
      | [] => []
      | e :: rest2 =>
        if e = 'u' then
          match rest2 with
          | h1 :: h2 :: h3 :: h4 :: rest3 =>
            let rr := getu4 h1 h2 h3 h4
            if 0xD800 ≤ rr ∧ rr < 0xE000 then
              match (if rr < 0xDC00 then lowSurrogateAhead rest3 else none) with
              | some rr1 =>
                Char.ofNat ((rr - 0xD800) * 1024 + (rr1 - 0xDC00) + 0x10000) ::
                  unquoteFrom 6 rest3
              | none => Char.ofNat 0xFFFD :: unquoteFrom 0 rest3
            else Char.ofNat rr :: unquoteFrom 0 rest3
          | _ => []
        else escapeChar e :: unquoteFrom 0 rest2
    else c :: unquoteFrom 0 rest

/-- Go's `json.unquoteBytes`, without the quotes. -/
def unquote (raw : List Char) : List Char := unquoteFrom 0 raw

/-- Go's `json.foldRune` as far as it matters for names made of ASCII letters:
a lower-case ASCII letter folds to its capital, and of all other characters
only the long s (U+017F) and the Kelvin sign (U+212A) fold to an ASCII letter. -/
def foldRune (c : Char) : Char :=
  if 97 ≤ c.toNat ∧ c.toNat ≤ 122 then Char.ofNat (c.toNat - 32)
  else if c.toNat = 0x17F then 'S'
  else if c.toNat = 0x212A then 'K'
  else c

/-- Go's `json.foldName`. -/
def foldName (key : List Char) : List Char := key.map foldRune

/-- The two fields of `LockContent`. -/
inductive Field where
  | transactionId : Field
  | createdAt : Field
deriving DecidableEq, Repr

/-- The field an object key selects: the one whose JSON name equals the key,
else the one whose name equals it when letter case is ignored
(`fields.byExactName`, then `fields.byFoldedName`). -/
def lookupField (key : List Char) : Option Field :=
  if key = "transaction_id".toList then some Field.transactionId
  else if key = "created_at".toList then some Field.createdAt
  else if foldName key = "TRANSACTION_ID".toList then some Field.transactionId
  else if foldName key = "CREATED_AT".toList then some Field.createdAt
  else none

/-- The errors of `Decoder.Decode`: the scanner found no complete JSON value
(`io.EOF`, `io.ErrUnexpectedEOF` or a `SyntaxError`), a value does not fit the
Go type it is stored into (`UnmarshalTypeError`, with the kind of the value),
or `Time.UnmarshalJSON` refused its input. -/
inductive JsonError where
  | scan : JsonError
  | unmarshalType : String → JsonError
  | time : JsonError
deriving DecidableEq, Repr

/-- The text of a decoding error. -/
def JsonError.Error : JsonError → String
  | JsonError.scan => "invalid JSON input"
  | JsonError.unmarshalType v =>
    "json: cannot unmarshal " ++ v ++ " into Go value of type aws.LockContent"
  | JsonError.time => "parsing time: cannot parse as RFC 3339"

/-- The part of `json.decodeState` that matters: the struct being filled and the
first error that was saved while decoding went on (`d.savedError`). -/
structure decodeState where
  content : LockContent
  savedError : Option JsonError

/-- Go's `decodeState.saveError`: only the first error is kept. -/
def decodeState.saveError (d : decodeState) (e : JsonError) : decodeState :=
  match d.savedError with
  | none => { d with savedError := some e }
  | some _ => d

/-- Storing a value into the field `TransactionId int` (`literalStore`, and
`array`/`object` on a Go value that is neither): `null` changes nothing, a
number must be read by `strconv.ParseInt` in full and fit the type, and
everything else is a type error that is saved while decoding goes on. -/
def storeTransactionId (v : JValue) (d : decodeState) : decodeState :=
  match v with
  | JValue.null => d
  | JValue.number lit =>
    match parseInt lit with
    | some n => { d with content := { d.content with TransactionId := n } }
    | none => d.saveError (JsonError.unmarshalType ("number " ++ String.mk lit))
  | JValue.string _ => d.saveError (JsonError.unmarshalType "string")
  | JValue.bool _ => d.saveError (JsonError.unmarshalType "bool")
  | JValue.array _ => d.saveError (JsonError.unmarshalType "array")
  | JValue.object _ => d.saveError (JsonError.unmarshalType "object")

/-- Storing a value into the field `CreatedAt time.Time`: the text of the value
goes to `Time.UnmarshalJSON`, whose error ends the decoding at once. An array
or an object is a text that begins with a bracket, which that method refuses. -/
def storeCreatedAt (v : JValue) (d : decodeState) : Except JsonError decodeState :=
  let text : Option (List Char) :=
    match v with
    | JValue.null => some ['n', 'u', 'l', 'l']
    | JValue.number lit => some lit
    | JValue.string raw => some ('"' :: raw ++ ['"'])
    | JValue.bool true => some ['t', 'r', 'u', 'e']
    | JValue.bool false => some ['f', 'a', 'l', 's', 'e']
    | JValue.array _ => none
    | JValue.object _ => none
  match text.bind (Time.UnmarshalJSON d.content.CreatedAt) with
  | some t => .ok { d with content := { d.content with CreatedAt := t } }
  | none => .error JsonError.time

/-- The loop of `decodeState.object` on a struct: the members are taken in the
order of the text, a key that selects no field is skipped with its value. -/
def decodeMembers : List (List Char × JValue) → decodeState → Except JsonError decodeState
  | [], d => .ok d
  | (key, v) :: ms, d =>
    match lookupField (unquote key) with
    | none => decodeMembers ms d
    | some Field.transactionId => decodeMembers ms (storeTransactionId v d)
    | some Field.createdAt =>
      match storeCreatedAt v d with
      | .error e => .error e
      | .ok d1 => decodeMembers ms d1

/-- Go's `decodeState.unmarshal` into a `*LockContent`: `null` leaves the struct
as it is, an object fills it, any other value is a type error; an error
returned by a step comes before a saved one. -/
def unmarshal (v : JValue) (into : LockContent) : Except JsonError LockContent :=
  let start : decodeState := ⟨into, none⟩
  let run : Except JsonError decodeState :=
    match v with
    | JValue.null => .ok start
    | JValue.object ms => decodeMembers ms start
    | JValue.array _ => .ok (start.saveError (JsonError.unmarshalType "array"))
    | JValue.string _ => .ok (start.saveError (JsonError.unmarshalType "string"))
    | JValue.number _ => .ok (start.saveError (JsonError.unmarshalType "number"))
    | JValue.bool _ => .ok (start.saveError (JsonError.unmarshalType "bool"))
  match run with
  | .error e => .error e
  | .ok d =>
    match d.savedError with
    | some e => .error e
    | none => .ok d.content

/-- The call `json.NewDecoder(body).Decode(&lockContent)` on a fresh decoder:
the scanner delimits the first JSON value of the stream, which is then stored
into the struct. What follows that value in the stream is never looked at.
The bound given to the scanner is one it never exhausts. -/
def json.Decode (body : List Char) (into : LockContent) : Except JsonError LockContent :=
  match parseValue (2 * body.length + 1) 0 body with
  | none => .error JsonError.scan
  | some (v, _) => unmarshal v into

/-- The call `json.Marshal(lockContent)`: the two fields in the order of the
struct under their JSON names; it fails when `Time.MarshalJSON` does. -/
def json.Marshal (c : LockContent) : Except String (List Char) :=
  match c.CreatedAt.MarshalJSON with
  | .error e => .error ("json: error calling MarshalJSON for type time.Time: " ++ e)
  | .ok t =>
    .ok ("\x7b\"transaction_id\":".toList ++ formatInt c.TransactionId ++
      ",\"created_at\":".toList ++ t ++ ['\x7d'])

/-! ## The S3 client and the lock manager -/

/-- An error returned by the S3 client: whether `errors.As` finds a
`*types.NoSuchKey` in it, and its text. -/
structure S3Error where
  noSuchKey : Bool
  text : String
deriving DecidableEq, Repr

/-- The interface `S3Client` of the source. Each method takes the state of the
remote store and returns its answer with the state the call leaves behind; the
arguments are the bucket, the key and the body of the Go input structs. A
`GetObject` that succeeds delivers the whole body of the object. -/
structure S3Client (σ : Type) where
  HeadBucket : String → σ → Option S3Error × σ
  PutObject : String → String → List Char → σ → Option S3Error × σ
  GetObject : String → String → σ → Except S3Error (List Char) × σ
  DeleteObject : String → String → σ → Option S3Error × σ

/-- The errors the lock manager returns, one per `fmt.Errorf` of the source,
each with the error it was made from. -/
inductive LockError where
  | accessBucket : String → S3Error → LockError
  | getLock : S3Error → LockError
  | decodeLock : JsonError → LockError
  | marshalLock : String → LockError
  | createLock : S3Error → LockError
  | deleteLock : S3Error → LockError
deriving DecidableEq, Repr

/-- The text of an error of the lock manager, as `fmt.Errorf` composes it with
the verb `%v`. -/
def LockError.Error : LockError → String
  | LockError.accessBucket bucket e => "failed to access bucket " ++ bucket ++ ": " ++ e.text
  | LockError.getLock e => "failed to get lock: " ++ e.text
  | LockError.decodeLock e => "failed to decode lock content: " ++ e.Error
  | LockError.marshalLock e => "failed to marshal lock content: " ++ e
  | LockError.createLock e => "failed to create lock: " ++ e.text
  | LockError.deleteLock e => "failed to delete lock: " ++ e.text

/-- The struct `S3Lock` of the source. -/
structure S3Lock (σ : Type) where
  client : S3Client σ
  bucketName : String

/-- The function `NewS3Lock`: `HeadBucket` on the bucket, and a manager bound
to the client and the bucket when that call succeeds. -/
def NewS3Lock {σ : Type} (client : S3Client σ) (bucketName : String) (st : σ) :
    (Option (S3Lock σ) × Option LockError) × σ :=
  match client.HeadBucket bucketName st with
  | (some err, st1) => ((none, some (LockError.accessBucket bucketName err)), st1)
  | (none, st1) => ((some ⟨client, bucketName⟩, none), st1)

/-- The method `S3Lock.GetLock`: the holder stored under `resource` (`*int`),
no holder when the object does not exist, an error for any other failure of
the read and for a body that does not decode. -/
def S3Lock.GetLock {σ : Type} (s : S3Lock σ) (resource : String) (st : σ) :
    (Option Int × Option LockError) × σ :=
  match s.client.GetObject s.bucketName resource st with
  | (.error err, st1) =>
    if err.noSuchKey then ((none, none), st1)
    else ((none, some (LockError.getLock err)), st1)
  | (.ok body, st1) =>
    match json.Decode body zeroLockContent with
    | .error err => ((none, some (LockError.decodeLock err)), st1)
    | .ok lockContent => ((some lockContent.TransactionId, none), st1)

/-- The method `S3Lock.Lock`; `now` is the value `time.Now()` returns during
the call. -/
def S3Lock.Lock {σ : Type} (s : S3Lock σ) (now : Time) (transactionId : Int)
    (resource : String) (st : σ) : (Bool × Option LockError) × σ :=
  match s.GetLock resource st with
  | ((_, some err), st1) => ((false, some err), st1)
  | ((some _, none), st1) => ((false, none), st1)
  | ((none, none), st1) =>
    match json.Marshal ⟨transactionId, now⟩ with
    | .error err => ((false, some (LockError.marshalLock err)), st1)
    | .ok contentBytes =>
      match s.client.PutObject s.bucketName resource contentBytes st1 with
      | (some err, st2) => ((false, some (LockError.createLock err)), st2)
      | (none, st2) => ((true, none), st2)

/-- The method `S3Lock.Unlock`. -/
def S3Lock.Unlock {σ : Type} (s : S3Lock σ) (resource : String) (st : σ) :
    (Bool × Option LockError) × σ :=
  match s.GetLock resource st with
  | ((_, some err), st1) => ((false, some err), st1)
  | ((none, none), st1) => ((false, none), st1)
  | ((some _, none), st1) =>
    match s.client.DeleteObject s.bucketName resource st1 with
    | (some err, st2) => ((false, some (LockError.deleteLock err)), st2)
    | (none, st2) => ((true, none), st2)

/-! ## The fault-free store of the test file -/

/-- The field `objects map[string][]byte` of `mockS3Client`: the objects by
key. -/
abbrev Objects := String → Option (List Char)

/-- The error `&types.NoSuchKey{}`. -/
def errNoSuchKey : S3Error := ⟨true, "NoSuchKey: "⟩

/-- The client `mockS3Client` of the test file, a store whose calls never
fail: `PutObject` stores the body under the key, `GetObject` returns the body
stored under the key or `NoSuchKey`, `DeleteObject` removes the key, and no
method looks at the bucket. -/
def mockS3Client : S3Client Objects where
  HeadBucket := fun _ m => (none, m)
  PutObject := fun _ key body m => (none, fun k => if k = key then some body else m k)
  GetObject := fun _ key m =>
    match m key with
    | some data => (.ok data, m)
    | none => (.error errNoSuchKey, m)
  DeleteObject := fun _ key m => (none, fun k => if k = key then none else m k)

/-- A lock manager on the fault-free store, bound to `bucket`. -/
def mockLock (bucket : String) : S3Lock Objects := ⟨mockS3Client, bucket⟩

/-- The store without objects (`&mockS3Client{}`). -/
def emptyObjects : Objects := fun _ => none

/-! ## Predicates used to state the properties -/

/-- The time `Time.UnmarshalJSON` reads from the text `Time.MarshalJSON` wrote:
the same civil fields, the offset cut to whole minutes. -/
def Time.rounded (t : Time) : Time := { t with offset := Int.tdiv t.offset 60 * 60 }

/-- A clock reading that `Time.MarshalJSON` accepts: a well-formed time whose
year has four digits and whose zone is less than a day away from UTC. -/
def Time.inRange (t : Time) : Prop :=
  t.wellFormed ∧ (0 ≤ t.year ∧ t.year ≤ 9999) ∧
    (t.offset = 0 ∨ (Int.tdiv t.offset 60).natAbs / 60 < 24)

instance (t : Time) : Decidable t.inRange := by unfold Time.inRange; exact inferInstance

/-- A valid Lock Record: the holder is a Go `int`, and the creation time is one
that RFC 3339 text can express, that is a time in range whose zone offset is a
whole number of minutes. -/
def LockContent.valid (c : LockContent) : Prop :=
  isGoInt c.TransactionId ∧ c.CreatedAt.inRange ∧ c.CreatedAt.offset % 60 = 0

instance (c : LockContent) : Decidable c.valid := by unfold LockContent.valid; exact inferInstance

/-! ## Sequences of calls and the state machine of the spec -/

/-- One call of the lock manager: `Lock(h, r)` with the clock reading it takes,
`Unlock(r)` or `GetLock(r)`. -/
inductive Call where
  | lock : Time → Int → String → Call
  | unlock : String → Call
  | getLock : String → Call

/-- What a call returns: the boolean and the error of `Lock` and `Unlock`, or
the holder and the error of `GetLock`. -/
inductive Answer where
  | flag : Bool → Option LockError → Answer
  | holder : Option Int → Option LockError → Answer
deriving DecidableEq, Repr

/-- One call made on a lock manager. -/
def S3Lock.call {σ : Type} (s : S3Lock σ) (c : Call) (st : σ) : Answer × σ :=
  match c with
  | Call.lock now h r => ((Answer.flag (s.Lock now h r st).1.1 (s.Lock now h r st).1.2),
      (s.Lock now h r st).2)
  | Call.unlock r => ((Answer.flag (s.Unlock r st).1.1 (s.Unlock r st).1.2), (s.Unlock r st).2)
  | Call.getLock r => ((Answer.holder (s.GetLock r st).1.1 (s.GetLock r st).1.2),
      (s.GetLock r st).2)

/-- Calls made one after another, each on the store the one before left: the
answers in order and the final store. -/
def S3Lock.run {σ : Type} (s : S3Lock σ) : List Call → σ → List Answer × σ
  | [], st => ([], st)
  | c :: cs, st => ((s.call c st).1 :: (s.run cs (s.call c st).2).1, (s.run cs (s.call c st).2).2)

/-- The logical state of the spec's state machine: per resource `none` for
Unlocked and `some h` for Locked(h). -/
abbrev LockTable := String → Option Int

/-- The state machine in the words of the spec: Acquire on an unlocked resource
returns true and makes it Locked(holder), on a locked one it returns false;
Release on a locked resource returns true and makes it Unlocked, on an
unlocked one it returns false; Inspect reports the holder or none. No
transition fails. -/
def specCall (c : Call) (tb : LockTable) : Answer × LockTable :=
  match c with
  | Call.lock _ h r =>
    match tb r with
    | none => (Answer.flag true none, fun k => if k = r then some h else tb k)
    | some _ => (Answer.flag false none, tb)
  | Call.unlock r =>
    match tb r with
    | some _ => (Answer.flag true none, fun k => if k = r then none else tb k)
    | none => (Answer.flag false none, tb)
  | Call.getLock r => (Answer.holder (tb r) none, tb)

/-- The spec's state machine on a sequence of calls. -/
def specRun : List Call → LockTable → List Answer × LockTable
  | [], tb => ([], tb)
  | c :: cs, tb => ((specCall c tb).1 :: (specRun cs (specCall c tb).2).1,
      (specRun cs (specCall c tb).2).2)

/-- The logical state a store stands for: a resource is Locked(h) when its key
holds an object that decodes to the holder `h`, and Unlocked otherwise. -/
def holders (st : Objects) : LockTable := fun r =>
  match st r with
  | none => none
  | some body =>
    match json.Decode body zeroLockContent with
    | .ok c => some c.TransactionId
    | .error _ => none

/-- A call whose arguments the Go types allow: the holder of a `Lock` is a Go
`int` and its clock reading is in range. -/
def Call.valid : Call → Prop
  | Call.lock now h _ => isGoInt h ∧ now.inRange
  | Call.unlock _ => True
  | Call.getLock _ => True

instance (c : Call) : Decidable c.valid := by
  cases c <;> unfold Call.valid <;> exact inferInstance

/-- Every object of the store is the encoding of a Lock Record. -/
def soundStore (st : Objects) : Prop :=
  ∀ r body, st r = some body →
    ∃ c : LockContent, isGoInt c.TransactionId ∧ c.CreatedAt.wellFormed ∧ json.Marshal c = .ok body

/-- The text `rest` is what is left of `s` after at least one character was
taken off its front. -/
def Consumed (s rest : List Char) : Prop := rest <:+ s ∧ rest.length < s.length

/-- The characters with which a JSON value can begin, white space apart. -/
def canBeginValue (c : Char) : Bool :=
  c == '\x7b' || c == '[' || c == '"' || c == '-' || isDigit c || c == 't' || c == 'f' ||
    c == 'n'

/-- A JSON value of the wrong type for the field `TransactionId int`: anything
but `null` and a number that `strconv.ParseInt` reads as a Go `int`. -/
def holderMismatch : JValue → Prop
  | JValue.null => False
  | JValue.number lit => parseInt lit = none
  | JValue.string _ => True
  | JValue.bool _ => True
  | JValue.array _ => True
  | JValue.object _ => True

/-! ## A client that records the calls made on it -/

/-- One call on the S3 client with the arguments the lock manager chooses: the
bucket, the key and, for `PutObject`, the body. -/
inductive Request where
  | headBucket : String → Request
  | putObject : String → String → List Char → Request
  | getObject : String → String → Request
  | deleteObject : String → String → Request
deriving DecidableEq, Repr

/-- The bucket a call addresses. -/
def Request.bucket : Request → String
  | Request.headBucket b => b
  | Request.putObject b _ _ => b
  | Request.getObject b _ => b
  | Request.deleteObject b _ => b

/-- The key a call addresses, when it addresses one. -/
def Request.key : Request → Option String
  | Request.headBucket _ => none
  | Request.putObject _ k _ => some k
  | Request.getObject _ k => some k
  | Request.deleteObject _ k => some k

/-- Any client, wrapped so that every call is written to a log before it is
passed on: the state is the state of the wrapped client and the calls made so
far, oldest first. The answers are those of the wrapped client. -/
def recording {σ : Type} (c : S3Client σ) : S3Client (σ × List Request) where
  HeadBucket := fun b st =>
    ((c.HeadBucket b st.1).1, ((c.HeadBucket b st.1).2, st.2 ++ [Request.headBucket b]))
  PutObject := fun b k body st =>
    ((c.PutObject b k body st.1).1,
      ((c.PutObject b k body st.1).2, st.2 ++ [Request.putObject b k body]))
  GetObject := fun b k st =>
    ((c.GetObject b k st.1).1, ((c.GetObject b k st.1).2, st.2 ++ [Request.getObject b k]))
  DeleteObject := fun b k st =>
    ((c.DeleteObject b k st.1).1,
      ((c.DeleteObject b k st.1).2, st.2 ++ [Request.deleteObject b k]))

/-- A store on which every call fails with the same error, which is not
`NoSuchKey`. -/
def failingClient (e : String) : S3Client Unit where
  HeadBucket := fun _ st => (some ⟨false, e⟩, st)
  PutObject := fun _ _ _ st => (some ⟨false, e⟩, st)
  GetObject := fun _ _ st => (.error ⟨false, e⟩, st)
  DeleteObject := fun _ _ st => (some ⟨false, e⟩, st)

/-! ## `Lock` as two steps on the store -/

/-- Where a `Lock` call stands after its inspection: it has returned, or it is
about to write the encoded record. -/
inductive LockPhase where
  | returned : Bool × Option LockError → LockPhase
  | writing : List Char → LockPhase
deriving DecidableEq, Repr

/-- The first store step of `Lock` (lines 51 to 67 of the source): the
inspection and the encoding of the record. -/
def S3Lock.lockInspect {σ : Type} (s : S3Lock σ) (now : Time) (transactionId : Int)
    (resource : String) (st : σ) : LockPhase × σ :=
  match s.GetLock resource st with
  | ((_, some err), st1) => (LockPhase.returned (false, some err), st1)
  | ((some _, none), st1) => (LockPhase.returned (false, none), st1)
  | ((none, none), st1) =>
    match json.Marshal ⟨transactionId, now⟩ with
    | .error err => (LockPhase.returned (false, some (LockError.marshalLock err)), st1)
    | .ok contentBytes => (LockPhase.writing contentBytes, st1)

/-- The second store step of `Lock` (lines 69 to 78 of the source): the
`PutObject` of the encoded record. -/
def S3Lock.lockWrite {σ : Type} (s : S3Lock σ) (resource : String) (contentBytes : List Char)
    (st : σ) : (Bool × Option LockError) × σ :=
  match s.client.PutObject s.bucketName resource contentBytes st with
  | (some err, st2) => ((false, some (LockError.createLock err)), st2)
  | (none, st2) => ((true, none), st2)

/-- A `Lock` call that runs its two steps with nothing in between. -/
def S3Lock.lockSteps {σ : Type} (s : S3Lock σ) (now : Time) (transactionId : Int)
    (resource : String) (st : σ) : (Bool × Option LockError) × σ :=
  match s.lockInspect now transactionId resource st with
  | (LockPhase.returned res, st1) => (res, st1)
  | (LockPhase.writing contentBytes, st1) => s.lockWrite resource contentBytes st1

/-! ## The database configuration of `next/dbmodels/setup.go` -/

/-- The struct `DatabaseConfig` of the source. -/
structure DatabaseConfig where
  Dialect : String
  DSN : String
deriving DecidableEq, Repr

/-- The function `getDBConfig`. Its inputs are the values of the environment
variables `DIGGER_DB_DIALECT`, `DIGGER_DATABASE_URL` and `DIGGER_SQLITE_PATH`,
an unset variable being the empty string as with `os.Getenv`; `ToLower` is
`strings.ToLower` of the standard library. The result is the configuration or
the text of the error. -/
def getDBConfig (ToLower : String → String) (envDialect envURL envPath : String) :
    Except String DatabaseConfig :=
  let dialect := if ToLower envDialect = "" then "postgres" else ToLower envDialect
  if dialect = "postgres" then
    if envURL = "" then
      .error "DIGGER_DATABASE_URL environment variable is required for postgres"
    else .ok ⟨dialect, envURL⟩
  else if dialect = "sqlite" then
    .ok ⟨dialect, if envPath = "" then "digger.db" else envPath⟩
  else .error ("unsupported database dialect: " ++ dialect)

/-- Lower-casing of the ASCII letters of a text, on which it agrees with
`strings.ToLower`; it serves to run `getDBConfig` on such texts. -/
def lowerASCII (s : String) : String := String.mk (s.toList.map Char.toLower)

/-! ## Objects with further members -/

/-- The text of the members of an object, each given by the text between the
quotes of its key and the text of its value, written without white space as
`json.Marshal` writes them. -/
def renderMembers : List (List Char × List Char) → List Char
  | [] => []
  | (k, v) :: ms =>
    match ms with
    | [] => '"' :: (k ++ '"' :: ':' :: v)
    | _ :: _ => '"' :: (k ++ '"' :: ':' :: (v ++ ',' :: renderMembers ms))

/-- The text of the object with the given members. -/
def renderObject (ms : List (List Char × List Char)) : List Char :=
  '\x7b' :: (renderMembers ms ++ ['\x7d'])

/-- The member `transaction_id` of an encoded Lock Record, as `json.Marshal`
writes it. -/
def idMember (c : LockContent) : List Char × List Char :=
  ("transaction_id".toList, formatInt c.TransactionId)

/-- The member `created_at` of an encoded Lock Record, as `json.Marshal` writes
it. -/
def timeMember (c : LockContent) : List Char × List Char :=
  ("created_at".toList, '"' :: (appendFormatRFC3339 c.CreatedAt ++ ['"']))

/-- The members of a Lock Record with further members before, between and
after its own two. -/
def withExtras (c : LockContent) (pre mid post : List (List Char × List Char)) :
    List (List Char × List Char) :=
  pre ++ idMember c :: (mid ++ timeMember c :: post)

/-- A member the decoder does not know and the scanner accepts: the key is the
body of a string literal and selects no field of `LockContent`, and the value
is the text of one JSON value that the scanner takes in full inside the
object of the record. -/
def extraMember (m : List Char × List Char) : Prop :=
  scanString (m.1 ++ ['"']) = some (m.1, []) ∧ lookupField (unquote m.1) = none ∧
    ∃ fuel val, parseValue fuel 1 m.2 = some (val, [])

/-- The text that follows does not continue a number: it is empty or begins
with a character that is no digit, dot or exponent mark. -/
def endsNumber (rest : List Char) : Prop :=
  match rest with
  | [] => True
  | c :: _ => isDigit c = false ∧ c ≠ '.' ∧ c ≠ 'e' ∧ c ≠ 'E'

/-- The value of a member as the scanner takes it when a comma or a closing
brace follows, for every bound on the recursion from some bound on. -/
def scansAs (d : Nat) (v : List Char) (val : JValue) : Prop :=
  ∃ F, ∀ fuel, F ≤ fuel → ∀ sep rest, sep = ',' ∨ sep = '\x7d' →
    parseValue fuel d (v ++ sep :: rest) = some (val, sep :: rest)

/-! ## Lemmas -/

theorem utod_toNat (d : Nat) (h : d < 10) : (utod d).toNat = 48 + d := by
  interval_cases d <;> rfl

theorem isDigit_utod (d : Nat) (h : d < 10) : isDigit (utod d) = true := by
  interval_cases d <;> rfl

theorem digitVal_utod (d : Nat) (h : d < 10) : digitVal (utod d) = d := by
  interval_cases d <;> rfl

theorem digitsValue_snoc (a : List Char) (c : Char) :
    digitsValue (a ++ [c]) = digitsValue a * 10 + digitVal c := by
  simp [digitsValue, List.foldl_append]

/-- The digits of `n` are pushed in front of the accumulator as they are. -/
theorem formatBits_acc : ∀ (fuel n : Nat) (acc : List Char),
    formatBits fuel n acc = formatBits fuel n [] ++ acc := by
  intro fuel
  induction fuel with
  | zero => intro n acc; simp [formatBits]
  | succ k ih =>
    intro n acc
    unfold formatBits
    by_cases h : n < 10
    · simp [h]
    · simp only [h, if_false]
      rw [ih (n / 10) (utod (n % 10) :: acc), ih (n / 10) [utod (n % 10)]]
      simp

/-- Any bound above `n` lets the loop run to its end. -/
theorem formatBits_fuel : ∀ (fuel n : Nat), n < fuel → ∀ fuel2, n < fuel2 →
    formatBits fuel n [] = formatBits fuel2 n [] := by
  intro fuel
  induction fuel with
  | zero => intro n h; omega
  | succ k ih =>
    intro n h fuel2 h2
    cases fuel2 with
    | zero => omega
    | succ k2 =>
      unfold formatBits
      by_cases hn : n < 10
      · simp [hn]
      · simp only [hn, if_false]
        rw [formatBits_acc k, formatBits_acc k2]
        rw [ih (n / 10) (by omega) k2 (by omega)]

theorem formatUint_small (n : Nat) (h : n < 10) : formatUint n = [utod n] := by
  simp [formatUint, formatBits, h]

theorem formatUint_step (n : Nat) (h : 10 ≤ n) :
    formatUint n = formatUint (n / 10) ++ [utod (n % 10)] := by
  have hn : ¬ n < 10 := by omega
  unfold formatUint
  rw [formatBits]
  simp only [hn, if_false]
  rw [formatBits_acc]
  rw [formatBits_fuel n (n / 10) (by omega) (n / 10 + 1) (by omega)]

theorem formatUint_digits (n : Nat) : (formatUint n).all isDigit = true := by
  induction n using Nat.strong_induction_on with
  | _ n ih =>
    by_cases h : n < 10
    · rw [formatUint_small n h]; simp [isDigit_utod n h]
    · rw [formatUint_step n (by omega)]
      simp only [List.all_append, Bool.and_eq_true]
      exact ⟨ih (n / 10) (by omega), by simp [isDigit_utod (n % 10) (by omega)]⟩

theorem digitsValue_formatUint (n : Nat) : digitsValue (formatUint n) = n := by
  induction n using Nat.strong_induction_on with
  | _ n ih =>
    by_cases h : n < 10
    · rw [formatUint_small n h]; simp [digitsValue, digitVal_utod n h]
    · rw [formatUint_step n (by omega), digitsValue_snoc, ih (n / 10) (by omega),
        digitVal_utod (n % 10) (by omega)]
      omega

/-- The text of a positive number begins with a digit other than `0`. -/
theorem formatUint_head (n : Nat) (h : 0 < n) :
    ∃ c r, formatUint n = c :: r ∧ isDigit c = true ∧ c ≠ '0' ∧ r.all isDigit = true := by
  induction n using Nat.strong_induction_on with
  | _ n ih =>
    by_cases hn : n < 10
    · refine ⟨utod n, [], formatUint_small n hn, isDigit_utod n hn, ?_, rfl⟩
      interval_cases n <;> decide
    · obtain ⟨c, r, hc, hd, h0, hr⟩ := ih (n / 10) (by omega) (by omega)
      refine ⟨c, r ++ [utod (n % 10)], ?_, hd, h0, ?_⟩
      · rw [formatUint_step n (by omega), hc]; rfl
      · simp [hr, isDigit_utod (n % 10) (by omega)]

theorem formatUint_zero : formatUint 0 = ['0'] := rfl

theorem isDigit_ne_plus {c : Char} (h : isDigit c = true) : c ≠ '+' := by
  intro e; subst e; revert h; decide

theorem isDigit_ne_minus {c : Char} (h : isDigit c = true) : c ≠ '-' := by
  intro e; subst e; revert h; decide

/-- Every text of a natural number is a digit followed by digits. -/
theorem formatUint_cons (n : Nat) :
    ∃ c r, formatUint n = c :: r ∧ isDigit c = true ∧ r.all isDigit = true := by
  rcases Nat.eq_zero_or_pos n with h | h
  · subst h; exact ⟨'0', [], rfl, rfl, rfl⟩
  · obtain ⟨c, r, hc, hd, _, hr⟩ := formatUint_head n h
    exact ⟨c, r, hc, hd, hr⟩

theorem parseInt_minus (body : List Char) (hne : body ≠ []) (hd : body.all isDigit = true) :
    parseInt ('-' :: body) =
      if isGoInt (-(digitsValue body : Int)) then some (-(digitsValue body : Int)) else none := by
  cases body with
  | nil => exact absurd rfl hne
  | cons c r =>
    have hd2 := hd
    simp at hd2
    simp [parseInt, hd2]
    intro x hx hf
    rw [hd2.2 x hx] at hf
    cases hf

theorem parseInt_plain (c : Char) (r : List Char) (hc : isDigit c = true)
    (hd : r.all isDigit = true) :
    parseInt (c :: r) =
      if isGoInt (digitsValue (c :: r) : Int) then some (digitsValue (c :: r) : Int) else none := by
  have h1 := isDigit_ne_plus hc
  have h2 := isDigit_ne_minus hc
  have hd2 := hd
  simp at hd2
  simp [parseInt, h1, h2, hc, hd2]
  intro x hx hf
  rw [hd2 x hx] at hf
  cases hf

/-- Reading back the decimal text of a Go `int` gives the number. -/
theorem parseInt_formatInt (h : Int) (hr : isGoInt h) : parseInt (formatInt h) = some h := by
  obtain ⟨c, r, hc, hd, hall⟩ := formatUint_cons h.natAbs
  have hv := digitsValue_formatUint h.natAbs
  by_cases hneg : h < 0
  · have e : -((h.natAbs : Nat) : Int) = h := by omega
    simp only [formatInt, hneg, if_true]
    rw [parseInt_minus _ (by rw [hc]; simp) (formatUint_digits _), hv, e]
    simp [hr]
  · have e : ((h.natAbs : Nat) : Int) = h := by omega
    simp only [formatInt, hneg, if_false]
    rw [hc, parseInt_plain c r hd hall, ← hc, hv, e]
    simp [hr]

theorem appendInt_two (x : Int) (h0 : 0 ≤ x) (h : x < 100) :
    appendInt x 2 = [utod (x.natAbs / 10), utod (x.natAbs % 10)] := by
  have h1 : ¬ x < 0 := by omega
  have h2 : x.natAbs < 100 := by omega
  simp [appendInt, h1, h2]

theorem appendInt_four (x : Int) (h0 : 0 ≤ x) (h : x < 10000) :
    appendInt x 4 = [utod (x.natAbs / 1000), utod (x.natAbs / 100 % 10),
      utod (x.natAbs / 10 % 10), utod (x.natAbs % 10)] := by
  have h1 : ¬ x < 0 := by omega
  have h2 : x.natAbs < 10000 := by omega
  simp [appendInt, h1, h2]

theorem parseUint_two (a b lo hi : Nat) (ha : a < 10) (hb : b < 10)
    (h1 : lo ≤ a * 10 + b) (h2 : a * 10 + b ≤ hi) :
    parseUint [utod a, utod b] lo hi = some (a * 10 + b) := by
  have hv : digitsValue [utod a, utod b] = a * 10 + b := by
    simp [digitsValue, digitVal_utod a ha, digitVal_utod b hb]
  simp [parseUint, hv, isDigit_utod a ha, isDigit_utod b hb, h1, h2]

theorem parseUint_four (a b c d lo hi : Nat) (ha : a < 10) (hb : b < 10) (hc : c < 10)
    (hd : d < 10) (h1 : lo ≤ ((a * 10 + b) * 10 + c) * 10 + d)
    (h2 : ((a * 10 + b) * 10 + c) * 10 + d ≤ hi) :
    parseUint [utod a, utod b, utod c, utod d] lo hi =
      some (((a * 10 + b) * 10 + c) * 10 + d) := by
  have hv : digitsValue [utod a, utod b, utod c, utod d] = ((a * 10 + b) * 10 + c) * 10 + d := by
    simp [digitsValue, digitVal_utod a ha, digitVal_utod b hb, digitVal_utod c hc,
      digitVal_utod d hd]
  simp [parseUint, hv, isDigit_utod a ha, isDigit_utod b hb, isDigit_utod c hc,
    isDigit_utod d hd, h1, h2]

theorem digitsValue_zeros (k : Nat) (ds : List Char) :
    digitsValue (List.replicate k '0' ++ ds) = digitsValue ds := by
  induction k with
  | zero => simp
  | succ k ih =>
    have : digitsValue ('0' :: (List.replicate k '0' ++ ds)) =
        digitsValue (List.replicate k '0' ++ ds) := by
      simp [digitsValue, digitVal]
    rw [List.replicate_succ, List.cons_append, this, ih]

theorem formatUint_length (w : Nat) : ∀ n : Nat, n < 10 ^ (w + 1) →
    (formatUint n).length ≤ w + 1 := by
  induction w with
  | zero =>
    intro n h
    rw [formatUint_small n (by simpa using h)]; simp
  | succ w ih =>
    intro n h
    by_cases hn : n < 10
    · rw [formatUint_small n hn]; simp
    · rw [formatUint_step n (by omega)]
      have : n / 10 < 10 ^ (w + 1) := by
        rw [pow_succ] at h; omega
      have := ih (n / 10) this
      simp; omega

/-- The nine-digit text of the nanoseconds: nine digits whose value is the
number. -/
theorem appendInt_nine (n : Nat) (h : n < 1000000000) :
    (appendInt (n : Int) 9).length = 9 ∧ (appendInt (n : Int) 9).all isDigit = true ∧
      digitsValue (appendInt (n : Int) 9) = n := by
  have hl := formatUint_length 8 n (by norm_num; exact h)
  have h1 : ¬ ((n : Int) < 0) := by omega
  have e : appendInt (n : Int) 9 =
      List.replicate (9 - (formatUint n).length) '0' ++ formatUint n := by
    simp [appendInt, h1]
  rw [e]
  refine ⟨by simp; omega, ?_, ?_⟩
  · rw [List.all_append, formatUint_digits]
    simp
    right; rfl
  · rw [digitsValue_zeros, digitsValue_formatUint]

/-- Dropping the trailing zeros of a run of digits divides its value by a power
of ten and leaves a run that does not end in `0`. -/
theorem trim_value : ∀ (l : List Char), digitsValue l.reverse ≠ 0 →
    (l.dropWhile (fun c => c == '0')) ≠ [] ∧
    digitsValue (l.dropWhile (fun c => c == '0')).reverse *
      10 ^ (l.length - (l.dropWhile (fun c => c == '0')).length) = digitsValue l.reverse := by
  intro l
  induction l with
  | nil => intro h; simp [digitsValue] at h
  | cons c l ih =>
    intro h
    by_cases hc : c = '0'
    · subst hc
      have hv : digitsValue (('0' :: l).reverse) = digitsValue l.reverse * 10 := by
        rw [List.reverse_cons, digitsValue_snoc]; rfl
      have hl : digitsValue l.reverse ≠ 0 := by
        intro e; rw [hv, e] at h; exact h rfl
      obtain ⟨h1, h2⟩ := ih hl
      have hd : List.dropWhile (fun c => c == '0') ('0' :: l) =
          List.dropWhile (fun c => c == '0') l := by simp [List.dropWhile]
      rw [hd, hv]
      refine ⟨h1, ?_⟩
      have hle : (List.dropWhile (fun c => c == '0') l).length ≤ l.length :=
        (List.dropWhile_sublist _).length_le
      have : (('0' :: l).length - (List.dropWhile (fun c => c == '0') l).length) =
          (l.length - (List.dropWhile (fun c => c == '0') l).length) + 1 := by
        simp; omega
      rw [this, pow_succ, ← mul_assoc, h2]
    · have hb : (c == '0') = false := by simp [hc]
      have hd : List.dropWhile (fun c => c == '0') (c :: l) = c :: l := by
        unfold List.dropWhile
        split
        · rename_i heq; rw [hb] at heq; cases heq
        · rfl
      rw [hd]
      exact ⟨by simp, by simp⟩

theorem isTimeChar_of_isDigit {c : Char} (h : isDigit c = true) : isTimeChar c = true := by
  simp [isTimeChar, h]

theorem isTimeChar_cases {c : Char} (h : isTimeChar c = true) :
    isDigit c = true ∨ c = '-' ∨ c = '+' ∨ c = ':' ∨ c = '.' ∨ c = 'T' ∨ c = 'Z' := by
  simpa [isTimeChar, or_assoc] using h

theorem isPlain_of_isDigit {c : Char} (h : isDigit c = true) : isPlain c = true := by
  simp only [isDigit, Bool.and_eq_true, decide_eq_true_eq] at h
  have h1 : c ≠ '"' := by intro e; subst e; revert h; decide
  have h2 : c ≠ '\\' := by intro e; subst e; revert h; decide
  simp [isPlain, h1, h2]; omega

theorem all_of_sublist {l1 l2 : List Char} (h : l1.Sublist l2) (p : Char → Bool)
    (hall : l2.all p = true) : l1.all p = true := by
  simp only [List.all_eq_true] at *
  intro x hx
  exact hall x (h.subset hx)

theorem isDigit_ne_dot {c : Char} (h : isDigit c = true) : c ≠ '.' := by
  intro e; subst e; revert h; decide

/-- The fraction written for a second that is not whole: a dot and between one
and nine digits that read back as the nanoseconds. -/
theorem appendNano_spec (n : Nat) (h : n < 1000000000) (hn : n ≠ 0) :
    ∃ d more, appendNano n = '.' :: d :: more ∧ isDigit d = true ∧
      more.all isDigit = true ∧ (d :: more).length ≤ 9 ∧
      digitsValue (d :: more) * 10 ^ (9 - (d :: more).length) = n := by
  obtain ⟨hlen, hdig, hval⟩ := appendInt_nine n h
  generalize hds : appendInt (n : Int) 9 = ds at hlen hdig hval
  have hv : digitsValue ds.reverse.reverse ≠ 0 := by rw [List.reverse_reverse, hval]; exact hn
  obtain ⟨hne, heq⟩ := trim_value ds.reverse hv
  generalize hX : List.dropWhile (fun c => c == '0') ds.reverse = X at hne heq
  have hsub : X.Sublist ds.reverse := by rw [← hX]; exact List.dropWhile_sublist _
  have hXd : X.all isDigit = true :=
    all_of_sublist hsub isDigit (by rw [List.all_reverse]; exact hdig)
  have hXl : X.length ≤ 9 := by
    have := hsub.length_le
    rw [List.length_reverse, hlen] at this; exact this
  have hdrop : List.dropWhile (fun c => c == '0') (('.' :: ds).reverse) = X ++ ['.'] := by
    rw [List.reverse_cons, List.dropWhile_append, hX]
    cases X with
    | nil => exact absurd rfl hne
    | cons a b => rfl
  have htrim : trimFraction ('.' :: ds) = '.' :: X.reverse := by
    unfold trimFraction
    rw [hdrop]
    cases X with
    | nil => exact absurd rfl hne
    | cons a b =>
      have ha : isDigit a = true := by
        simp only [List.all_cons, Bool.and_eq_true] at hXd; exact hXd.1
      have : a ≠ '.' := isDigit_ne_dot ha
      simp [this]
  have hrev : X.reverse.all isDigit = true := by rw [List.all_reverse]; exact hXd
  have e : appendNano n = '.' :: X.reverse := by
    simp only [appendNano, hn, if_false, hds, htrim]
  rw [List.reverse_reverse, List.length_reverse, hlen, hval] at heq
  cases hR : X.reverse with
  | nil =>
    have : X = [] := by simpa using hR
    exact absurd this hne
  | cons d more =>
    rw [hR] at hrev e heq
    have hl2 : (d :: more).length = X.length := by rw [← hR, List.length_reverse]
    simp only [List.all_cons, Bool.and_eq_true] at hrev
    refine ⟨d, more, e, hrev.1, hrev.2, by rw [hl2]; exact hXl, ?_⟩
    rw [hl2]; exact heq

theorem takeWhile_digits (ds : List Char) (z : Char) (zs : List Char)
    (hd : ds.all isDigit = true) (hz : isDigit z = false) :
    (ds ++ z :: zs).takeWhile isDigit = ds ∧ (ds ++ z :: zs).dropWhile isDigit = z :: zs := by
  induction ds with
  | nil => simp [List.takeWhile, List.dropWhile, hz]
  | cons c r ih =>
    simp only [List.all_cons, Bool.and_eq_true] at hd
    obtain ⟨h1, h2⟩ := ih hd.2
    simp [List.takeWhile, List.dropWhile, hd.1, h1, h2]

/-- The zone suffix reads back as the offset cut to whole minutes, and it
begins with a character that is neither a digit nor a dot. -/
theorem parseZone_appendZone (off : Int)
    (hz : off = 0 ∨ (Int.tdiv off 60).natAbs / 60 < 24) :
    parseZone (appendZone off) = some (Int.tdiv off 60 * 60) ∧
    (∃ z zs, appendZone off = z :: zs ∧ isDigit z = false ∧ z ≠ '.') ∧
    (appendZone off).all isTimeChar = true := by
  by_cases h0 : off = 0
  · subst h0
    exact ⟨by decide, ⟨'Z', [], rfl, by decide, by decide⟩, by decide⟩
  · have hh : (Int.tdiv off 60).natAbs / 60 < 24 := by
      rcases hz with h | h
      · exact absurd h h0
      · exact h
    generalize hzone : Int.tdiv off 60 = zone at hh ⊢
    have habs : (if zone < 0 then -zone else zone) = ((zone.natAbs : Nat) : Int) := by
      split <;> omega
    have hdiv : Int.tdiv ((zone.natAbs : Nat) : Int) 60 = ((zone.natAbs / 60 : Nat) : Int) :=
      (Int.ofNat_tdiv _ _).symm
    have hmod : Int.tmod ((zone.natAbs : Nat) : Int) 60 = ((zone.natAbs % 60 : Nat) : Int) :=
      (Int.ofNat_tmod _ _).symm
    have e : appendZone off = (if zone < 0 then '-' else '+') ::
        [utod (zone.natAbs / 60 / 10), utod (zone.natAbs / 60 % 10), ':',
          utod (zone.natAbs % 60 / 10), utod (zone.natAbs % 60 % 10)] := by
      simp only [appendZone, h0, if_false, hzone, habs, hdiv, hmod]
      rw [appendInt_two _ (by omega) (by omega), appendInt_two _ (by omega) (by omega)]
      rw [Int.natAbs_ofNat, Int.natAbs_ofNat]
      rfl
    rw [e]
    have hH := parseUint_two (zone.natAbs / 60 / 10) (zone.natAbs / 60 % 10) 0 23
      (by omega) (by omega) (by omega) (by omega)
    have hM := parseUint_two (zone.natAbs % 60 / 10) (zone.natAbs % 60 % 10) 0 59
      (by omega) (by omega) (by omega) (by omega)
    have hp : ∀ d, d < 10 → isTimeChar (utod d) = true :=
      fun d hd => isTimeChar_of_isDigit (isDigit_utod d hd)
    have hsign : isTimeChar (if zone < 0 then '-' else '+') = true := by split <;> decide
    refine ⟨?_, ?_, ?_⟩
    rotate_left 2
    · simp only [List.all_cons, List.all_nil, Bool.and_true, Bool.and_eq_true]
      exact ⟨hsign, hp _ (by omega), hp _ (by omega), by decide, hp _ (by omega),
        hp _ (by omega)⟩
    · simp only [parseZone, hH, hM]
      have hZ : zone < 0 → -((zone.natAbs : Nat) : Int) = zone := by omega
      have hZ2 : ¬ zone < 0 → ((zone.natAbs : Nat) : Int) = zone := by omega
      clear hz hzone hdiv hmod habs e hH hM
      generalize zone.natAbs = Z at *
      have hsum : (((Z / 60 / 10 * 10 + Z / 60 % 10) * 60 + (Z % 60 / 10 * 10 + Z % 60 % 10)) * 60
          : Nat) = Z * 60 := by omega
      rw [hsum]
      by_cases hneg : zone < 0
      · have := hZ hneg
        simp only [hneg, if_true, true_or, and_self, Nat.cast_mul, Nat.cast_ofNat]
        rw [← this]; ring_nf
      · have := hZ2 hneg
        have hc : ¬ ('+' = '-') := by decide
        simp only [hneg, if_false, or_true, and_self, if_true, hc, Nat.cast_mul, Nat.cast_ofNat]
        rw [← this]
    · refine ⟨_, _, rfl, ?_, ?_⟩
      · split <;> decide
      · split <;> decide

theorem parseFraction_append (n : Nat) (h : n < 1000000000) (z : Char) (zs : List Char)
    (hz : isDigit z = false) (hdot : z ≠ '.') :
    parseFraction (appendNano n ++ z :: zs) = (n, z :: zs) := by
  by_cases hn : n = 0
  · subst hn
    have e : appendNano 0 = [] := rfl
    rw [e, List.nil_append]
    cases zs with
    | nil => rfl
    | cons d more => simp [parseFraction, hdot]
  · obtain ⟨d, more, e, hd, hm, hlen, hval⟩ := appendNano_spec n h hn
    have hall : (d :: more).all isDigit = true := by
      simp only [List.all_cons, Bool.and_eq_true]; exact ⟨hd, hm⟩
    obtain ⟨h1, h2⟩ := takeWhile_digits (d :: more) z zs hall hz
    rw [e]
    have e2 : ('.' :: d :: more) ++ z :: zs = '.' :: d :: (more ++ z :: zs) := rfl
    rw [e2]
    simp only [parseFraction, hd, and_self, if_true]
    have e3 : d :: (more ++ z :: zs) = (d :: more) ++ z :: zs := rfl
    rw [e3, h1, h2]
    have ht : List.take 9 (d :: more) = d :: more := List.take_of_length_le hlen
    simp only [parseNanoseconds, ht, hval]

/-- Reading back the RFC 3339 text of a time gives its civil fields and its
offset cut to whole minutes. -/
theorem parseRFC3339_append (t : Time) (wf : t.wellFormed)
    (hy : 0 ≤ t.year ∧ t.year ≤ 9999)
    (hz : t.offset = 0 ∨ (Int.tdiv t.offset 60).natAbs / 60 < 24) :
    parseRFC3339 (appendFormatRFC3339 t) =
      some { t with offset := Int.tdiv t.offset 60 * 60 } := by
  obtain ⟨hm1, hm2, hd1, hd2, hh, hmi, hs, hns⟩ := wf
  obtain ⟨hzone, ⟨z, zs, ez, hzd, hzdot⟩, _⟩ := parseZone_appendZone t.offset hz
  have hfrac := parseFraction_append t.nanosecond hns z zs hzd hzdot
  have hdays : daysIn t.month t.year ≤ 31 := by
    unfold daysIn; split
    · split <;> omega
    · split <;> omega
  obtain ⟨yr, mo, dy, hr, mi, sc, ns, off⟩ := t
  simp only at *
  obtain ⟨Y, rfl⟩ : ∃ Y : Nat, yr = (Y : Int) := ⟨yr.toNat, by omega⟩
  have hY : Y ≤ 9999 := by omega
  have e : appendFormatRFC3339 ⟨(Y : Int), mo, dy, hr, mi, sc, ns, off⟩ =
      utod (Y / 1000) :: utod (Y / 100 % 10) :: utod (Y / 10 % 10) :: utod (Y % 10) :: '-' ::
      utod (mo / 10) :: utod (mo % 10) :: '-' :: utod (dy / 10) :: utod (dy % 10) :: 'T' ::
      utod (hr / 10) :: utod (hr % 10) :: ':' :: utod (mi / 10) :: utod (mi % 10) :: ':' ::
      utod (sc / 10) :: utod (sc % 10) :: (appendNano ns ++ z :: zs) := by
    simp only [appendFormatRFC3339]
    rw [appendInt_four _ (by omega) (by omega), appendInt_two _ (by omega) (by omega),
      appendInt_two _ (by omega) (by omega), appendInt_two _ (by omega) (by omega),
      appendInt_two _ (by omega) (by omega), appendInt_two _ (by omega) (by omega), ez]
    simp only [Int.natAbs_ofNat]
    rfl
  rw [e]
  have pY := parseUint_four (Y / 1000) (Y / 100 % 10) (Y / 10 % 10) (Y % 10) 0 9999
    (by omega) (by omega) (by omega) (by omega) (by omega) (by omega)
  have eY : ((Y / 1000 * 10 + Y / 100 % 10) * 10 + Y / 10 % 10) * 10 + Y % 10 = Y := by omega
  rw [eY] at pY
  have pM := parseUint_two (mo / 10) (mo % 10) 1 12 (by omega) (by omega) (by omega) (by omega)
  have eM : mo / 10 * 10 + mo % 10 = mo := by omega
  rw [eM] at pM
  have pD := parseUint_two (dy / 10) (dy % 10) 1 (daysIn mo (Y : Int)) (by omega) (by omega)
    (by omega) (by omega)
  have eD : dy / 10 * 10 + dy % 10 = dy := by omega
  rw [eD] at pD
  have pH := parseUint_two (hr / 10) (hr % 10) 0 23 (by omega) (by omega) (by omega) (by omega)
  have eH : hr / 10 * 10 + hr % 10 = hr := by omega
  rw [eH] at pH
  have pI := parseUint_two (mi / 10) (mi % 10) 0 59 (by omega) (by omega) (by omega) (by omega)
  have eI : mi / 10 * 10 + mi % 10 = mi := by omega
  rw [eI] at pI
  have pS := parseUint_two (sc / 10) (sc % 10) 0 59 (by omega) (by omega) (by omega) (by omega)
  have eS : sc / 10 * 10 + sc % 10 = sc := by omega
  rw [eS] at pS
  rw [ez] at hzone
  simp only [parseRFC3339, pY, pM, pD, pH, pI, pS, hfrac, hzone, and_self, if_true]

/-- A run of plain characters up to a quote is the body of a string. -/
theorem scanString_plain (body rest : List Char) (h : body.all isPlain = true) :
    scanString (body ++ '"' :: rest) = some (body, rest) := by
  induction body with
  | nil => rw [List.nil_append, scanString.eq_def]; simp
  | cons c r ih =>
    simp only [List.all_cons, Bool.and_eq_true] at h
    have hc := h.1
    simp only [isPlain, Bool.and_eq_true, bne_iff_ne, ne_eq, decide_eq_true_eq] at hc
    have h3 : ¬ c.toNat < 32 := by omega
    rw [List.cons_append, scanString.eq_def]
    simp only [hc.1.1, hc.1.2, if_false, h3, ih h.2]

theorem skipSpace_cons (c : Char) (r : List Char) (h : isSpace c = false) :
    skipSpace (c :: r) = c :: r := by
  simp [skipSpace, h]

theorem isSpace_of_isDigit {c : Char} (h : isDigit c = true) : isSpace c = false := by
  simp only [isDigit, Bool.and_eq_true, decide_eq_true_eq] at h
  have h1 : c ≠ ' ' := by intro e; subst e; revert h; decide
  have h2 : c ≠ '\t' := by intro e; subst e; revert h; decide
  have h3 : c ≠ '\r' := by intro e; subst e; revert h; decide
  have h4 : c ≠ '\n' := by intro e; subst e; revert h; decide
  simp [isSpace, h1, h2, h3, h4]

/-- The scanner takes the decimal text of an integer as one number when a
comma follows it. -/
theorem scanNumber_formatInt (h : Int) (rest : List Char) :
    scanNumber (formatInt h ++ ',' :: rest) = some (formatInt h, ',' :: rest) := by
  have hcomma : isDigit ',' = false := by decide
  have key : ∀ n : Nat, scanDigits (formatUint n ++ ',' :: rest) =
      some (formatUint n, ',' :: rest) := by
    intro n
    rcases Nat.eq_zero_or_pos n with h0 | hpos
    · subst h0; rfl
    · obtain ⟨c, r, hc, hd, hne, hr⟩ := formatUint_head n hpos
      obtain ⟨t1, t2⟩ := takeWhile_digits r ',' rest hr hcomma
      rw [hc]
      simp only [List.cons_append, scanDigits, hne, if_false, hd, if_true, t1, t2]
  have frac : scanFraction (',' :: rest) = some ([], ',' :: rest) := by
    have h1 : ¬ (',' = '.') := by decide
    have h2 : ¬ (',' = 'e' ∨ ',' = 'E') := by decide
    simp only [scanFraction, h1, h2, if_false]
  obtain ⟨c, r, hc, hd, hr⟩ := formatUint_cons h.natAbs
  by_cases hneg : h < 0
  · simp only [formatInt, hneg, if_true, List.cons_append, scanNumber, key, frac]
    simp
  · have hm := isDigit_ne_minus hd
    have k := key h.natAbs
    rw [hc, List.cons_append] at k
    simp only [formatInt, hneg, if_false, hc, List.cons_append, scanNumber, hm, k, frac]
    simp

theorem parseValue_number (fuel depth : Nat) (c : Char) (r lit after : List Char)
    (hc : c = '-' ∨ isDigit c = true) (h : scanNumber (c :: r) = some (lit, after)) :
    parseValue (fuel + 1) depth (c :: r) = some (JValue.number lit, after) := by
  have hs : isSpace c = false := by
    rcases hc with e | e
    · subst e; decide
    · exact isSpace_of_isDigit e
  have h1 : c ≠ '\x7b' := by
    rcases hc with e | e
    · subst e; decide
    · intro e2; subst e2; revert e; decide
  have h2 : c ≠ '[' := by
    rcases hc with e | e
    · subst e; decide
    · intro e2; subst e2; revert e; decide
  have h3 : c ≠ '"' := by
    rcases hc with e | e
    · subst e; decide
    · intro e2; subst e2; revert e; decide
  simp only [parseValue, skipSpace_cons c r hs, h1, h2, h3, if_false, hc, if_true, h]

theorem parseValue_string (fuel depth : Nat) (r body after : List Char)
    (h : scanString r = some (body, after)) :
    parseValue (fuel + 1) depth ('"' :: r) = some (JValue.string body, after) := by
  have hs : isSpace '"' = false := by decide
  have h1 : ¬ ('"' = '\x7b') := by decide
  have h2 : ¬ ('"' = '[') := by decide
  simp only [parseValue, skipSpace_cons _ r hs, h1, h2, if_false, if_true, h]

theorem parseMembers_last (fuel depth : Nat) (r key r2 r4 : List Char) (v : JValue)
    (hk : scanString r = some (key, ':' :: r2))
    (hv : parseValue fuel depth r2 = some (v, '\x7d' :: r4)) :
    parseMembers (fuel + 1) depth ('"' :: r) = some ([(key, v)], r4) := by
  have hs : isSpace '"' = false := by decide
  have hs2 : isSpace ':' = false := by decide
  have hs3 : isSpace '\x7d' = false := by decide
  have h1 : ¬ ('\x7d' = ',') := by decide
  simp only [parseMembers, skipSpace_cons _ r hs, if_true, hk, skipSpace_cons _ r2 hs2, hv,
    skipSpace_cons _ r4 hs3, h1, if_false]

theorem parseMembers_more (fuel depth : Nat) (r key r2 r4 after : List Char) (v : JValue)
    (ms : List (List Char × JValue))
    (hk : scanString r = some (key, ':' :: r2))
    (hv : parseValue fuel depth r2 = some (v, ',' :: r4))
    (hm : parseMembers fuel depth r4 = some (ms, after)) :
    parseMembers (fuel + 1) depth ('"' :: r) = some ((key, v) :: ms, after) := by
  have hs : isSpace '"' = false := by decide
  have hs2 : isSpace ':' = false := by decide
  have hs3 : isSpace ',' = false := by decide
  simp only [parseMembers, skipSpace_cons _ r hs, if_true, hk, skipSpace_cons _ r2 hs2, hv,
    skipSpace_cons _ r4 hs3, hm]

theorem parseValue_object (fuel depth : Nat) (r after : List Char)
    (ms : List (List Char × JValue)) (hd : depth < maxNestingDepth)
    (hm : parseMembers fuel (depth + 1) ('"' :: r) = some (ms, after)) :
    parseValue (fuel + 1) depth ('\x7b' :: '"' :: r) = some (JValue.object ms, after) := by
  have hs : isSpace '\x7b' = false := by decide
  have hs2 : isSpace '"' = false := by decide
  have h1 : ¬ ('"' = '\x7d') := by decide
  have h2 : ¬ (maxNestingDepth ≤ depth) := by omega
  simp only [parseValue, skipSpace_cons _ _ hs, if_true, h2, if_false, skipSpace_cons _ r hs2,
    h1, hm]

theorem appendNano_timeChar (n : Nat) (h : n < 1000000000) :
    (appendNano n).all isTimeChar = true := by
  by_cases hn : n = 0
  · subst hn; rfl
  · obtain ⟨d, more, e, hd, hm, _, _⟩ := appendNano_spec n h hn
    rw [e]
    simp only [List.all_cons, Bool.and_eq_true]
    refine ⟨by decide, isTimeChar_of_isDigit hd, ?_⟩
    simp only [List.all_eq_true] at hm ⊢
    exact fun x hx => isTimeChar_of_isDigit (hm x hx)

/-- The RFC 3339 text of a time in range is made of digits and of the
characters `-`, `+`, `:`, `.`, `T` and `Z`. -/
theorem appendFormatRFC3339_timeChar (t : Time) (wf : t.wellFormed)
    (hy : 0 ≤ t.year ∧ t.year ≤ 9999)
    (hz : t.offset = 0 ∨ (Int.tdiv t.offset 60).natAbs / 60 < 24) :
    (appendFormatRFC3339 t).all isTimeChar = true := by
  obtain ⟨hm1, hm2, hd1, hd2, hh, hmi, hs, hns⟩ := wf
  obtain ⟨_, _, hzp⟩ := parseZone_appendZone t.offset hz
  have hnp := appendNano_timeChar t.nanosecond hns
  have hdays : daysIn t.month t.year ≤ 31 := by
    unfold daysIn; split
    · split <;> omega
    · split <;> omega
  have hp : ∀ d, d < 10 → isTimeChar (utod d) = true :=
    fun d hd => isTimeChar_of_isDigit (isDigit_utod d hd)
  simp only [appendFormatRFC3339]
  rw [appendInt_four _ (by omega) (by omega), appendInt_two _ (by omega) (by omega),
    appendInt_two _ (by omega) (by omega), appendInt_two _ (by omega) (by omega),
    appendInt_two _ (by omega) (by omega), appendInt_two _ (by omega) (by omega)]
  simp only [List.all_append, List.all_cons, List.all_nil, Bool.and_true, Bool.and_eq_true,
    hzp, hnp, and_true]
  have c1 : isTimeChar '-' = true := by decide
  have c2 : isTimeChar 'T' = true := by decide
  have c3 : isTimeChar ':' = true := by decide
  simp only [c1, c2, c3, and_true, true_and]
  refine ⟨⟨⟨⟨⟨⟨?_, ?_, ?_, ?_⟩, ?_, ?_⟩, ?_, ?_⟩, ?_, ?_⟩, ?_, ?_⟩, ?_, ?_⟩ <;>
    exact hp _ (by omega)

theorem isPlain_of_isTimeChar {c : Char} (h : isTimeChar c = true) : isPlain c = true := by
  rcases isTimeChar_cases h with h | h | h | h | h | h | h
  · exact isPlain_of_isDigit h
  all_goals (subst h; decide)

/-- The RFC 3339 text of a time has no quote, backslash or control
character. -/
theorem appendFormatRFC3339_plain (t : Time) (wf : t.wellFormed)
    (hy : 0 ≤ t.year ∧ t.year ≤ 9999)
    (hz : t.offset = 0 ∨ (Int.tdiv t.offset 60).natAbs / 60 < 24) :
    (appendFormatRFC3339 t).all isPlain = true := by
  have h := appendFormatRFC3339_timeChar t wf hy hz
  simp only [List.all_eq_true] at h ⊢
  exact fun x hx => isPlain_of_isTimeChar (h x hx)

/-- What `json.Marshal` answers when it succeeds: the year and the zone of the
creation time are in range and the text has the two members in order. -/
theorem Marshal_ok (c : LockContent) (bytes : List Char) (h : json.Marshal c = .ok bytes) :
    (0 ≤ c.CreatedAt.year ∧ c.CreatedAt.year ≤ 9999) ∧
    (c.CreatedAt.offset = 0 ∨ (Int.tdiv c.CreatedAt.offset 60).natAbs / 60 < 24) ∧
    bytes = '\x7b' :: '"' :: ("transaction_id".toList ++ '"' :: ':' ::
      (formatInt c.TransactionId ++ ',' :: '"' :: ("created_at".toList ++ '"' :: ':' :: '"' ::
        (appendFormatRFC3339 c.CreatedAt ++ ['"', '\x7d'])))) := by
  unfold json.Marshal Time.MarshalJSON appendStrictRFC3339 at h
  by_cases hy : c.CreatedAt.year < 0 ∨ 9999 < c.CreatedAt.year
  · rw [if_pos hy] at h; cases h
  · by_cases hz : c.CreatedAt.offset ≠ 0 ∧ 24 ≤ (Int.tdiv c.CreatedAt.offset 60).natAbs / 60
    · rw [if_neg hy, if_pos hz] at h; cases h
    · rw [if_neg hy, if_neg hz] at h
      injection h with h
      refine ⟨by omega, ?_, ?_⟩
      · by_cases h0 : c.CreatedAt.offset = 0
        · exact Or.inl h0
        · right
          have := fun h24 => hz ⟨h0, h24⟩
          omega
      · rw [← h]
        simp [List.append_assoc]

theorem UnmarshalJSON_quoted (cur t : Time) (wf : t.wellFormed)
    (hy : 0 ≤ t.year ∧ t.year ≤ 9999)
    (hz : t.offset = 0 ∨ (Int.tdiv t.offset 60).natAbs / 60 < 24) :
    Time.UnmarshalJSON cur ('"' :: appendFormatRFC3339 t ++ ['"']) = some t.rounded := by
  have hne : ¬ ('"' :: appendFormatRFC3339 t ++ ['"'] = ['n', 'u', 'l', 'l']) := by
    intro h; injection h with h1 _; revert h1; decide
  have hrev : (appendFormatRFC3339 t ++ ['"']).reverse = '"' :: (appendFormatRFC3339 t).reverse := by
    simp
  simp only [Time.UnmarshalJSON, hne, if_false, List.cons_append, hrev, and_self, if_true,
    List.reverse_reverse, parseStrictRFC3339, parseRFC3339_append t wf hy hz]
  rfl

/-- The scanner on the text of `json.Marshal`, whatever follows it: an object of
two members, the holder as a number and the creation time as a string. -/
theorem parseValue_Marshal (c : LockContent) (bytes trailing : List Char)
    (wf : c.CreatedAt.wellFormed) (h : json.Marshal c = .ok bytes) (k : Nat) :
    parseValue (k + 4) 0 (bytes ++ trailing) =
      some (JValue.object [("transaction_id".toList, JValue.number (formatInt c.TransactionId)),
        ("created_at".toList, JValue.string (appendFormatRFC3339 c.CreatedAt))], trailing) := by
  obtain ⟨hy, hz, hb⟩ := Marshal_ok c bytes h
  have hplain := appendFormatRFC3339_plain c.CreatedAt wf hy hz
  rw [hb]
  simp only [List.cons_append, List.append_assoc]
  apply parseValue_object (k + 3) 0 _ _ _ (by decide)
  apply parseMembers_more (k + 2) 1 _ "transaction_id".toList _ _ _
    (JValue.number (formatInt c.TransactionId))
  · exact scanString_plain _ _ (by decide)
  · obtain ⟨d, r, hd⟩ : ∃ d r, formatInt c.TransactionId = d :: r ∧ (d = '-' ∨ isDigit d = true) := by
      obtain ⟨d, r, e, hdig, _⟩ := formatUint_cons c.TransactionId.natAbs
      unfold formatInt
      split
      · exact ⟨'-', _, rfl, Or.inl rfl⟩
      · exact ⟨d, r, e, Or.inr hdig⟩
    have hs := scanNumber_formatInt c.TransactionId
      ('"' :: ("created_at".toList ++ '"' :: ':' :: '"' ::
        (appendFormatRFC3339 c.CreatedAt ++ ('"' :: '\x7d' :: trailing))))
    rw [hd.1] at hs ⊢
    exact parseValue_number (k + 1) 1 d _ _ _ hd.2 hs
  · apply parseMembers_last (k + 1) 1 _ "created_at".toList _ _
      (JValue.string (appendFormatRFC3339 c.CreatedAt))
    · exact scanString_plain _ _ (by decide)
    · exact parseValue_string k 1 _ _ _ (scanString_plain _ _ hplain)

/-- Decoding what `json.Marshal` wrote gives the record back, with the offset
of the creation time cut to whole minutes; bytes that follow the text of the
record in the body change nothing. -/
theorem Decode_Marshal (c into : LockContent) (bytes trailing : List Char)
    (hid : isGoInt c.TransactionId) (wf : c.CreatedAt.wellFormed)
    (h : json.Marshal c = .ok bytes) :
    json.Decode (bytes ++ trailing) into = .ok ⟨c.TransactionId, c.CreatedAt.rounded⟩ := by
  obtain ⟨hy, hz, hb⟩ := Marshal_ok c bytes h
  have hlen : ∃ k, 2 * (bytes ++ trailing).length + 1 = k + 4 := by
    refine ⟨2 * (bytes ++ trailing).length - 3, ?_⟩
    have : 3 ≤ (bytes ++ trailing).length := by rw [hb]; simp
    omega
  obtain ⟨k, hk⟩ := hlen
  have hl1 : lookupField (unquote "transaction_id".toList) = some Field.transactionId := by decide
  have hl2 : lookupField (unquote "created_at".toList) = some Field.createdAt := by decide
  simp only [json.Decode, hk, parseValue_Marshal c bytes trailing wf h k, unmarshal,
    decodeMembers, hl1, hl2, storeTransactionId, parseInt_formatInt _ hid, storeCreatedAt,
    Option.bind, UnmarshalJSON_quoted _ _ wf hy hz]

theorem Marshal_inRange (c : LockContent) (h : c.CreatedAt.inRange) :
    ∃ bytes, json.Marshal c = .ok bytes := by
  obtain ⟨_, hy, hz⟩ := h
  have h1 : ¬ (c.CreatedAt.year < 0 ∨ 9999 < c.CreatedAt.year) := by omega
  have h2 : ¬ (c.CreatedAt.offset ≠ 0 ∧ 24 ≤ (Int.tdiv c.CreatedAt.offset 60).natAbs / 60) := by
    rintro ⟨a, b⟩
    rcases hz with hz | hz
    · exact a hz
    · omega
  unfold json.Marshal Time.MarshalJSON appendStrictRFC3339
  rw [if_neg h1, if_neg h2]
  exact ⟨_, rfl⟩

theorem rounded_eq (t : Time) (h : t.offset % 60 = 0) : t.rounded = t := by
  have : Int.tdiv t.offset 60 * 60 = t.offset := by
    rw [Int.tdiv_eq_ediv_of_dvd (Int.dvd_of_emod_eq_zero h)]
    omega
  cases t
  simp only [Time.rounded] at *
  simp [this]

/-- The holder that `GetLock` reports for a body: the field `TransactionId`
of the decoded struct, or the decoding error. -/
theorem GetLock_mock (bucket r : String) (st : Objects) :
    (mockLock bucket).GetLock r st =
      match st r with
      | none => ((none, none), st)
      | some body =>
        match json.Decode body zeroLockContent with
        | .error e => ((none, some (LockError.decodeLock e)), st)
        | .ok c => ((some c.TransactionId, none), st) := by
  unfold S3Lock.GetLock mockLock mockS3Client
  simp only
  cases h : st r with
  | none => simp [errNoSuchKey]
  | some body => simp only

theorem GetLock_mock_record (bucket r : String) (st : Objects) (c : LockContent)
    (bytes trailing : List Char) (hid : isGoInt c.TransactionId) (wf : c.CreatedAt.wellFormed)
    (hm : json.Marshal c = .ok bytes) (hs : st r = some (bytes ++ trailing)) :
    (mockLock bucket).GetLock r st = ((some c.TransactionId, none), st) := by
  rw [GetLock_mock, hs]
  simp only [Decode_Marshal c zeroLockContent bytes trailing hid wf hm]

/-- The only call `GetLock` makes is one `GetObject`: the state it leaves is
the state that call leaves. -/
theorem GetLock_state {σ : Type} (s : S3Lock σ) (r : String) (st : σ) :
    (s.GetLock r st).2 = (s.client.GetObject s.bucketName r st).2 := by
  unfold S3Lock.GetLock
  rcases hg : s.client.GetObject s.bucketName r st with ⟨res, st1⟩
  cases res with
  | error e => simp only; split <;> rfl
  | ok body => simp only; split <;> rfl

theorem Lock_of_holder {σ : Type} (s : S3Lock σ) (now : Time) (h : Int) (r : String)
    (st st1 : σ) (h1 : Int) (hg : s.GetLock r st = ((some h1, none), st1)) :
    s.Lock now h r st = ((false, none), st1) := by
  simp only [S3Lock.Lock, hg]

theorem Lock_of_error {σ : Type} (s : S3Lock σ) (now : Time) (h : Int) (r : String)
    (st st1 : σ) (x : Option Int) (err : LockError) (hg : s.GetLock r st = ((x, some err), st1)) :
    s.Lock now h r st = ((false, some err), st1) := by
  simp only [S3Lock.Lock, hg]

theorem Unlock_of_none {σ : Type} (s : S3Lock σ) (r : String)
    (st st1 : σ) (hg : s.GetLock r st = ((none, none), st1)) :
    s.Unlock r st = ((false, none), st1) := by
  simp only [S3Lock.Unlock, hg]

theorem Unlock_of_error {σ : Type} (s : S3Lock σ) (r : String)
    (st st1 : σ) (x : Option Int) (err : LockError) (hg : s.GetLock r st = ((x, some err), st1)) :
    s.Unlock r st = ((false, some err), st1) := by
  simp only [S3Lock.Unlock, hg]

theorem Lock_mock_absent (bucket r : String) (now : Time) (h : Int) (st : Objects)
    (bytes : List Char) (hm : json.Marshal ⟨h, now⟩ = .ok bytes) (habs : st r = none) :
    (mockLock bucket).Lock now h r st =
      ((true, none), fun k => if k = r then some bytes else st k) := by
  have hg : (mockLock bucket).GetLock r st = ((none, none), st) := by
    rw [GetLock_mock, habs]
  simp only [S3Lock.Lock, hg, hm]
  rfl

theorem Unlock_mock_held (bucket r : String) (st : Objects) (h : Int)
    (hg : (mockLock bucket).GetLock r st = ((some h, none), st)) :
    (mockLock bucket).Unlock r st = ((true, none), fun k => if k = r then none else st k) := by
  simp only [S3Lock.Unlock, hg]
  rfl

theorem holders_record (st : Objects) (r : String) (c : LockContent) (body : List Char)
    (hid : isGoInt c.TransactionId) (wf : c.CreatedAt.wellFormed)
    (hm : json.Marshal c = .ok body) (hs : st r = some body) :
    holders st r = some c.TransactionId := by
  have := Decode_Marshal c zeroLockContent body [] hid wf hm
  rw [List.append_nil] at this
  simp only [holders, hs, this]

/-- On a store whose objects are all encodings of records, `GetLock` reports
the logical state of the resource and never fails. -/
theorem GetLock_sound (bucket r : String) (st : Objects) (hs : soundStore st) :
    (mockLock bucket).GetLock r st = ((holders st r, none), st) := by
  cases h : st r with
  | none =>
    rw [GetLock_mock, h]
    simp only [holders, h]
  | some body =>
    obtain ⟨c, hid, wf, hm⟩ := hs r body h
    rw [GetLock_mock_record bucket r st c body [] hid wf hm (by simpa using h),
      holders_record st r c body hid wf hm h]

theorem soundStore_put (st : Objects) (r : String) (c : LockContent) (body : List Char)
    (hs : soundStore st) (hid : isGoInt c.TransactionId) (wf : c.CreatedAt.wellFormed)
    (hm : json.Marshal c = .ok body) :
    soundStore (fun k => if k = r then some body else st k) := by
  intro k b hk
  by_cases e : k = r
  · simp only [e, if_true] at hk
    injection hk with hk
    subst hk
    exact ⟨c, hid, wf, hm⟩
  · simp only [e, if_false] at hk
    exact hs k b hk

theorem soundStore_delete (st : Objects) (r : String) (hs : soundStore st) :
    soundStore (fun k => if k = r then none else st k) := by
  intro k b hk
  by_cases e : k = r
  · simp only [e, if_true] at hk; cases hk
  · simp only [e, if_false] at hk
    exact hs k b hk

theorem holders_put (st : Objects) (r : String) (c : LockContent) (body : List Char)
    (hid : isGoInt c.TransactionId) (wf : c.CreatedAt.wellFormed)
    (hm : json.Marshal c = .ok body) :
    holders (fun k => if k = r then some body else st k) =
      fun k => if k = r then some c.TransactionId else holders st k := by
  funext k
  by_cases e : k = r
  · subst e
    rw [holders_record _ k c body hid wf hm (by simp)]
    simp
  · simp only [holders, e, if_false]

theorem holders_delete (st : Objects) (r : String) :
    holders (fun k => if k = r then none else st k) =
      fun k => if k = r then none else holders st k := by
  funext k
  by_cases e : k = r
  · simp only [holders, e, if_true]
  · simp only [holders, e, if_false]

/-- One valid call on a sound store answers as the spec's state machine does on
the logical state, and leaves a sound store that stands for the machine's next
state. -/
theorem call_refines (bucket : String) (c : Call) (st : Objects) (hv : c.valid)
    (hs : soundStore st) :
    ((mockLock bucket).call c st).1 = (specCall c (holders st)).1 ∧
    soundStore ((mockLock bucket).call c st).2 ∧
    holders ((mockLock bucket).call c st).2 = (specCall c (holders st)).2 := by
  have hg := fun r => GetLock_sound bucket r st hs
  cases c with
  | getLock r =>
    simp only [S3Lock.call, specCall, hg r]
    exact ⟨trivial, hs, trivial⟩
  | unlock r =>
    cases hh : holders st r with
    | none =>
      have hu := Unlock_of_none (mockLock bucket) r st st (by rw [hg r, hh])
      simp only [S3Lock.call, specCall, hu, hh]
      exact ⟨trivial, hs, trivial⟩
    | some h =>
      have hu := Unlock_mock_held bucket r st h (by rw [hg r, hh])
      simp only [S3Lock.call, specCall, hu, hh]
      exact ⟨trivial, soundStore_delete st r hs, holders_delete st r⟩
  | lock now h r =>
    obtain ⟨hid, hnow⟩ := hv
    cases hh : holders st r with
    | some h1 =>
      have hl := Lock_of_holder (mockLock bucket) now h r st st h1 (by rw [hg r, hh])
      simp only [S3Lock.call, specCall, hl, hh]
      exact ⟨trivial, hs, trivial⟩
    | none =>
      obtain ⟨bytes, hm⟩ := Marshal_inRange ⟨h, now⟩ hnow
      have habs : st r = none := by
        cases e : st r with
        | none => rfl
        | some body =>
          obtain ⟨c, cid, cwf, cm⟩ := hs r body e
          rw [holders_record st r c body cid cwf cm e] at hh
          cases hh
      have hl := Lock_mock_absent bucket r now h st bytes hm habs
      simp only [S3Lock.call, specCall, hl, hh]
      exact ⟨trivial, soundStore_put st r ⟨h, now⟩ bytes hs hid hnow.1 hm,
        holders_put st r ⟨h, now⟩ bytes hid hnow.1 hm⟩

/-- Valid calls made one after another on a sound store answer as the spec's
state machine does, and the final store stands for the machine's final
state. -/
theorem run_refines (bucket : String) : ∀ (cs : List Call) (st : Objects),
    (∀ c ∈ cs, c.valid) → soundStore st →
    ((mockLock bucket).run cs st).1 = (specRun cs (holders st)).1 ∧
    soundStore ((mockLock bucket).run cs st).2 ∧
    holders ((mockLock bucket).run cs st).2 = (specRun cs (holders st)).2 := by
  intro cs
  induction cs with
  | nil => intro st _ hs; exact ⟨rfl, hs, rfl⟩
  | cons c cs ih =>
    intro st hv hs
    obtain ⟨h1, h2, h3⟩ := call_refines bucket c st (hv c (by simp)) hs
    obtain ⟨i1, i2, i3⟩ := ih _ (fun x hx => hv x (by simp [hx])) h2
    simp only [S3Lock.run, specRun]
    rw [h3] at i1 i3
    exact ⟨by rw [h1, i1], i2, i3⟩

theorem soundStore_empty : soundStore emptyObjects := by
  intro r body h; cases h

theorem holders_empty : holders emptyObjects = fun _ => none := rfl

theorem Consumed.trans {a b c : List Char} (h1 : Consumed a b) (h2 : Consumed b c) :
    Consumed a c :=
  ⟨h2.1.trans h1.1, Nat.lt_trans h2.2 h1.2⟩

theorem Consumed.of_suffix {a b c : List Char} (h1 : b <:+ a) (h2 : Consumed b c) :
    Consumed a c :=
  ⟨h2.1.trans h1, Nat.lt_of_lt_of_le h2.2 h1.length_le⟩

theorem Consumed.then_suffix {a b c : List Char} (h1 : Consumed a b) (h2 : c <:+ b) :
    Consumed a c :=
  ⟨h2.trans h1.1, Nat.lt_of_le_of_lt h2.length_le h1.2⟩

theorem Consumed.cons (c : Char) (r : List Char) : Consumed (c :: r) r :=
  ⟨List.suffix_cons c r, by simp⟩

theorem skipSpace_suffix : ∀ s : List Char, skipSpace s <:+ s := by
  intro s
  induction s with
  | nil => exact List.suffix_refl _
  | cons c r ih =>
    unfold skipSpace
    split
    · exact ih.trans (List.suffix_cons c r)
    · exact List.suffix_refl _

theorem scanString_consumed : ∀ (n : Nat) (s body rest : List Char), s.length ≤ n →
    scanString s = some (body, rest) → Consumed s rest := by
  intro n
  induction n with
  | zero =>
    intro s body rest hl h
    cases s with
    | nil => rw [scanString.eq_def] at h; cases h
    | cons c r => simp at hl
  | succ n ih =>
    intro s body rest hl h
    rw [scanString.eq_def] at h
    cases s with
    | nil => cases h
    | cons c r =>
      simp only at h
      simp only [List.length_cons] at hl
      split at h
      · injection h with h; injection h with h1 h2; subst h2; exact Consumed.cons c _
      · split at h
        · split at h
          · cases h
          · rename_i e rest2
            split at h
            · split at h
              · rename_i h1 h2 h3 h4 rest3
                split at h
                · split at h
                  · rename_i b a hs
                    injection h with h; injection h with _ h2; subst h2
                    have := ih rest3 b a (by simp only [List.length_cons] at hl; omega) hs
                    refine Consumed.of_suffix ?_ this
                    exact ⟨[c, e, h1, h2, h3, h4], rfl⟩
                  · cases h
                · cases h
              · cases h
            · split at h
              · split at h
                · rename_i b a hs
                  injection h with h; injection h with _ h2; subst h2
                  have := ih rest2 b a (by simp only [List.length_cons] at hl; omega) hs
                  exact Consumed.of_suffix ⟨[c, e], rfl⟩ this
                · cases h
              · cases h
        · split at h
          · cases h
          · split at h
            · rename_i b a hs
              injection h with h; injection h with _ h2; subst h2
              have := ih r b a (by omega) hs
              exact Consumed.of_suffix ⟨[c], rfl⟩ this
            · cases h

theorem dropWhile_suffix (p : Char → Bool) (s : List Char) : s.dropWhile p <:+ s :=
  List.dropWhile_suffix p

theorem scanExponent_suffix (s lit rest : List Char) (h : scanExponent s = some (lit, rest)) :
    rest <:+ s := by
  unfold scanExponent at h
  simp only at h
  split at h
  · cases h
  · injection h with h; injection h with _ h2; subst h2
    refine (List.dropWhile_suffix _).trans ?_
    split
    · split
      · exact List.suffix_cons _ _
      · exact List.suffix_refl _
    · exact List.suffix_refl _

theorem scanFraction_suffix (s lit rest : List Char) (h : scanFraction s = some (lit, rest)) :
    rest <:+ s := by
  unfold scanFraction at h
  split at h
  · rename_i c r
    split at h
    · simp only at h
      split at h
      · cases h
      · split at h
        · rename_i e r2 hd
          split at h
          · split at h
            · rename_i ex after hx
              injection h with h; injection h with _ h2; subst h2
              have h1 := scanExponent_suffix _ _ _ hx
              have h2 : (e :: r2) <:+ r := by rw [← hd]; exact List.dropWhile_suffix _
              exact (h1.trans (List.suffix_cons e r2)).trans (h2.trans (List.suffix_cons c r))
            · cases h
          · injection h with h; injection h with _ h2; subst h2
            have h2 : (e :: r2) <:+ r := by rw [← hd]; exact List.dropWhile_suffix _
            exact h2.trans (List.suffix_cons c r)
        · injection h with h; injection h with _ h2; subst h2
          exact List.nil_suffix
    · split at h
      · split at h
        · rename_i ex after hx
          injection h with h; injection h with _ h2; subst h2
          exact (scanExponent_suffix _ _ _ hx).trans (List.suffix_cons c r)
        · cases h
      · injection h with h; injection h with _ h2; subst h2
        exact List.suffix_refl _
  · injection h with h; injection h with _ h2; subst h2
    exact List.suffix_refl _

theorem scanDigits_consumed (s lit rest : List Char) (h : scanDigits s = some (lit, rest)) :
    Consumed s rest := by
  unfold scanDigits at h
  split at h
  · rename_i c r
    split at h
    · injection h with h; injection h with _ h2; subst h2
      exact Consumed.cons c _
    · split at h
      · injection h with h; injection h with _ h2; subst h2
        exact (Consumed.cons c r).then_suffix (List.dropWhile_suffix _)
      · cases h
  · cases h

theorem scanNumber_consumed (s lit rest : List Char) (h : scanNumber s = some (lit, rest)) :
    Consumed s rest := by
  unfold scanNumber at h
  simp only at h
  split at h
  · cases h
  · rename_i ds r hd
    split at h
    · cases h
    · rename_i fr after hf
      injection h with h; injection h with _ h2; subst h2
      have c1 := scanDigits_consumed _ _ _ hd
      have c2 := scanFraction_suffix _ _ _ hf
      refine Consumed.of_suffix ?_ (c1.then_suffix c2)
      split
      · split
        · exact List.suffix_cons _ _
        · exact List.suffix_refl _
      · exact List.suffix_refl _

theorem scanLiteral_suffix : ∀ (es s rest : List Char), scanLiteral es s = some rest →
    rest <:+ s := by
  intro es
  induction es with
  | nil =>
    intro s rest h
    simp only [scanLiteral] at h
    injection h with h; subst h; exact List.suffix_refl _
  | cons e es ih =>
    intro s rest h
    cases s with
    | nil => simp only [scanLiteral] at h; cases h
    | cons c r =>
      simp only [scanLiteral] at h
      split at h
      · exact (ih r rest h).trans (List.suffix_cons c r)
      · cases h

theorem skipSpace_cons_suffix {s r : List Char} {c : Char} (h : skipSpace s = c :: r) :
    Consumed s r := by
  have hs := skipSpace_suffix s
  rw [h] at hs
  exact Consumed.of_suffix hs (Consumed.cons c r)

/-- Whatever the scanner delimits, it takes at least one character of the
input and leaves a suffix of it. -/
theorem parse_consumed : ∀ fuel : Nat,
    (∀ d s v r, parseValue fuel d s = some (v, r) → Consumed s r) ∧
    (∀ d s ms r, parseMembers fuel d s = some (ms, r) → Consumed s r) ∧
    (∀ d s vs r, parseElements fuel d s = some (vs, r) → Consumed s r) := by
  intro fuel
  induction fuel with
  | zero =>
    refine ⟨?_, ?_, ?_⟩ <;> intro d s v r h
    · simp only [parseValue] at h; cases h
    · simp only [parseMembers] at h; cases h
    · simp only [parseElements] at h; cases h
  | succ fuel ih =>
    obtain ⟨ihv, ihm, ihe⟩ := ih
    refine ⟨?_, ?_, ?_⟩
    · intro d s v r h
      simp only [parseValue] at h
      split at h
      · cases h
      · rename_i c r0 hsk
        have c0 := skipSpace_cons_suffix hsk
        split at h
        · split at h
          · cases h
          · split at h
            · cases h
            · rename_i k r2 hk2
              have c1 := c0.trans (skipSpace_cons_suffix hk2)
              split at h
              · injection h with h; injection h with _ h2; subst h2; exact c1
              · split at h
                · rename_i ms after hm
                  injection h with h; injection h with _ h2; subst h2
                  have := ihm _ _ _ _ hm
                  exact c0.trans (Consumed.of_suffix (by rw [← hk2]; exact skipSpace_suffix _) this)
                · cases h
        · split at h
          · split at h
            · cases h
            · split at h
              · cases h
              · rename_i k r2 hk2
                have c1 := c0.trans (skipSpace_cons_suffix hk2)
                split at h
                · injection h with h; injection h with _ h2; subst h2; exact c1
                · split at h
                  · rename_i vs after hm
                    injection h with h; injection h with _ h2; subst h2
                    have := ihe _ _ _ _ hm
                    exact c0.trans
                      (Consumed.of_suffix (by rw [← hk2]; exact skipSpace_suffix _) this)
                  · cases h
          · split at h
            · split at h
              · rename_i b a hs
                injection h with h; injection h with _ h2; subst h2
                exact c0.trans (scanString_consumed _ _ _ _ (Nat.le_refl _) hs)
              · cases h
            · split at h
              · split at h
                · rename_i lit a hs
                  injection h with h; injection h with _ h2; subst h2
                  have := scanNumber_consumed _ _ _ hs
                  have hs0 := skipSpace_suffix s
                  rw [hsk] at hs0
                  exact Consumed.of_suffix hs0 this
                · cases h
              · split at h
                · split at h
                  · rename_i a hs
                    injection h with h; injection h with _ h2; subst h2
                    exact c0.then_suffix (scanLiteral_suffix _ _ _ hs)
                  · cases h
                · split at h
                  · split at h
                    · rename_i a hs
                      injection h with h; injection h with _ h2; subst h2
                      exact c0.then_suffix (scanLiteral_suffix _ _ _ hs)
                    · cases h
                  · split at h
                    · split at h
                      · rename_i a hs
                        injection h with h; injection h with _ h2; subst h2
                        exact c0.then_suffix (scanLiteral_suffix _ _ _ hs)
                      · cases h
                    · cases h
    · intro d s ms r h
      simp only [parseMembers] at h
      split at h
      · cases h
      · rename_i q r0 hsk
        have c0 := skipSpace_cons_suffix hsk
        split at h
        · split at h
          · cases h
          · rename_i key r1 hkey
            have c1 := c0.trans (scanString_consumed _ _ _ _ (Nat.le_refl _) hkey)
            split at h
            · cases h
            · rename_i colon r2 hcol
              have c2 := c1.trans (skipSpace_cons_suffix hcol)
              split at h
              · split at h
                · cases h
                · rename_i v r3 hv
                  have c3 := c2.trans (ihv _ _ _ _ hv)
                  split at h
                  · cases h
                  · rename_i sep r4 hsep
                    have c4 := c3.trans (skipSpace_cons_suffix hsep)
                    split at h
                    · split at h
                      · rename_i ms2 after hm
                        injection h with h; injection h with _ h2; subst h2
                        exact c4.trans (ihm _ _ _ _ hm)
                      · cases h
                    · split at h
                      · injection h with h; injection h with _ h2; subst h2; exact c4
                      · cases h
              · cases h
        · cases h
    · intro d s vs r h
      simp only [parseElements] at h
      split at h
      · cases h
      · rename_i v r1 hv
        have c1 := ihv _ _ _ _ hv
        split at h
        · cases h
        · rename_i sep r2 hsep
          have c2 := c1.trans (skipSpace_cons_suffix hsep)
          split at h
          · split at h
            · rename_i vs2 after hm
              injection h with h; injection h with _ h2; subst h2
              exact c2.trans (ihe _ _ _ _ hm)
            · cases h
          · split at h
            · injection h with h; injection h with _ h2; subst h2; exact c2
            · cases h

/-- The bound on the recursion of the scanner is never the reason for a
failure: any two bounds above the length of the input give the same result. -/
theorem parse_fuel : ∀ fuel fuel2 : Nat,
    (∀ d s, 2 * s.length < fuel → 2 * s.length < fuel2 →
      parseValue fuel d s = parseValue fuel2 d s) ∧
    (∀ d s, 2 * s.length < fuel → 2 * s.length < fuel2 →
      parseMembers fuel d s = parseMembers fuel2 d s) ∧
    (∀ d s, 2 * s.length + 1 < fuel → 2 * s.length + 1 < fuel2 →
      parseElements fuel d s = parseElements fuel2 d s) := by
  intro fuel
  induction fuel with
  | zero => intro fuel2; refine ⟨?_, ?_, ?_⟩ <;> intro d s h1 <;> omega
  | succ fuel ih =>
    intro fuel2
    cases fuel2 with
    | zero => refine ⟨?_, ?_, ?_⟩ <;> intro d s h1 h2 <;> omega
    | succ fuel2 =>
      obtain ⟨ihv, ihm, ihe⟩ := ih fuel2
      refine ⟨?_, ?_, ?_⟩
      · intro d s h1 h2
        simp only [parseValue]
        cases hsk : skipSpace s with
        | nil => rfl
        | cons c r =>
          have c0 := skipSpace_cons_suffix hsk
          simp only
          cases hk : skipSpace r with
          | nil => rfl
          | cons k r2 =>
            have c1 : (k :: r2).length ≤ r.length := by
              rw [← hk]; exact (skipSpace_suffix r).length_le
            have b1 : 2 * (k :: r2).length + 1 < fuel := by have := c0.2; omega
            have b2 : 2 * (k :: r2).length + 1 < fuel2 := by have := c0.2; omega
            have m1 : 2 * (k :: r2).length < fuel := by omega
            have m2 : 2 * (k :: r2).length < fuel2 := by omega
            simp only [ihm _ _ m1 m2, ihe _ _ b1 b2]
      · intro d s h1 h2
        simp only [parseMembers]
        cases hsk : skipSpace s with
        | nil => rfl
        | cons q r =>
          have c0 := skipSpace_cons_suffix hsk
          simp only
          cases hkey : scanString r with
          | none => rfl
          | some kr =>
            obtain ⟨key, r1⟩ := kr
            have c1 := c0.trans (scanString_consumed _ _ _ _ (Nat.le_refl _) hkey)
            simp only
            cases hcol : skipSpace r1 with
            | nil => rfl
            | cons colon r2 =>
              have c2 := c1.trans (skipSpace_cons_suffix hcol)
              have b1 : 2 * r2.length < fuel := by have := c2.2; omega
              have b2 : 2 * r2.length < fuel2 := by have := c2.2; omega
              simp only [ihv _ _ b1 b2]
              cases hv : parseValue fuel2 d r2 with
              | none => rfl
              | some vr =>
                obtain ⟨v, r3⟩ := vr
                have c3 := c2.trans ((parse_consumed fuel2).1 _ _ _ _ hv)
                simp only
                cases hsep : skipSpace r3 with
                | nil => rfl
                | cons sep r4 =>
                  have c4 := c3.trans (skipSpace_cons_suffix hsep)
                  have b3 : 2 * r4.length < fuel := by have := c4.2; omega
                  have b4 : 2 * r4.length < fuel2 := by have := c4.2; omega
                  simp only [ihm _ _ b3 b4]
      · intro d s h1 h2
        simp only [parseElements]
        rw [ihv d s (by omega) (by omega)]
        cases hv : parseValue fuel2 d s with
        | none => rfl
        | some vr =>
          obtain ⟨v, r1⟩ := vr
          have c1 := (parse_consumed fuel2).1 _ _ _ _ hv
          simp only
          cases hsep : skipSpace r1 with
          | nil => rfl
          | cons sep r2 =>
            have c2 := c1.trans (skipSpace_cons_suffix hsep)
            have b3 : 2 * r2.length + 1 < fuel := by have := c2.2; omega
            have b4 : 2 * r2.length + 1 < fuel2 := by have := c2.2; omega
            simp only [ihe _ _ b3 b4]

/-- The bound `json.Decode` gives the scanner is enough: every larger bound
delimits the same first value of the body, or fails as well. -/
theorem Decode_fuel (body : List Char) (fuel : Nat) (h : 2 * body.length < fuel) :
    parseValue fuel 0 body = parseValue (2 * body.length + 1) 0 body :=
  (parse_fuel fuel (2 * body.length + 1)).1 0 body h (by omega)

theorem skipSpace_cons_mem {s r : List Char} {c : Char} (h : skipSpace s = c :: r) :
    (c :: r) <:+ s := by
  have hs := skipSpace_suffix s
  rw [h] at hs
  exact hs

/-- Without a closing brace in the text no list of members is complete. -/
theorem parseMembers_no_close : ∀ (fuel d : Nat) (s : List Char), '\x7d' ∉ s →
    parseMembers fuel d s = none := by
  intro fuel
  induction fuel with
  | zero => intro d s _; simp only [parseMembers]
  | succ fuel ih =>
    intro d s hs
    simp only [parseMembers]
    cases hsk : skipSpace s with
    | nil => rfl
    | cons q r =>
      have c0 := skipSpace_cons_suffix hsk
      simp only
      cases hkey : scanString r with
      | none => simp
      | some kr =>
        obtain ⟨key, r1⟩ := kr
        have c1 := c0.trans (scanString_consumed _ _ _ _ (Nat.le_refl _) hkey)
        simp only
        cases hcol : skipSpace r1 with
        | nil => simp
        | cons colon r2 =>
          have c2 := c1.trans (skipSpace_cons_suffix hcol)
          simp only
          cases hv : parseValue fuel d r2 with
          | none => simp
          | some vr =>
            obtain ⟨v, r3⟩ := vr
            have c3 := c2.trans ((parse_consumed fuel).1 _ _ _ _ hv)
            simp only
            cases hsep : skipSpace r3 with
            | nil => simp
            | cons sep r4 =>
              have c4 := c3.trans (skipSpace_cons_suffix hsep)
              have hmem : sep ∈ s :=
                ((skipSpace_cons_mem hsep).trans c3.1).subset (List.mem_cons_self _ _)
              have hne : sep ≠ '\x7d' := fun e => hs (e ▸ hmem)
              have hr4 : '\x7d' ∉ r4 := fun e => hs (c4.1.subset e)
              simp only [ih d r4 hr4, hne, if_false]
              simp

/-- An opening brace that is never closed is not a JSON value. -/
theorem parseValue_no_close (fuel d : Nat) (q : List Char) (hq : '\x7d' ∉ q) :
    parseValue fuel d ('\x7b' :: q) = none := by
  cases fuel with
  | zero => simp only [parseValue]
  | succ fuel =>
    have hs : isSpace '\x7b' = false := by decide
    simp only [parseValue, skipSpace_cons _ q hs, if_true]
    split
    · rfl
    · cases hk : skipSpace q with
      | nil => rfl
      | cons k r2 =>
        have hsub := skipSpace_cons_mem hk
        have hk2 : k ≠ '\x7d' := fun e => hq (e ▸ hsub.subset (List.mem_cons_self _ _))
        have hm : '\x7d' ∉ (k :: r2) := fun e => hq (hsub.subset e)
        simp only [hk2, if_false, parseMembers_no_close fuel (d + 1) (k :: r2) hm]

theorem formatInt_chars (h : Int) : ∀ c ∈ formatInt h, isDigit c = true ∨ c = '-' := by
  have hd := formatUint_digits h.natAbs
  simp only [List.all_eq_true] at hd
  intro c hc
  unfold formatInt at hc
  split at hc
  · rcases List.mem_cons.1 hc with e | e
    · exact Or.inr e
    · exact Or.inl (hd c e)
  · exact Or.inl (hd c hc)

/-- The text of `json.Marshal` is an opening brace, a text without a closing
brace, and a closing brace. -/
theorem Marshal_braces (c : LockContent) (bytes : List Char) (wf : c.CreatedAt.wellFormed)
    (h : json.Marshal c = .ok bytes) :
    ∃ M, bytes = '\x7b' :: (M ++ ['\x7d']) ∧ '\x7d' ∉ M := by
  obtain ⟨hy, hz, hb⟩ := Marshal_ok c bytes h
  have ht := appendFormatRFC3339_timeChar c.CreatedAt wf hy hz
  simp only [List.all_eq_true] at ht
  refine ⟨'"' :: ("transaction_id".toList ++ '"' :: ':' ::
      (formatInt c.TransactionId ++ ',' :: '"' :: ("created_at".toList ++ '"' :: ':' :: '"' ::
        (appendFormatRFC3339 c.CreatedAt ++ ['"'])))), ?_, ?_⟩
  · rw [hb]; simp
  · intro hmem
    simp only [List.mem_cons, List.mem_append] at hmem
    have hdig : ¬ isDigit '\x7d' = true := by decide
    have htc : ¬ isTimeChar '\x7d' = true := by decide
    rcases hmem with e | e | e | e | e | e | e | e | e | e | e | e | e
    · revert e; decide
    · revert e; decide
    · revert e; decide
    · revert e; decide
    · rcases formatInt_chars _ _ e with e2 | e2
      · exact hdig e2
      · revert e2; decide
    · revert e; decide
    · revert e; decide
    · revert e; decide
    · revert e; decide
    · revert e; decide
    · revert e; decide
    · exact htc (ht _ e)
    · revert e; simp

theorem skipSpace_blank : ∀ s : List Char, s.all isSpace = true → skipSpace s = [] := by
  intro s
  induction s with
  | nil => intro _; rfl
  | cons c r ih =>
    intro h
    simp only [List.all_cons, Bool.and_eq_true] at h
    simp only [skipSpace, h.1, if_true, ih h.2]

theorem Decode_blank (body : List Char) (h : body.all isSpace = true) :
    json.Decode body zeroLockContent = .error JsonError.scan := by
  simp only [json.Decode, parseValue, skipSpace_blank body h]

theorem Decode_not_json (body rest : List Char) (ch : Char) (hs : skipSpace body = ch :: rest)
    (hc : canBeginValue ch = false) :
    json.Decode body zeroLockContent = .error JsonError.scan := by
  simp only [canBeginValue, Bool.or_eq_false_iff, beq_eq_false_iff_ne, ne_eq] at hc
  obtain ⟨⟨⟨⟨⟨⟨⟨h1, h2⟩, h3⟩, h4⟩, h5⟩, h6⟩, h7⟩, h8⟩ := hc
  simp [json.Decode, parseValue, hs, h1, h2, h3, h4, h5, h6, h7, h8]

theorem Decode_truncated (c : LockContent) (bytes : List Char) (n : Nat)
    (wf : c.CreatedAt.wellFormed) (hm : json.Marshal c = .ok bytes) (hn : n < bytes.length) :
    json.Decode (bytes.take n) zeroLockContent = .error JsonError.scan := by
  obtain ⟨M, hb, hM⟩ := Marshal_braces c bytes wf hm
  have hnone : ∀ fuel, parseValue fuel 0 (bytes.take n) = none := by
    intro fuel
    cases n with
    | zero =>
      cases fuel with
      | zero => simp only [parseValue]
      | succ f => simp only [List.take_zero, parseValue, skipSpace]
    | succ m =>
      rw [hb] at hn ⊢
      simp only [List.length_cons, List.length_append, List.length_nil] at hn
      rw [List.take_succ_cons, List.take_append_of_le_length (by omega)]
      exact parseValue_no_close fuel 0 _ (fun e => hM (List.mem_of_mem_take e))
  simp only [json.Decode, hnone]

theorem saveError_saved (d : decodeState) (e : JsonError) :
    (d.saveError e).savedError ≠ none := by
  unfold decodeState.saveError
  split
  · simp
  · rename_i x hx; rw [hx]; simp

theorem saveError_keeps (d : decodeState) (e : JsonError) (h : d.savedError ≠ none) :
    d.saveError e = d := by
  unfold decodeState.saveError
  split
  · rename_i hx; exact absurd hx h
  · rfl

theorem storeTransactionId_keeps (v : JValue) (d : decodeState) (h : d.savedError ≠ none) :
    (storeTransactionId v d).savedError ≠ none := by
  cases v with
  | null => exact h
  | number lit =>
    simp only [storeTransactionId]
    split
    · exact h
    · exact saveError_saved _ _
  | string _ => exact saveError_saved _ _
  | bool _ => exact saveError_saved _ _
  | array _ => exact saveError_saved _ _
  | object _ => exact saveError_saved _ _

theorem storeTransactionId_mismatch (v : JValue) (d : decodeState) (h : holderMismatch v) :
    (storeTransactionId v d).savedError ≠ none := by
  cases v with
  | null => exact absurd h (by simp [holderMismatch])
  | number lit =>
    simp only [holderMismatch] at h
    simp only [storeTransactionId, h]
    exact saveError_saved _ _
  | string _ => exact saveError_saved _ _
  | bool _ => exact saveError_saved _ _
  | array _ => exact saveError_saved _ _
  | object _ => exact saveError_saved _ _

theorem storeCreatedAt_saved (v : JValue) (d d1 : decodeState)
    (h : storeCreatedAt v d = .ok d1) : d1.savedError = d.savedError := by
  unfold storeCreatedAt at h
  simp only at h
  split at h
  · injection h with h; subst h; rfl
  · cases h

theorem decodeMembers_keeps : ∀ (ms : List (List Char × JValue)) (d d1 : decodeState),
    decodeMembers ms d = .ok d1 → d.savedError ≠ none → d1.savedError ≠ none := by
  intro ms
  induction ms with
  | nil => intro d d1 h hd; simp only [decodeMembers] at h; injection h with h; subst h; exact hd
  | cons m ms ih =>
    intro d d1 h hd
    obtain ⟨key, v⟩ := m
    simp only [decodeMembers] at h
    split at h
    · exact ih _ _ h hd
    · exact ih _ _ h (storeTransactionId_keeps v d hd)
    · split at h
      · cases h
      · rename_i d2 hc
        exact ih _ _ h (by rw [storeCreatedAt_saved v d d2 hc]; exact hd)

/-- A member that selects `TransactionId` with a value of the wrong type leaves
a saved error, whatever the other members are. -/
theorem decodeMembers_mismatch : ∀ (ms : List (List Char × JValue)) (d d1 : decodeState)
    (key : List Char) (v : JValue), decodeMembers ms d = .ok d1 → (key, v) ∈ ms →
    lookupField (unquote key) = some Field.transactionId → holderMismatch v →
    d1.savedError ≠ none := by
  intro ms
  induction ms with
  | nil => intro d d1 key v _ hmem; cases hmem
  | cons m ms ih =>
    intro d d1 key v h hmem hl hv
    obtain ⟨k0, v0⟩ := m
    rcases List.mem_cons.1 hmem with e | e
    · injection e with e1 e2
      subst e1; subst e2
      simp only [decodeMembers, hl] at h
      exact decodeMembers_keeps ms _ d1 h (storeTransactionId_mismatch v d hv)
    · simp only [decodeMembers] at h
      split at h
      · exact ih _ _ key v h e hl hv
      · exact ih _ _ key v h e hl hv
      · split at h
        · cases h
        · exact ih _ _ key v h e hl hv

theorem Decode_mismatch (body rest : List Char) (ms : List (List Char × JValue))
    (key : List Char) (v : JValue)
    (hp : parseValue (2 * body.length + 1) 0 body = some (JValue.object ms, rest))
    (hmem : (key, v) ∈ ms) (hl : lookupField (unquote key) = some Field.transactionId)
    (hv : holderMismatch v) :
    ∃ e, json.Decode body zeroLockContent = .error e := by
  simp only [json.Decode, hp, unmarshal]
  cases hd : decodeMembers ms ⟨zeroLockContent, none⟩ with
  | error e => exact ⟨e, rfl⟩
  | ok d1 =>
    have := decodeMembers_mismatch ms _ d1 key v hd hmem hl hv
    simp only
    cases hs : d1.savedError with
    | none => exact absurd hs this
    | some e => exact ⟨e, rfl⟩

/-- What `GetLock` makes of a body it has read: the decoding error, or the
holder of the decoded record; never no holder without an error. -/
theorem GetLock_body {σ : Type} (s : S3Lock σ) (r : String) (st st1 : σ) (body : List Char)
    (hg : s.client.GetObject s.bucketName r st = (.ok body, st1)) :
    (∃ e, json.Decode body zeroLockContent = .error e ∧
      s.GetLock r st = ((none, some (LockError.decodeLock e)), st1)) ∨
    (∃ c, json.Decode body zeroLockContent = .ok c ∧
      s.GetLock r st = ((some c.TransactionId, none), st1)) := by
  cases hd : json.Decode body zeroLockContent with
  | error e => exact Or.inl ⟨e, rfl, by simp only [S3Lock.GetLock, hg, hd]⟩
  | ok c => exact Or.inr ⟨c, rfl, by simp only [S3Lock.GetLock, hg, hd]⟩

theorem Marshal_last (c : LockContent) (bytes : List Char) (h : json.Marshal c = .ok bytes) :
    bytes.getLast? = some '\x7d' := by
  obtain ⟨_, _, hb⟩ := Marshal_ok c bytes h
  rw [hb]
  simp [List.getLast?_cons, List.getLast?_append]

/-- The recording client answers as the client it wraps; of `GetLock` it
records one `GetObject` on the bound bucket and the resource. -/
theorem GetLock_recording {σ : Type} (c : S3Client σ) (bucket r : String) (st : σ)
    (log : List Request) :
    (S3Lock.mk (recording c) bucket).GetLock r (st, log) =
      (((S3Lock.mk c bucket).GetLock r st).1,
        (((S3Lock.mk c bucket).GetLock r st).2, log ++ [Request.getObject bucket r])) := by
  simp only [S3Lock.GetLock, recording]
  rcases hg : c.GetObject bucket r st with ⟨res, st1⟩
  cases res with
  | error e => simp only; split <;> rfl
  | ok body => simp only; split <;> rfl

/-- What `Lock` returns and does, step by step, in terms of the inspection. -/
theorem Lock_cases {σ : Type} (s : S3Lock σ) (now : Time) (h : Int) (r : String) (st : σ) :
    (∃ x err, (s.GetLock r st).1 = (x, some err) ∧
      s.Lock now h r st = ((false, some err), (s.GetLock r st).2)) ∨
    (∃ h1, (s.GetLock r st).1 = (some h1, none) ∧
      s.Lock now h r st = ((false, none), (s.GetLock r st).2)) ∨
    ((s.GetLock r st).1 = (none, none) ∧ ∃ err, json.Marshal ⟨h, now⟩ = .error err ∧
      s.Lock now h r st = ((false, some (LockError.marshalLock err)), (s.GetLock r st).2)) ∨
    ((s.GetLock r st).1 = (none, none) ∧ ∃ bytes, json.Marshal ⟨h, now⟩ = .ok bytes ∧
      s.Lock now h r st =
        (match s.client.PutObject s.bucketName r bytes (s.GetLock r st).2 with
          | (some err, st2) => ((false, some (LockError.createLock err)), st2)
          | (none, st2) => ((true, none), st2))) := by
  rcases hg : s.GetLock r st with ⟨⟨x, e⟩, st1⟩
  cases e with
  | some err => exact Or.inl ⟨x, err, rfl, by simp only [S3Lock.Lock, hg]⟩
  | none =>
    cases x with
    | some h1 => exact Or.inr (Or.inl ⟨h1, rfl, by simp only [S3Lock.Lock, hg]⟩)
    | none =>
      cases hm : json.Marshal ⟨h, now⟩ with
      | error err =>
        exact Or.inr (Or.inr (Or.inl ⟨rfl, err, rfl, by simp only [S3Lock.Lock, hg, hm]⟩))
      | ok bytes =>
        refine Or.inr (Or.inr (Or.inr ⟨rfl, bytes, rfl, ?_⟩))
        simp only [S3Lock.Lock, hg, hm]

/-- What `Unlock` returns and does, step by step, in terms of the inspection. -/
theorem Unlock_cases {σ : Type} (s : S3Lock σ) (r : String) (st : σ) :
    (∃ x err, (s.GetLock r st).1 = (x, some err) ∧
      s.Unlock r st = ((false, some err), (s.GetLock r st).2)) ∨
    ((s.GetLock r st).1 = (none, none) ∧
      s.Unlock r st = ((false, none), (s.GetLock r st).2)) ∨
    (∃ h1, (s.GetLock r st).1 = (some h1, none) ∧
      s.Unlock r st =
        (match s.client.DeleteObject s.bucketName r (s.GetLock r st).2 with
          | (some err, st2) => ((false, some (LockError.deleteLock err)), st2)
          | (none, st2) => ((true, none), st2))) := by
  rcases hg : s.GetLock r st with ⟨⟨x, e⟩, st1⟩
  cases e with
  | some err => exact Or.inl ⟨x, err, rfl, by simp only [S3Lock.Unlock, hg]⟩
  | none =>
    cases x with
    | none => exact Or.inr (Or.inl ⟨rfl, by simp only [S3Lock.Unlock, hg]⟩)
    | some h1 =>
      refine Or.inr (Or.inr ⟨h1, rfl, ?_⟩)
      simp only [S3Lock.Unlock, hg]

/-- The calls `Lock` makes on any client: the `GetObject` of the inspection, and
after it at most one `PutObject`, all on the bound bucket and the resource. -/
theorem Lock_recording {σ : Type} (c : S3Client σ) (bucket r : String) (now : Time) (h : Int)
    (st : σ) (log : List Request) :
    ((S3Lock.mk (recording c) bucket).Lock now h r (st, log)).2.2 =
        log ++ [Request.getObject bucket r] ∨
    ∃ body, ((S3Lock.mk (recording c) bucket).Lock now h r (st, log)).2.2 =
        log ++ [Request.getObject bucket r, Request.putObject bucket r body] := by
  have hg := GetLock_recording c bucket r st log
  rcases Lock_cases (S3Lock.mk (recording c) bucket) now h r (st, log) with
    ⟨x, err, _, hl⟩ | ⟨h1, _, hl⟩ | ⟨_, err, _, hl⟩ | ⟨_, bytes, _, hl⟩
  · left; rw [hl, hg]
  · left; rw [hl, hg]
  · left; rw [hl, hg]
  · right
    refine ⟨bytes, ?_⟩
    rw [hl, hg]
    simp only [recording]
    split <;> rename_i heq <;> injection heq with h1 h2 <;> rw [← h2] <;> simp

/-- The calls `Unlock` makes on any client: the `GetObject` of the inspection,
and after it at most one `DeleteObject`, all on the bound bucket and the
resource. -/
theorem Unlock_recording {σ : Type} (c : S3Client σ) (bucket r : String)
    (st : σ) (log : List Request) :
    ((S3Lock.mk (recording c) bucket).Unlock r (st, log)).2.2 =
        log ++ [Request.getObject bucket r] ∨
    ((S3Lock.mk (recording c) bucket).Unlock r (st, log)).2.2 =
        log ++ [Request.getObject bucket r, Request.deleteObject bucket r] := by
  have hg := GetLock_recording c bucket r st log
  rcases Unlock_cases (S3Lock.mk (recording c) bucket) r (st, log) with
    ⟨x, err, _, hl⟩ | ⟨_, hl⟩ | ⟨h1, _, hl⟩
  · left; rw [hl, hg]
  · left; rw [hl, hg]
  · right
    rw [hl, hg]
    simp only [recording]
    split <;> rename_i heq <;> injection heq with h1 h2 <;> rw [← h2] <;> simp

/-- A store call on one key leaves what is seen of every other key as it was:
the condition under which calls that address `r` alone keep the rest of the
store. `obs` is what can be seen of the store under a key. -/
theorem GetLock_frame {σ α : Type} (s : S3Lock σ) (obs : σ → String → α) (r k : String)
    (st : σ) (hget : ∀ b key x, k ≠ key → obs (s.client.GetObject b key x).2 k = obs x k)
    (hk : k ≠ r) : obs (s.GetLock r st).2 k = obs st k := by
  rw [GetLock_state]
  exact hget _ _ _ hk

theorem Lock_frame {σ α : Type} (s : S3Lock σ) (obs : σ → String → α) (r k : String)
    (now : Time) (h : Int) (st : σ)
    (hget : ∀ b key x, k ≠ key → obs (s.client.GetObject b key x).2 k = obs x k)
    (hput : ∀ b key body x, k ≠ key → obs (s.client.PutObject b key body x).2 k = obs x k)
    (hk : k ≠ r) : obs (s.Lock now h r st).2 k = obs st k := by
  have hg := GetLock_frame s obs r k st hget hk
  rcases Lock_cases s now h r st with
    ⟨x, err, _, hl⟩ | ⟨h1, _, hl⟩ | ⟨_, err, _, hl⟩ | ⟨_, bytes, _, hl⟩
  · rw [hl]; exact hg
  · rw [hl]; exact hg
  · rw [hl]; exact hg
  · have hp := hput s.bucketName r bytes (s.GetLock r st).2 hk
    rw [hl]
    rcases hq : s.client.PutObject s.bucketName r bytes (s.GetLock r st).2 with ⟨_ | e, st2⟩
    · rw [hq] at hp; simp only; rw [hp, hg]
    · rw [hq] at hp; simp only; rw [hp, hg]

theorem Unlock_frame {σ α : Type} (s : S3Lock σ) (obs : σ → String → α) (r k : String)
    (st : σ)
    (hget : ∀ b key x, k ≠ key → obs (s.client.GetObject b key x).2 k = obs x k)
    (hdel : ∀ b key x, k ≠ key → obs (s.client.DeleteObject b key x).2 k = obs x k)
    (hk : k ≠ r) : obs (s.Unlock r st).2 k = obs st k := by
  have hg := GetLock_frame s obs r k st hget hk
  rcases Unlock_cases s r st with ⟨x, err, _, hl⟩ | ⟨_, hl⟩ | ⟨h1, _, hl⟩
  · rw [hl]; exact hg
  · rw [hl]; exact hg
  · have hp := hdel s.bucketName r (s.GetLock r st).2 hk
    rw [hl]
    rcases hq : s.client.DeleteObject s.bucketName r (s.GetLock r st).2 with ⟨_ | e, st2⟩
    · rw [hq] at hp; simp only; rw [hp, hg]
    · rw [hq] at hp; simp only; rw [hp, hg]

theorem mock_get_frame (k : String) (b key : String) (x : Objects) :
    (mockS3Client.GetObject b key x).2 k = x k := by
  simp only [mockS3Client]
  split <;> rfl

theorem mock_put_frame (k : String) (b key : String) (body : List Char) (x : Objects)
    (hk : k ≠ key) : (mockS3Client.PutObject b key body x).2 k = x k := by
  simp only [mockS3Client, hk, if_false]

theorem mock_delete_frame (k : String) (b key : String) (x : Objects)
    (hk : k ≠ key) : (mockS3Client.DeleteObject b key x).2 k = x k := by
  simp only [mockS3Client, hk, if_false]

/-- The two steps of `Lock`, run one right after the other, are `Lock`. -/
theorem lockSteps_eq {σ : Type} (s : S3Lock σ) (now : Time) (h : Int) (r : String) (st : σ) :
    s.lockSteps now h r st = s.Lock now h r st := by
  rcases hg : s.GetLock r st with ⟨⟨x, e⟩, st1⟩
  cases e with
  | some err => simp only [S3Lock.lockSteps, S3Lock.lockInspect, S3Lock.Lock, hg]
  | none =>
    cases x with
    | some h1 => simp only [S3Lock.lockSteps, S3Lock.lockInspect, S3Lock.Lock, hg]
    | none =>
      cases hm : json.Marshal ⟨h, now⟩ with
      | error err => simp only [S3Lock.lockSteps, S3Lock.lockInspect, S3Lock.Lock, hg, hm]
      | ok bytes =>
        simp only [S3Lock.lockSteps, S3Lock.lockInspect, S3Lock.Lock, S3Lock.lockWrite, hg, hm]

theorem lockInspect_mock_absent (bucket r : String) (now : Time) (h : Int) (st : Objects)
    (bytes : List Char) (hm : json.Marshal ⟨h, now⟩ = .ok bytes) (habs : st r = none) :
    (mockLock bucket).lockInspect now h r st = (LockPhase.writing bytes, st) := by
  have hg : (mockLock bucket).GetLock r st = ((none, none), st) := by
    rw [GetLock_mock, habs]
  simp only [S3Lock.lockInspect, hg, hm]

theorem lockWrite_mock (bucket r : String) (bytes : List Char) (st : Objects) :
    (mockLock bucket).lockWrite r bytes st =
      ((true, none), fun k => if k = r then some bytes else st k) := rfl

theorem skipSpace_append {s r : List Char} {c : Char} (rest : List Char)
    (h : skipSpace s = c :: r) : skipSpace (s ++ rest) = c :: (r ++ rest) := by
  induction s with
  | nil => simp [skipSpace] at h
  | cons a t ih =>
    simp only [skipSpace, List.cons_append] at h ⊢
    split
    · rename_i hs; rw [if_pos hs] at h; exact ih h
    · rename_i hs; rw [if_neg hs] at h
      injection h with h1 h2
      subst h1; subst h2; rfl

theorem scanLiteral_append : ∀ (es s r rest : List Char), scanLiteral es s = some r →
    scanLiteral es (s ++ rest) = some (r ++ rest) := by
  intro es
  induction es with
  | nil =>
    intro s r rest h
    simp only [scanLiteral] at h ⊢
    injection h with h; subst h; rfl
  | cons e es ih =>
    intro s r rest h
    cases s with
    | nil => simp only [scanLiteral] at h; cases h
    | cons c t =>
      simp only [scanLiteral, List.cons_append] at h ⊢
      split
      · rename_i hc; rw [if_pos hc] at h; exact ih t r rest h
      · rename_i hc; rw [if_neg hc] at h; cases h

theorem scanString_append : ∀ (n : Nat) (s body r rest : List Char), s.length ≤ n →
    scanString s = some (body, r) → scanString (s ++ rest) = some (body, r ++ rest) := by
  intro n
  induction n with
  | zero =>
    intro s body r rest hl h
    cases s with
    | nil => rw [scanString.eq_def] at h; cases h
    | cons c t => simp at hl
  | succ n ih =>
    intro s body r rest hl h
    rw [scanString.eq_def] at h
    cases s with
    | nil => cases h
    | cons c t =>
      simp only at h
      simp only [List.length_cons] at hl
      rw [List.cons_append, scanString.eq_def]
      simp only
      by_cases hq : c = '"'
      · rw [if_pos hq] at h ⊢
        injection h with h; injection h with h1 h2; subst h1; subst h2; rfl
      · rw [if_neg hq] at h ⊢
        by_cases hb : c = '\\'
        · rw [if_pos hb] at h ⊢
          cases t with
          | nil => cases h
          | cons e t2 =>
            simp only [List.cons_append] at h ⊢
            by_cases hu : e = 'u'
            · rw [if_pos hu] at h ⊢
              match t2, h with
              | h1 :: h2 :: h3 :: h4 :: t3, h =>
                simp only [List.cons_append] at h ⊢
                by_cases hx : (isHex h1 && isHex h2 && isHex h3 && isHex h4) = true
                · rw [if_pos hx] at h ⊢
                  cases hs : scanString t3 with
                  | none => rw [hs] at h; cases h
                  | some p =>
                    obtain ⟨b, a⟩ := p
                    rw [hs] at h
                    simp only at h
                    injection h with h; injection h with e1 e2; subst e1; subst e2
                    rw [ih t3 b a rest (by simp only [List.length_cons] at hl; omega) hs]
                · rw [if_neg hx] at h; cases h
              | [], h => cases h
              | [_], h => cases h
              | [_, _], h => cases h
              | [_, _, _], h => cases h
            · rw [if_neg hu] at h ⊢
              by_cases hse : isSimpleEscape e = true
              · rw [if_pos hse] at h ⊢
                cases hs : scanString t2 with
                | none => rw [hs] at h; cases h
                | some p =>
                  obtain ⟨b, a⟩ := p
                  rw [hs] at h
                  simp only at h
                  injection h with h; injection h with e1 e2; subst e1; subst e2
                  rw [ih t2 b a rest (by simp only [List.length_cons] at hl; omega) hs]
              · rw [if_neg hse] at h; cases h
        · rw [if_neg hb] at h ⊢
          by_cases hc : c.toNat < 32
          · rw [if_pos hc] at h; cases h
          · rw [if_neg hc] at h ⊢
            cases hs : scanString t with
            | none => rw [hs] at h; cases h
            | some p =>
              obtain ⟨b, a⟩ := p
              rw [hs] at h
              simp only at h
              injection h with h; injection h with e1 e2; subst e1; subst e2
              rw [ih t b a rest (by omega) hs]

theorem endsNumber_digit {rest : List Char} (h : endsNumber rest) :
    ∀ c t, rest = c :: t → isDigit c = false := by
  intro c t hr
  subst hr
  exact h.1

theorem takeWhile_append_ends (p : Char → Bool) : ∀ (s rest : List Char),
    (s.dropWhile p ≠ [] ∨ ∀ c t, rest = c :: t → p c = false) →
    (s ++ rest).takeWhile p = s.takeWhile p ∧
      (s ++ rest).dropWhile p = s.dropWhile p ++ rest := by
  intro s
  induction s with
  | nil =>
    intro rest h
    cases rest with
    | nil => exact ⟨rfl, rfl⟩
    | cons c t =>
      have hc : p c = false := by
        rcases h with h | h
        · exact absurd rfl h
        · exact h c t rfl
      simp [List.takeWhile_cons, List.dropWhile_cons, hc]
  | cons a s ih =>
    intro rest h
    cases ha : p a with
    | true =>
      have h2 : s.dropWhile p ≠ [] ∨ ∀ c t, rest = c :: t → p c = false := by
        rcases h with h | h
        · left; simpa only [List.dropWhile_cons, ha, if_true] using h
        · right; exact h
      obtain ⟨i1, i2⟩ := ih rest h2
      simp [List.takeWhile_cons, List.dropWhile_cons, ha, i1, i2]
    | false =>
      simp [List.takeWhile_cons, List.dropWhile_cons, ha]

theorem scanExponent_append {s lit r : List Char} (rest : List Char)
    (h : scanExponent s = some (lit, r)) (hr : r ≠ [] ∨ endsNumber rest) :
    scanExponent (s ++ rest) = some (lit, r ++ rest) := by
  have key : ∀ (sg t : List Char),
      (if (t.takeWhile isDigit).isEmpty then none
        else some (sg ++ t.takeWhile isDigit, t.dropWhile isDigit)) = some (lit, r) →
      (if ((t ++ rest).takeWhile isDigit).isEmpty then none
        else some (sg ++ (t ++ rest).takeWhile isDigit, (t ++ rest).dropWhile isDigit))
        = some (lit, r ++ rest) := by
    intro sg t ht
    by_cases he : (t.takeWhile isDigit).isEmpty = true
    · rw [if_pos he] at ht; cases ht
    · rw [if_neg he] at ht
      injection ht with ht; injection ht with h1 h2
      have hd : t.dropWhile isDigit ≠ [] ∨ ∀ c u, rest = c :: u → isDigit c = false := by
        rcases hr with hr | hr
        · left; rw [h2]; exact hr
        · right; exact endsNumber_digit hr
      obtain ⟨i1, i2⟩ := takeWhile_append_ends isDigit t rest hd
      rw [i1, i2, if_neg he, h1, h2]
  cases s with
  | nil =>
    simp only [scanExponent] at h
    exact absurd h (by simp)
  | cons c t =>
    simp only [scanExponent, List.cons_append] at h ⊢
    by_cases hc : c = '+' ∨ c = '-'
    · simp only [if_pos hc] at h ⊢
      exact key [c] t h
    · simp only [if_neg hc] at h ⊢
      exact key [] (c :: t) h

theorem scanFraction_append {s fr r : List Char} (rest : List Char)
    (h : scanFraction s = some (fr, r)) (hr : r ≠ [] ∨ endsNumber rest) :
    scanFraction (s ++ rest) = some (fr, r ++ rest) := by
  have plain : ∀ (rest : List Char), endsNumber rest → scanFraction rest = some ([], rest) := by
    intro rest he
    cases rest with
    | nil => rfl
    | cons c t =>
      obtain ⟨_, h1, h2, h3⟩ := he
      simp only [scanFraction, if_neg h1, if_neg (not_or.mpr ⟨h2, h3⟩)]
  cases s with
  | nil =>
    simp only [scanFraction] at h
    injection h with h; injection h with h1 h2
    subst h1; subst h2
    rcases hr with hr | hr
    · exact absurd rfl hr
    · exact plain rest hr
  | cons c t =>
    simp only [scanFraction, List.cons_append] at h ⊢
    by_cases hc : c = '.'
    · simp only [if_pos hc] at h ⊢
      by_cases he : (t.takeWhile isDigit).isEmpty = true
      · rw [if_pos he] at h; cases h
      · rw [if_neg he] at h
        cases hd : t.dropWhile isDigit with
        | nil =>
          rw [hd] at h
          simp only at h
          injection h with h; injection h with h1 h2
          subst h2
          have hen : endsNumber rest := by
            rcases hr with hr | hr
            · exact absurd rfl hr
            · exact hr
          obtain ⟨i1, i2⟩ := takeWhile_append_ends isDigit t rest
            (Or.inr (endsNumber_digit hen))
          rw [i1, i2, if_neg he, hd, List.nil_append]
          cases rest with
          | nil => simp only; rw [h1]
          | cons e r2 =>
            obtain ⟨_, _, h2, h3⟩ := hen
            simp only [if_neg (not_or.mpr ⟨h2, h3⟩)]
            rw [h1]
        | cons e r2 =>
          rw [hd] at h
          simp only at h
          obtain ⟨i1, i2⟩ := takeWhile_append_ends isDigit t rest
            (Or.inl (by rw [hd]; exact List.cons_ne_nil _ _))
          rw [i1, i2, if_neg he, hd, List.cons_append]
          simp only
          by_cases hee : e = 'e' ∨ e = 'E'
          · rw [if_pos hee] at h ⊢
            cases hx : scanExponent r2 with
            | none => rw [hx] at h; cases h
            | some p =>
              obtain ⟨ex, after⟩ := p
              rw [hx] at h
              simp only at h
              injection h with h; injection h with h1 h2
              subst h2
              rw [scanExponent_append rest hx hr]
              simp only
              rw [h1]
          · rw [if_neg hee] at h ⊢
            injection h with h; injection h with h1 h2
            rw [h1, ← h2]
            rfl
    · simp only [if_neg hc] at h ⊢
      by_cases hee : c = 'e' ∨ c = 'E'
      · rw [if_pos hee] at h ⊢
        cases hx : scanExponent t with
        | none => rw [hx] at h; cases h
        | some p =>
          obtain ⟨ex, after⟩ := p
          rw [hx] at h
          simp only at h
          injection h with h; injection h with h1 h2
          subst h2
          rw [scanExponent_append rest hx hr]
          simp only
          rw [h1]
      · rw [if_neg hee] at h ⊢
        injection h with h; injection h with h1 h2
        rw [h1, ← h2]
        rfl

theorem scanDigits_append {s ds r : List Char} (rest : List Char)
    (h : scanDigits s = some (ds, r)) (hr : r ≠ [] ∨ endsNumber rest) :
    scanDigits (s ++ rest) = some (ds, r ++ rest) := by
  cases s with
  | nil => simp only [scanDigits] at h; cases h
  | cons c t =>
    simp only [scanDigits, List.cons_append] at h ⊢
    by_cases hz : c = '0'
    · rw [if_pos hz] at h ⊢
      injection h with h; injection h with h1 h2
      rw [h1, h2]
    · rw [if_neg hz] at h ⊢
      by_cases hd : isDigit c = true
      · rw [if_pos hd] at h ⊢
        injection h with h; injection h with h1 h2
        have hdd : t.dropWhile isDigit ≠ [] ∨ ∀ c u, rest = c :: u → isDigit c = false := by
          rcases hr with hr | hr
          · left; rw [h2]; exact hr
          · right; exact endsNumber_digit hr
        obtain ⟨i1, i2⟩ := takeWhile_append_ends isDigit t rest hdd
        rw [i1, i2, h1, h2]
      · rw [if_neg hd] at h; cases h

theorem scanNumber_append {s lit r : List Char} (rest : List Char)
    (h : scanNumber s = some (lit, r)) (hr : r ≠ [] ∨ endsNumber rest) :
    scanNumber (s ++ rest) = some (lit, r ++ rest) := by
  have key : ∀ (sg t : List Char),
      (match scanDigits t with
        | none => none
        | some (ds, r) =>
          match scanFraction r with
          | none => none
          | some (fr, after) => some (sg ++ ds ++ fr, after)) = some (lit, r) →
      (match scanDigits (t ++ rest) with
        | none => none
        | some (ds, r) =>
          match scanFraction r with
          | none => none
          | some (fr, after) => some (sg ++ ds ++ fr, after)) = some (lit, r ++ rest) := by
    intro sg t ht
    cases hd : scanDigits t with
    | none => rw [hd] at ht; cases ht
    | some p =>
      obtain ⟨ds, r1⟩ := p
      rw [hd] at ht
      simp only at ht
      cases hf : scanFraction r1 with
      | none => rw [hf] at ht; cases ht
      | some q =>
        obtain ⟨fr, after⟩ := q
        rw [hf] at ht
        simp only at ht
        injection ht with ht; injection ht with h1 h2
        subst h2
        have hr1 : r1 ≠ [] ∨ endsNumber rest := by
          rcases hr with hr | hr
          · left
            intro hn
            subst hn
            simp only [scanFraction] at hf
            injection hf with hf; injection hf with _ hf2
            exact hr hf2.symm
          · right; exact hr
        rw [scanDigits_append rest hd hr1]
        simp only
        rw [scanFraction_append rest hf hr]
        simp only
        rw [h1]
  cases s with
  | nil => simp only [scanNumber, scanDigits] at h; cases h
  | cons c t =>
    simp only [scanNumber, List.cons_append] at h ⊢
    by_cases hc : c = '-'
    · simp only [if_pos hc] at h ⊢
      exact key [c] t h
    · simp only [if_neg hc] at h ⊢
      exact key [] (c :: t) h

/-- Text that follows a scanned value does not change it, and neither does a
larger bound on the recursion: a value, a member list or an element list taken
from `s` is taken unchanged from `s ++ rest`. For a value that ends with the
input the text that follows must not continue a number. -/
theorem parse_extend : ∀ fuel : Nat,
    (∀ fuel2 d s v r rest, fuel ≤ fuel2 → parseValue fuel d s = some (v, r) →
      (r ≠ [] ∨ endsNumber rest) → parseValue fuel2 d (s ++ rest) = some (v, r ++ rest)) ∧
    (∀ fuel2 d s ms r rest, fuel ≤ fuel2 → parseMembers fuel d s = some (ms, r) →
      parseMembers fuel2 d (s ++ rest) = some (ms, r ++ rest)) ∧
    (∀ fuel2 d s vs r rest, fuel ≤ fuel2 → parseElements fuel d s = some (vs, r) →
      parseElements fuel2 d (s ++ rest) = some (vs, r ++ rest)) := by
  intro fuel
  induction fuel with
  | zero =>
    refine ⟨?_, ?_, ?_⟩
    · intro fuel2 d s v r rest _ h; simp only [parseValue] at h; cases h
    · intro fuel2 d s v r rest _ h; simp only [parseMembers] at h; cases h
    · intro fuel2 d s v r rest _ h; simp only [parseElements] at h; cases h
  | succ fuel ih =>
    obtain ⟨ihv, ihm, ihe⟩ := ih
    refine ⟨?_, ?_, ?_⟩
    · intro fuel2 d s v r rest hle h hr
      cases fuel2 with
      | zero => omega
      | succ fuel2 =>
        have hle2 : fuel ≤ fuel2 := by omega
        simp only [parseValue] at h ⊢
        cases hsk : skipSpace s with
        | nil => rw [hsk] at h; cases h
        | cons c r0 =>
          rw [hsk] at h
          rw [skipSpace_append rest hsk]
          simp only at h ⊢
          by_cases hob : c = '\x7b'
          · rw [if_pos hob] at h ⊢
            by_cases hdep : maxNestingDepth ≤ d
            · rw [if_pos hdep] at h; cases h
            · rw [if_neg hdep] at h ⊢
              cases hk : skipSpace r0 with
              | nil => rw [hk] at h; cases h
              | cons k r2 =>
                rw [hk] at h
                rw [skipSpace_append rest hk]
                simp only at h ⊢
                by_cases hcl : k = '\x7d'
                · rw [if_pos hcl] at h ⊢
                  injection h with h; injection h with h1 h2
                  rw [h1, h2]
                · rw [if_neg hcl] at h ⊢
                  cases hm : parseMembers fuel (d + 1) (k :: r2) with
                  | none => rw [hm] at h; cases h
                  | some p =>
                    obtain ⟨ms, after⟩ := p
                    rw [hm] at h
                    simp only at h
                    injection h with h; injection h with h1 h2
                    have := ihm fuel2 (d + 1) (k :: r2) ms after rest hle2 hm
                    rw [List.cons_append] at this
                    rw [this]
                    simp only
                    rw [h1, h2]
          · rw [if_neg hob] at h ⊢
            by_cases har : c = '['
            · rw [if_pos har] at h ⊢
              by_cases hdep : maxNestingDepth ≤ d
              · rw [if_pos hdep] at h; cases h
              · rw [if_neg hdep] at h ⊢
                cases hk : skipSpace r0 with
                | nil => rw [hk] at h; cases h
                | cons k r2 =>
                  rw [hk] at h
                  rw [skipSpace_append rest hk]
                  simp only at h ⊢
                  by_cases hcl : k = ']'
                  · rw [if_pos hcl] at h ⊢
                    injection h with h; injection h with h1 h2
                    rw [h1, h2]
                  · rw [if_neg hcl] at h ⊢
                    cases hm : parseElements fuel (d + 1) (k :: r2) with
                    | none => rw [hm] at h; cases h
                    | some p =>
                      obtain ⟨ms, after⟩ := p
                      rw [hm] at h
                      simp only at h
                      injection h with h; injection h with h1 h2
                      have := ihe fuel2 (d + 1) (k :: r2) ms after rest hle2 hm
                      rw [List.cons_append] at this
                      rw [this]
                      simp only
                      rw [h1, h2]
            · rw [if_neg har] at h ⊢
              by_cases hq : c = '"'
              · rw [if_pos hq] at h ⊢
                cases hs : scanString r0 with
                | none => rw [hs] at h; cases h
                | some p =>
                  obtain ⟨body, after⟩ := p
                  rw [hs] at h
                  simp only at h
                  injection h with h; injection h with h1 h2
                  rw [scanString_append _ r0 body after rest (Nat.le_refl _) hs]
                  simp only
                  rw [h1, h2]
              · rw [if_neg hq] at h ⊢
                by_cases hn : c = '-' ∨ isDigit c = true
                · rw [if_pos hn] at h ⊢
                  cases hs : scanNumber (c :: r0) with
                  | none => rw [hs] at h; cases h
                  | some p =>
                    obtain ⟨lit, after⟩ := p
                    rw [hs] at h
                    simp only at h
                    injection h with h; injection h with h1 h2
                    have := scanNumber_append rest hs (by rw [h2]; exact hr)
                    rw [List.cons_append] at this
                    rw [this]
                    simp only
                    rw [h1, h2]
                · rw [if_neg hn] at h ⊢
                  by_cases ht : c = 't'
                  · rw [if_pos ht] at h ⊢
                    cases hs : scanLiteral ['r', 'u', 'e'] r0 with
                    | none => rw [hs] at h; cases h
                    | some after =>
                      rw [hs] at h
                      simp only at h
                      injection h with h; injection h with h1 h2
                      rw [scanLiteral_append _ r0 after rest hs]
                      simp only
                      rw [h1, h2]
                  · rw [if_neg ht] at h ⊢
                    by_cases hf : c = 'f'
                    · rw [if_pos hf] at h ⊢
                      cases hs : scanLiteral ['a', 'l', 's', 'e'] r0 with
                      | none => rw [hs] at h; cases h
                      | some after =>
                        rw [hs] at h
                        simp only at h
                        injection h with h; injection h with h1 h2
                        rw [scanLiteral_append _ r0 after rest hs]
                        simp only
                        rw [h1, h2]
                    · rw [if_neg hf] at h ⊢
                      by_cases hnl : c = 'n'
                      · rw [if_pos hnl] at h ⊢
                        cases hs : scanLiteral ['u', 'l', 'l'] r0 with
                        | none => rw [hs] at h; cases h
                        | some after =>
                          rw [hs] at h
                          simp only at h
                          injection h with h; injection h with h1 h2
                          rw [scanLiteral_append _ r0 after rest hs]
                          simp only
                          rw [h1, h2]
                      · rw [if_neg hnl] at h; cases h
    · intro fuel2 d s ms r rest hle h
      cases fuel2 with
      | zero => omega
      | succ fuel2 =>
        have hle2 : fuel ≤ fuel2 := by omega
        simp only [parseMembers] at h ⊢
        cases hsk : skipSpace s with
        | nil => rw [hsk] at h; cases h
        | cons q r0 =>
          rw [hsk] at h
          rw [skipSpace_append rest hsk]
          simp only at h ⊢
          by_cases hq : q = '"'
          · rw [if_pos hq] at h ⊢
            cases hs : scanString r0 with
            | none => rw [hs] at h; cases h
            | some p =>
              obtain ⟨key, r1⟩ := p
              rw [hs] at h
              rw [scanString_append _ r0 key r1 rest (Nat.le_refl _) hs]
              simp only at h ⊢
              cases hcol : skipSpace r1 with
              | nil => rw [hcol] at h; cases h
              | cons colon r2 =>
                rw [hcol] at h
                rw [skipSpace_append rest hcol]
                simp only at h ⊢
                by_cases hc : colon = ':'
                · rw [if_pos hc] at h ⊢
                  cases hv : parseValue fuel d r2 with
                  | none => rw [hv] at h; cases h
                  | some p =>
                    obtain ⟨v, r3⟩ := p
                    rw [hv] at h
                    simp only at h
                    cases hsep : skipSpace r3 with
                    | nil => rw [hsep] at h; cases h
                    | cons sep r4 =>
                      rw [hsep] at h
                      simp only at h
                      have hr3 : r3 ≠ [] := by
                        intro hn; subst hn; simp [skipSpace] at hsep
                      rw [ihv fuel2 d r2 v r3 rest hle2 hv (Or.inl hr3)]
                      simp only
                      rw [skipSpace_append rest hsep]
                      simp only
                      by_cases hcm : sep = ','
                      · rw [if_pos hcm] at h ⊢
                        cases hm : parseMembers fuel d r4 with
                        | none => rw [hm] at h; cases h
                        | some p =>
                          obtain ⟨ms2, after⟩ := p
                          rw [hm] at h
                          simp only at h
                          injection h with h; injection h with h1 h2
                          rw [ihm fuel2 d r4 ms2 after rest hle2 hm]
                          simp only
                          rw [h1, h2]
                      · rw [if_neg hcm] at h ⊢
                        by_cases hcl : sep = '\x7d'
                        · rw [if_pos hcl] at h ⊢
                          injection h with h; injection h with h1 h2
                          rw [h1, h2]
                        · rw [if_neg hcl] at h; cases h
                · rw [if_neg hc] at h; cases h
          · rw [if_neg hq] at h; cases h
    · intro fuel2 d s vs r rest hle h
      cases fuel2 with
      | zero => omega
      | succ fuel2 =>
        have hle2 : fuel ≤ fuel2 := by omega
        simp only [parseElements] at h ⊢
        cases hv : parseValue fuel d s with
        | none => rw [hv] at h; cases h
        | some p =>
          obtain ⟨v, r3⟩ := p
          rw [hv] at h
          simp only at h
          cases hsep : skipSpace r3 with
          | nil => rw [hsep] at h; cases h
          | cons sep r4 =>
            rw [hsep] at h
            simp only at h
            have hr3 : r3 ≠ [] := by
              intro hn; subst hn; simp [skipSpace] at hsep
            rw [ihv fuel2 d s v r3 rest hle2 hv (Or.inl hr3)]
            simp only
            rw [skipSpace_append rest hsep]
            simp only
            by_cases hcm : sep = ','
            · rw [if_pos hcm] at h ⊢
              cases hm : parseElements fuel d r4 with
              | none => rw [hm] at h; cases h
              | some p =>
                obtain ⟨vs2, after⟩ := p
                rw [hm] at h
                simp only at h
                injection h with h; injection h with h1 h2
                rw [ihe fuel2 d r4 vs2 after rest hle2 hm]
                simp only
                rw [h1, h2]
            · rw [if_neg hcm] at h ⊢
              by_cases hcl : sep = ']'
              · rw [if_pos hcl] at h ⊢
                injection h with h; injection h with h1 h2
                rw [h1, h2]
              · rw [if_neg hcl] at h; cases h

/-- The scanner takes the decimal text of an integer as one number when the
text that follows does not continue a number. -/
theorem scanNumber_formatInt_ends (h : Int) (z : Char) (rest : List Char)
    (hz : endsNumber (z :: rest)) :
    scanNumber (formatInt h ++ z :: rest) = some (formatInt h, z :: rest) := by
  obtain ⟨hdz, h1, h2, h3⟩ := hz
  have key : ∀ n : Nat, scanDigits (formatUint n ++ z :: rest) =
      some (formatUint n, z :: rest) := by
    intro n
    rcases Nat.eq_zero_or_pos n with h0 | hpos
    · subst h0; rfl
    · obtain ⟨c, r, hc, hd, hne, hr⟩ := formatUint_head n hpos
      obtain ⟨t1, t2⟩ := takeWhile_digits r z rest hr hdz
      rw [hc]
      simp only [List.cons_append, scanDigits, hne, if_false, hd, if_true, t1, t2]
  have frac : scanFraction (z :: rest) = some ([], z :: rest) := by
    simp only [scanFraction, if_neg h1, if_neg (not_or.mpr ⟨h2, h3⟩)]
  obtain ⟨c, r, hc, hd, hr⟩ := formatUint_cons h.natAbs
  by_cases hneg : h < 0
  · simp only [formatInt, hneg, if_true, List.cons_append, scanNumber, key, frac]
    simp
  · have hm := isDigit_ne_minus hd
    have k := key h.natAbs
    rw [hc, List.cons_append] at k
    simp only [formatInt, hneg, if_false, hc, List.cons_append, scanNumber, hm, k, frac]
    simp

theorem endsNumber_sep {sep : Char} (rest : List Char) (h : sep = ',' ∨ sep = '\x7d') :
    endsNumber (sep :: rest) := by
  rcases h with h | h <;> subst h <;> exact ⟨by decide, by decide, by decide, by decide⟩

theorem scansAs_of_parse {fuel d : Nat} {v : List Char} {val : JValue}
    (h : parseValue fuel d v = some (val, [])) : scansAs d v val := by
  refine ⟨fuel, ?_⟩
  intro fuel2 hle sep rest hsep
  have := (parse_extend fuel).1 fuel2 d v val [] (sep :: rest) hle h
    (Or.inr (endsNumber_sep rest hsep))
  rwa [List.nil_append] at this

theorem scansAs_formatInt (d : Nat) (h : Int) :
    scansAs d (formatInt h) (JValue.number (formatInt h)) := by
  refine ⟨1, ?_⟩
  intro fuel hle sep rest hsep
  obtain ⟨k, hk⟩ : ∃ k, fuel = k + 1 := ⟨fuel - 1, by omega⟩
  subst hk
  obtain ⟨c, r, hd⟩ : ∃ c r, formatInt h = c :: r ∧ (c = '-' ∨ isDigit c = true) := by
    obtain ⟨c, r, e, hdig, _⟩ := formatUint_cons h.natAbs
    unfold formatInt
    split
    · exact ⟨'-', _, rfl, Or.inl rfl⟩
    · exact ⟨c, r, e, Or.inr hdig⟩
  have hs := scanNumber_formatInt_ends h sep rest (endsNumber_sep rest hsep)
  rw [hd.1] at hs ⊢
  exact parseValue_number k d c _ _ _ hd.2 hs

theorem scansAs_string (d : Nat) (body : List Char) (h : body.all isPlain = true) :
    scansAs d ('"' :: (body ++ ['"'])) (JValue.string body) := by
  refine ⟨1, ?_⟩
  intro fuel hle sep rest _
  obtain ⟨k, hk⟩ : ∃ k, fuel = k + 1 := ⟨fuel - 1, by omega⟩
  subst hk
  have hs := scanString_plain body (sep :: rest) h
  simp only [List.cons_append, List.append_assoc, List.nil_append]
  exact parseValue_string k d _ _ _ hs

theorem scanString_key {k : List Char} (h : scanString (k ++ ['"']) = some (k, []))
    (rest : List Char) : scanString (k ++ '"' :: rest) = some (k, rest) := by
  have := scanString_append _ (k ++ ['"']) k [] rest (Nat.le_refl _) h
  simpa only [List.append_assoc, List.cons_append, List.nil_append] using this

theorem renderMembers_head (m : List Char × List Char) (ms : List (List Char × List Char)) :
    ∃ r0, renderMembers (m :: ms) = '"' :: r0 := by
  obtain ⟨k, v⟩ := m
  cases ms with
  | nil => exact ⟨_, rfl⟩
  | cons m2 ms => exact ⟨_, rfl⟩

/-- The scanner on the text of a list of members: each key with the value its
text stands for, in the order of the text. -/
theorem parseMembers_render (d : Nat) : ∀ (ts : List ((List Char × List Char) × JValue)),
    ts ≠ [] →
    (∀ t ∈ ts, scanString (t.1.1 ++ ['"']) = some (t.1.1, []) ∧ scansAs d t.1.2 t.2) →
    ∃ F, ∀ fuel, F ≤ fuel → ∀ rest,
      parseMembers fuel d (renderMembers (ts.map Prod.fst) ++ '\x7d' :: rest) =
        some (ts.map (fun t => (t.1.1, t.2)), rest) := by
  intro ts
  induction ts with
  | nil => intro h; exact absurd rfl h
  | cons t ts ih =>
    intro _ hall
    obtain ⟨⟨k, v⟩, val⟩ := t
    obtain ⟨hk, F1, hv⟩ := hall ((k, v), val) (List.mem_cons_self _ _)
    cases ts with
    | nil =>
      refine ⟨F1 + 1, ?_⟩
      intro fuel hle rest
      obtain ⟨f, hf⟩ : ∃ f, fuel = f + 1 := ⟨fuel - 1, by omega⟩
      subst hf
      simp only [List.map_cons, List.map_nil, renderMembers, List.cons_append, List.append_assoc]
      exact parseMembers_last f d _ k _ rest val (scanString_key hk _)
        (hv f (by omega) '\x7d' rest (Or.inr rfl))
    | cons t2 ts =>
      obtain ⟨F2, hrest⟩ := ih (List.cons_ne_nil _ _)
        (fun t ht => hall t (List.mem_cons_of_mem _ ht))
      refine ⟨max F1 F2 + 1, ?_⟩
      intro fuel hle rest
      obtain ⟨f, hf⟩ : ∃ f, fuel = f + 1 := ⟨fuel - 1, by omega⟩
      subst hf
      have hm := hrest f (by omega) rest
      simp only [List.map_cons, renderMembers, List.cons_append, List.append_assoc] at hm ⊢
      exact parseMembers_more f d _ k _ _ rest val _ (scanString_key hk _)
        (hv f (by omega) ',' _ (Or.inl rfl)) hm

/-- The scanner on the text of an object that has members. -/
theorem parseValue_render (ts : List ((List Char × List Char) × JValue)) (hne : ts ≠ [])
    (hall : ∀ t ∈ ts, scanString (t.1.1 ++ ['"']) = some (t.1.1, []) ∧ scansAs 1 t.1.2 t.2) :
    ∃ F, ∀ fuel, F ≤ fuel →
      parseValue fuel 0 (renderObject (ts.map Prod.fst)) =
        some (JValue.object (ts.map (fun t => (t.1.1, t.2))), []) := by
  obtain ⟨F, hF⟩ := parseMembers_render 1 ts hne hall
  refine ⟨F + 1, ?_⟩
  intro fuel hle
  obtain ⟨f, hf⟩ : ∃ f, fuel = f + 1 := ⟨fuel - 1, by omega⟩
  subst hf
  have hm := hF f (by omega) []
  cases ts with
  | nil => exact absurd rfl hne
  | cons t ts =>
    obtain ⟨r0, hr0⟩ := renderMembers_head t.1 (ts.map Prod.fst)
    rw [List.map_cons, hr0, List.cons_append] at hm
    rw [List.map_cons, renderObject, hr0, List.cons_append]
    exact parseValue_object f 0 _ [] _ (by decide) hm

/-- Members whose keys select no field are passed over by the decoder. -/
theorem decodeMembers_skip : ∀ (ms tail : List (List Char × JValue)) (d : decodeState),
    (∀ m ∈ ms, lookupField (unquote m.1) = none) →
    decodeMembers (ms ++ tail) d = decodeMembers tail d := by
  intro ms
  induction ms with
  | nil => intro tail d _; rfl
  | cons m ms ih =>
    intro tail d h
    obtain ⟨k, v⟩ := m
    have hk : lookupField (unquote k) = none := h (k, v) (List.mem_cons_self _ _)
    rw [List.cons_append, decodeMembers, hk]
    exact ih tail d (fun m hm => h m (List.mem_cons_of_mem _ hm))

/-- Each extra member comes with the value its text stands for. -/
theorem extraMember_values : ∀ (ms : List (List Char × List Char)),
    (∀ m ∈ ms, extraMember m) →
    ∃ ts : List ((List Char × List Char) × JValue), ts.map Prod.fst = ms ∧
      (∀ t ∈ ts, scanString (t.1.1 ++ ['"']) = some (t.1.1, []) ∧ scansAs 1 t.1.2 t.2) ∧
      (∀ m ∈ ts.map (fun t => (t.1.1, t.2)), lookupField (unquote m.1) = none) := by
  intro ms
  induction ms with
  | nil => intro _; exact ⟨[], rfl, by simp, by simp⟩
  | cons m ms ih =>
    intro h
    obtain ⟨ts, h1, h2, h3⟩ := ih (fun m hm => h m (List.mem_cons_of_mem _ hm))
    obtain ⟨hk, hl, fuel, val, hv⟩ := h m (List.mem_cons_self _ _)
    refine ⟨(m, val) :: ts, by rw [List.map_cons, h1], ?_, ?_⟩
    · intro t ht
      rcases List.mem_cons.1 ht with e | e
      · subst e; exact ⟨hk, scansAs_of_parse hv⟩
      · exact h2 t e
    · intro x hx
      rw [List.map_cons] at hx
      rcases List.mem_cons.1 hx with e | e
      · subst e; exact hl
      · exact h3 x e

/-- Decoding the text of a Lock Record that carries extra members gives the
record, with the offset of the creation time cut to whole minutes. -/
theorem Decode_withExtras (c into : LockContent) (pre mid post : List (List Char × List Char))
    (hid : isGoInt c.TransactionId) (ht : c.CreatedAt.inRange)
    (hx : ∀ m ∈ pre ++ mid ++ post, extraMember m) :
    json.Decode (renderObject (withExtras c pre mid post)) into =
      .ok ⟨c.TransactionId, c.CreatedAt.rounded⟩ := by
  obtain ⟨wf, hy, hz⟩ := ht
  have hplain := appendFormatRFC3339_plain c.CreatedAt wf hy hz
  obtain ⟨t1, e1, a1, l1⟩ := extraMember_values pre
    (fun m hm => hx m (by simp only [List.mem_append]; exact Or.inl (Or.inl hm)))
  obtain ⟨t2, e2, a2, l2⟩ := extraMember_values mid
    (fun m hm => hx m (by simp only [List.mem_append]; exact Or.inl (Or.inr hm)))
  obtain ⟨t3, e3, a3, l3⟩ := extraMember_values post
    (fun m hm => hx m (by simp only [List.mem_append]; exact Or.inr hm))
  have hs1 : scanString ("transaction_id".toList ++ ['"']) = some ("transaction_id".toList, []) := by
    decide
  have hs2 : scanString ("created_at".toList ++ ['"']) = some ("created_at".toList, []) := by
    decide
  let ts : List ((List Char × List Char) × JValue) :=
    t1 ++ (idMember c, JValue.number (formatInt c.TransactionId)) ::
      (t2 ++ (timeMember c, JValue.string (appendFormatRFC3339 c.CreatedAt)) :: t3)
  have hts : ts.map Prod.fst = withExtras c pre mid post := by
    simp only [ts, withExtras, List.map_append, List.map_cons, e1, e2, e3]
  have hall : ∀ t ∈ ts,
      scanString (t.1.1 ++ ['"']) = some (t.1.1, []) ∧ scansAs 1 t.1.2 t.2 := by
    intro t h
    simp only [ts, List.mem_append, List.mem_cons] at h
    rcases h with h | h | h | h | h
    · exact a1 t h
    · subst h; exact ⟨hs1, scansAs_formatInt 1 _⟩
    · exact a2 t h
    · subst h; exact ⟨hs2, scansAs_string 1 _ hplain⟩
    · exact a3 t h
  have hne : ts ≠ [] := by simp [ts]
  obtain ⟨F, hF⟩ := parseValue_render ts hne hall
  rw [hts] at hF
  have hp := hF (F + (2 * (renderObject (withExtras c pre mid post)).length + 1)) (by omega)
  rw [Decode_fuel _ _ (by omega)] at hp
  have hl1 : lookupField (unquote "transaction_id".toList) = some Field.transactionId := by decide
  have hl2 : lookupField (unquote "created_at".toList) = some Field.createdAt := by decide
  have hast : ts.map (fun t => (t.1.1, t.2)) =
      t1.map (fun t => (t.1.1, t.2)) ++
        ("transaction_id".toList, JValue.number (formatInt c.TransactionId)) ::
          (t2.map (fun t => (t.1.1, t.2)) ++
            ("created_at".toList, JValue.string (appendFormatRFC3339 c.CreatedAt)) ::
              (t3.map (fun t => (t.1.1, t.2)) ++ [])) := by
    simp only [ts, List.map_append, List.map_cons, idMember, timeMember, List.append_nil]
  simp only [json.Decode, hp, unmarshal, hast]
  rw [decodeMembers_skip _ _ _ l1]
  simp only [decodeMembers, hl1, storeTransactionId, parseInt_formatInt _ hid]
  rw [decodeMembers_skip _ _ _ l2]
  simp only [decodeMembers, hl2, storeCreatedAt, Option.bind, UnmarshalJSON_quoted _ _ wf hy hz]
  rw [decodeMembers_skip _ _ _ l3]
  simp only [decodeMembers]

/-- More arrays opened than `maxNestingDepth` allows: the scanner gives up,
whatever follows. -/
theorem parseValue_deep : ∀ (n fuel d : Nat) (rest : List Char), maxNestingDepth ≤ d + n →
    parseValue fuel d (List.replicate (n + 1) '[' ++ rest) = none := by
  intro n
  induction n with
  | zero =>
    intro fuel d rest h
    cases fuel with
    | zero => simp only [parseValue]
    | succ fuel =>
      have hs : isSpace '[' = false := by decide
      have h1 : ¬ ('[' = '\x7b') := by decide
      have h2 : maxNestingDepth ≤ d := by omega
      simp only [List.replicate, List.cons_append, List.nil_append, parseValue, skipSpace_cons _ _ hs,
        h1, if_false, if_true, h2]
  | succ n ih =>
    intro fuel d rest h
    cases fuel with
    | zero => simp only [parseValue]
    | succ fuel =>
      have hs : isSpace '[' = false := by decide
      have h1 : ¬ ('[' = '\x7b') := by decide
      have h3 : ¬ ('[' = ']') := by decide
      have hrep : List.replicate (n + 1 + 1) '[' ++ rest =
          '[' :: '[' :: (List.replicate n '[' ++ rest) := by
        simp only [List.replicate, List.cons_append]
      rw [hrep]
      simp only [parseValue, skipSpace_cons _ _ hs, h1, if_false, if_true, h3]
      by_cases h2 : maxNestingDepth ≤ d
      · rw [if_pos h2]
      · rw [if_neg h2]
        cases fuel with
        | zero => simp only [parseElements]
        | succ fuel =>
          have := ih fuel (d + 1) rest (by omega)
          simp only [List.replicate, List.cons_append] at this
          simp only [parseElements, this]

theorem parseMembers_value_fails (fuel depth : Nat) (r key r2 : List Char)
    (hk : scanString r = some (key, ':' :: r2)) (hv : parseValue fuel depth r2 = none) :
    parseMembers (fuel + 1) depth ('"' :: r) = none := by
  have hs : isSpace '"' = false := by decide
  have hs2 : isSpace ':' = false := by decide
  simp only [parseMembers, skipSpace_cons _ r hs, if_true, hk, skipSpace_cons _ r2 hs2, hv]

theorem parseMembers_more_fails (fuel depth : Nat) (r key r2 r4 : List Char) (v : JValue)
    (hk : scanString r = some (key, ':' :: r2))
    (hv : parseValue fuel depth r2 = some (v, ',' :: r4))
    (hm : parseMembers fuel depth r4 = none) :
    parseMembers (fuel + 1) depth ('"' :: r) = none := by
  have hs : isSpace '"' = false := by decide
  have hs2 : isSpace ':' = false := by decide
  have hs3 : isSpace ',' = false := by decide
  simp only [parseMembers, skipSpace_cons _ r hs, if_true, hk, skipSpace_cons _ r2 hs2, hv,
    skipSpace_cons _ r4 hs3, hm]

theorem parseValue_object_fails (fuel depth : Nat) (r : List Char)
    (hm : parseMembers fuel (depth + 1) ('"' :: r) = none) :
    parseValue (fuel + 1) depth ('\x7b' :: '"' :: r) = none := by
  have hs : isSpace '\x7b' = false := by decide
  have hs2 : isSpace '"' = false := by decide
  have h1 : ¬ ('"' = '\x7d') := by decide
  simp only [parseValue, skipSpace_cons _ _ hs, if_true, skipSpace_cons _ r hs2, h1, if_false, hm]
  split <;> rfl

/-- The text `json.Marshal` writes is the object of the two members of the
record. -/
theorem Marshal_render (c : LockContent) (h : c.CreatedAt.inRange) :
    json.Marshal c = .ok (renderObject (withExtras c [] [] [])) := by
  obtain ⟨bytes, hb⟩ := Marshal_inRange c h
  obtain ⟨_, _, e⟩ := Marshal_ok c bytes hb
  rw [hb, e]
  simp only [renderObject, withExtras, renderMembers, idMember, timeMember, List.nil_append,
    List.cons_append, List.append_assoc]

/-- A member whose value opens more arrays than the scanner allows makes the
whole record unreadable. -/
theorem Decode_deep (h : Int) (t : Time) (ht : t.inRange) (k : List Char)
    (hk : k.all isPlain = true) (n : Nat) (hn : maxNestingDepth ≤ n + 1) (tail : List Char)
    (into : LockContent) :
    json.Decode (renderObject (withExtras ⟨h, t⟩ [] []
      [(k, List.replicate (n + 1) '[' ++ tail)])) into = .error JsonError.scan := by
  obtain ⟨wf, hy, hz⟩ := ht
  have hplain := appendFormatRFC3339_plain t wf hy hz
  have hp : ∀ fuel, parseValue (fuel + 4) 0 (renderObject (withExtras ⟨h, t⟩ [] []
      [(k, List.replicate (n + 1) '[' ++ tail)])) = none := by
    intro fuel
    simp only [renderObject, withExtras, renderMembers, idMember, timeMember, List.nil_append,
      List.cons_append, List.append_assoc]
    apply parseValue_object_fails (fuel + 3) 0
    apply parseMembers_more_fails (fuel + 2) 1 _ "transaction_id".toList _ _
      (JValue.number (formatInt h))
    · exact scanString_plain _ _ (by decide)
    · obtain ⟨d, r, hd⟩ : ∃ d r, formatInt h = d :: r ∧ (d = '-' ∨ isDigit d = true) := by
        obtain ⟨d, r, e, hdig, _⟩ := formatUint_cons h.natAbs
        unfold formatInt
        split
        · exact ⟨'-', _, rfl, Or.inl rfl⟩
        · exact ⟨d, r, e, Or.inr hdig⟩
      have hs := scanNumber_formatInt h
        ('"' :: ("created_at".toList ++ '"' :: ':' :: '"' ::
          (appendFormatRFC3339 t ++ '"' :: ',' :: '"' ::
            (k ++ '"' :: ':' :: (List.replicate (n + 1) '[' ++ (tail ++ ['\x7d']))))))
      rw [hd.1] at hs ⊢
      exact parseValue_number (fuel + 1) 1 d _ _ _ hd.2 hs
    · apply parseMembers_more_fails (fuel + 1) 1 _ "created_at".toList _ _
        (JValue.string (appendFormatRFC3339 t))
      · exact scanString_plain _ _ (by decide)
      · exact parseValue_string fuel 1 _ _ _ (scanString_plain _ _ hplain)
      · exact parseMembers_value_fails fuel 1 _ k _ (scanString_plain _ _ hk)
          (parseValue_deep n fuel 1 _ (by omega))
  have hlen : ∃ f, 2 * (renderObject (withExtras ⟨h, t⟩ [] []
      [(k, List.replicate (n + 1) '[' ++ tail)])).length + 1 = f + 4 := by
    refine ⟨2 * (renderObject (withExtras ⟨h, t⟩ [] []
      [(k, List.replicate (n + 1) '[' ++ tail)])).length - 3, ?_⟩
    have : 3 ≤ (renderObject (withExtras ⟨h, t⟩ [] []
        [(k, List.replicate (n + 1) '[' ++ tail)])).length := by
      simp [renderObject, withExtras, renderMembers]
    omega
  obtain ⟨f, hf⟩ := hlen
  simp only [json.Decode, hf, hp f]

/-- On the fault-free store `GetLock` reports the error of the decoder when the
body of the object does not decode. -/
theorem GetLock_mock_decodeError (bucket r : String) (st : Objects) (body : List Char)
    (e : JsonError) (hs : st r = some body) (hd : json.Decode body zeroLockContent = .error e) :
    (mockLock bucket).GetLock r st = ((none, some (LockError.decodeLock e)), st) := by
  rw [GetLock_mock, hs]
  simp only [hd]

/-- A text `parseRFC3339` reads is read the same by `parseStrictRFC3339`; the
second reading with `time.Parse` is made only of a text the first refuses. -/
theorem parseStrictRFC3339_of_parseRFC3339 (b : List Char) (t : Time)
    (h : parseRFC3339 b = some t) : parseStrictRFC3339 b = some t := by
  simp only [parseStrictRFC3339, h]

/-- Two spellings that only the second reading lets through: an hour of one
digit and a zone of 24 hours. A record with such a creation time decodes, and
`Unlock` finds its holder and deletes it. -/
theorem parseStrictRFC3339_lenient :
    parseRFC3339 "2024-01-01T1:00:00Z".toList = none ∧
    parseStrictRFC3339 "2024-01-01T1:00:00Z".toList = some ⟨2024, 1, 1, 1, 0, 0, 0, 0⟩ ∧
    parseRFC3339 "2024-01-01T01:00:00+24:00".toList = none ∧
    parseStrictRFC3339 "2024-01-01T01:00:00+24:00".toList =
      some ⟨2024, 1, 1, 1, 0, 0, 0, 86400⟩ ∧
    json.Decode "\x7b\"transaction_id\":7,\"created_at\":\"2024-01-01T1:00:00Z\"\x7d".toList
      zeroLockContent = .ok ⟨7, ⟨2024, 1, 1, 1, 0, 0, 0, 0⟩⟩ ∧
    ((mockLock "b").Unlock "env-stage" (fun k => if k = "env-stage" then some
      "\x7b\"transaction_id\":7,\"created_at\":\"2024-01-01T1:00:00Z\"\x7d".toList
      else none)).1 = (true, none) := by
  refine ⟨by decide, by decide, by decide, by decide, by decide, by decide⟩

/-! ## The claims -/

/-- C1. On the fault-free store, for every Go `int` holder `h` (zero and
negative ones included) and every resource `r` whose key is absent,
`Lock(h, r)` returns `(true, nil)`, and the `GetLock(r)` made right after it
returns a holder that is not nil and equals `h`. The clock reading taken by
`Lock` is any time that `Time.MarshalJSON` accepts. -/
theorem C1_lock_then_getLock (bucket r : String) (now : Time) (h : Int) (st : Objects)
    (hh : isGoInt h) (hnow : now.inRange) (habs : st r = none) :
    ((mockLock bucket).Lock now h r st).1 = (true, none) ∧
    ((mockLock bucket).GetLock r ((mockLock bucket).Lock now h r st).2).1 = (some h, none) := by
  obtain ⟨bytes, hm⟩ := Marshal_inRange ⟨h, now⟩ hnow
  rw [Lock_mock_absent bucket r now h st bytes hm habs]
  refine ⟨rfl, ?_⟩
  rw [GetLock_mock_record bucket r _ ⟨h, now⟩ bytes [] hh hnow.1 hm (by simp)]

theorem C1_witness :
    ((mockLock "test-bucket").Lock ⟨2024, 5, 17, 9, 30, 0, 250000000, 7200⟩ (-5)
        "test-resource" emptyObjects).1 = (true, none) ∧
    ((mockLock "test-bucket").GetLock "test-resource"
        ((mockLock "test-bucket").Lock ⟨2024, 5, 17, 9, 30, 0, 250000000, 7200⟩ (-5)
          "test-resource" emptyObjects).2).1 = (some (-5), none) :=
  C1_lock_then_getLock "test-bucket" "test-resource" ⟨2024, 5, 17, 9, 30, 0, 250000000, 7200⟩
    (-5) emptyObjects (by decide) (by decide) rfl

/-- C2. If key `r` holds the encoding of a Lock Record with holder `h1`, then on
the fault-free store `Lock(h2, r)` returns `(false, nil)` and leaves the store
as it was, and `GetLock(r)` still returns `h1`. No write is made: on any
client, when the inspection reports a holder, all that `Lock` does to the
store is the one `GetObject` of the inspection. -/
theorem C2_lock_held (bucket r : String) (now t : Time) (h1 h2 : Int) (st : Objects)
    (bytes : List Char) (hh : isGoInt h1) (wf : t.wellFormed)
    (hm : json.Marshal ⟨h1, t⟩ = .ok bytes) (hs : st r = some bytes) :
    (mockLock bucket).Lock now h2 r st = ((false, none), st) ∧
    ((mockLock bucket).GetLock r st).1 = (some h1, none) ∧
    ∀ (σ : Type) (s : S3Lock σ) (x : σ) (h : Int), (s.GetLock r x).1 = (some h, none) →
      s.Lock now h2 r x = ((false, none), (s.client.GetObject s.bucketName r x).2) := by
  have hg := GetLock_mock_record bucket r st ⟨h1, t⟩ bytes [] hh wf hm (by simpa using hs)
  refine ⟨Lock_of_holder _ now h2 r st st h1 hg, by rw [hg], ?_⟩
  intro σ s x h hx
  rw [← GetLock_state]
  exact Lock_of_holder s now h2 r x _ h (Prod.ext hx rfl)

theorem C2_witness :
    (mockLock "b").Lock ⟨2025, 1, 1, 0, 0, 0, 0, 0⟩ 456 "test-resource"
        (fun k => if k = "test-resource" then
          some "\x7b\"transaction_id\":123,\"created_at\":\"2024-05-17T09:30:00Z\"\x7d".toList
          else none) =
      ((false, none), fun k => if k = "test-resource" then
          some "\x7b\"transaction_id\":123,\"created_at\":\"2024-05-17T09:30:00Z\"\x7d".toList
          else none) :=
  (C2_lock_held "b" "test-resource" ⟨2025, 1, 1, 0, 0, 0, 0, 0⟩ ⟨2024, 5, 17, 9, 30, 0, 0, 0⟩
    123 456 _ _ (by decide) (by decide) rfl (by decide)).1

/-- C3. If key `r` holds the encoding of a Lock Record of any holder `h`, then
on the fault-free store `Unlock(r)` returns `(true, nil)` and removes the
object, and the `GetLock(r)` made right after it returns no holder and no
error. `Unlock` has no argument that names the caller, so the holder is
compared with nothing. -/
theorem C3_unlock_held (bucket r : String) (t : Time) (h : Int) (st : Objects)
    (bytes : List Char) (hh : isGoInt h) (wf : t.wellFormed)
    (hm : json.Marshal ⟨h, t⟩ = .ok bytes) (hs : st r = some bytes) :
    (mockLock bucket).Unlock r st = ((true, none), fun k => if k = r then none else st k) ∧
    ((mockLock bucket).GetLock r ((mockLock bucket).Unlock r st).2).1 = (none, none) := by
  have hg := GetLock_mock_record bucket r st ⟨h, t⟩ bytes [] hh wf hm (by simpa using hs)
  have hu := Unlock_mock_held bucket r st h hg
  refine ⟨hu, ?_⟩
  rw [hu, GetLock_mock]
  simp

theorem C3_witness :
    ((mockLock "b").Unlock "test-resource"
        (fun k => if k = "test-resource" then
          some "\x7b\"transaction_id\":123,\"created_at\":\"2024-05-17T09:30:00Z\"\x7d".toList
          else none)).1 = (true, none) ∧
    ((mockLock "b").GetLock "test-resource" ((mockLock "b").Unlock "test-resource"
        (fun k => if k = "test-resource" then
          some "\x7b\"transaction_id\":123,\"created_at\":\"2024-05-17T09:30:00Z\"\x7d".toList
          else none)).2).1 = (none, none) :=
  have w := C3_unlock_held "b" "test-resource" ⟨2024, 5, 17, 9, 30, 0, 0, 0⟩ 123
    (fun k => if k = "test-resource" then
      some "\x7b\"transaction_id\":123,\"created_at\":\"2024-05-17T09:30:00Z\"\x7d".toList
      else none) _ (by decide) (by decide) rfl (by decide)
  ⟨by rw [w.1], w.2⟩

/-- C4. On the fault-free store, `Unlock(r)` on a resource whose key is absent
returns `(false, nil)` and leaves the store as it was; hence a second
`Unlock(r)` right after one that returned `true` returns `(false, nil)`. No
delete is made: on any client, when the inspection reports no holder, all that
`Unlock` does to the store is the one `GetObject` of the inspection. -/
theorem C4_unlock_absent (bucket r : String) :
    (∀ st : Objects, st r = none → (mockLock bucket).Unlock r st = ((false, none), st)) ∧
    (∀ st : Objects, ((mockLock bucket).Unlock r st).1 = (true, none) →
      ((mockLock bucket).Unlock r ((mockLock bucket).Unlock r st).2).1 = (false, none)) ∧
    ∀ (σ : Type) (s : S3Lock σ) (x : σ), (s.GetLock r x).1 = (none, none) →
      s.Unlock r x = ((false, none), (s.client.GetObject s.bucketName r x).2) := by
  have habs : ∀ st : Objects, st r = none →
      (mockLock bucket).Unlock r st = ((false, none), st) := by
    intro st h
    exact Unlock_of_none _ r st st (by rw [GetLock_mock, h])
  refine ⟨habs, ?_, ?_⟩
  · intro st h
    have hst : ((mockLock bucket).Unlock r st).2 r = none := by
      rcases hg : (mockLock bucket).GetLock r st with ⟨⟨x, e⟩, st1⟩
      have hst1 : st1 = st := by
        have := GetLock_state (mockLock bucket) r st
        rw [hg] at this
        simp only [mockLock, mockS3Client] at this
        rw [this]; split <;> rfl
      cases e with
      | some err => rw [Unlock_of_error _ r st st1 x err hg] at h; cases h
      | none =>
        cases x with
        | none => rw [Unlock_of_none _ r st st1 hg] at h; cases h
        | some v =>
          subst hst1
          rw [Unlock_mock_held bucket r st1 v hg]
          simp
    rw [habs _ hst]
  · intro σ s x hx
    rw [← GetLock_state]
    exact Unlock_of_none s r x _ (Prod.ext hx rfl)

theorem C4_witness :
    ((mockLock "test-bucket").Unlock "test-resource"
      ((mockLock "test-bucket").Unlock "test-resource"
        (fun k => if k = "test-resource" then
          some "\x7b\"transaction_id\":123,\"created_at\":\"2024-05-17T09:30:00Z\"\x7d".toList
          else none)).2).1 = (false, none) :=
  (C4_unlock_absent "test-bucket" "test-resource").2.1 _ (by decide)

/-- C5. When the read of key `r` answers `NoSuchKey`, `GetLock(r)` returns no
holder and no error, on any client; on the fault-free store that is the case
of every resource whose key is absent, and the store is left as it was. -/
theorem C5_getLock_absent (r : String) :
    (∀ (σ : Type) (s : S3Lock σ) (st st1 : σ) (e : S3Error),
      s.client.GetObject s.bucketName r st = (.error e, st1) → e.noSuchKey = true →
      s.GetLock r st = ((none, none), st1)) ∧
    ∀ (bucket : String) (st : Objects), st r = none →
      (mockLock bucket).GetLock r st = ((none, none), st) := by
  constructor
  · intro σ s st st1 e hg he
    simp only [S3Lock.GetLock, hg, he, if_true]
  · intro bucket st h
    rw [GetLock_mock, h]

theorem C5_witness :
    (mockLock "test-bucket").GetLock "test-resource" emptyObjects =
      ((none, none), emptyObjects) :=
  (C5_getLock_absent "test-resource").2 "test-bucket" emptyObjects rfl

/-- C6. Sequential state machine. Calls made one after another on the
fault-free store, starting from the empty store, answer exactly as the state
machine of the spec does: `Lock(h, r)` returns true exactly when `r` is
Unlocked and then makes it Locked(h), `Unlock(r)` returns true exactly when
`r` is Locked and then makes it Unlocked, `GetLock(r)` returns the holder or
none, and no call fails; after the calls the store stands for the machine's
state, so every resource is Unlocked or Locked(h) at every point. In
particular the scenario on `env-prod` answers true, false, 123, true, false,
none. -/
theorem C6_state_machine (bucket : String) (cs : List Call) (hv : ∀ c ∈ cs, c.valid) :
    ((mockLock bucket).run cs emptyObjects).1 = (specRun cs (fun _ => none)).1 ∧
    holders ((mockLock bucket).run cs emptyObjects).2 = (specRun cs (fun _ => none)).2 ∧
    ∀ t1 t2 : Time, t1.inRange → t2.inRange →
      ((mockLock bucket).run [Call.lock t1 123 "env-prod", Call.lock t2 456 "env-prod",
        Call.getLock "env-prod", Call.unlock "env-prod", Call.unlock "env-prod",
        Call.getLock "env-prod"] emptyObjects).1 =
      [Answer.flag true none, Answer.flag false none, Answer.holder (some 123) none,
        Answer.flag true none, Answer.flag false none, Answer.holder none none] := by
  obtain ⟨h1, _, h3⟩ := run_refines bucket cs emptyObjects hv soundStore_empty
  refine ⟨h1, h3, ?_⟩
  intro t1 t2 ht1 ht2
  have hval : ∀ c ∈ [Call.lock t1 123 "env-prod", Call.lock t2 456 "env-prod",
      Call.getLock "env-prod", Call.unlock "env-prod", Call.unlock "env-prod",
      Call.getLock "env-prod"], c.valid := by
    intro c hc
    simp only [List.mem_cons, List.mem_singleton, List.not_mem_nil, or_false] at hc
    rcases hc with e | e | e | e | e | e <;> subst e
    · exact ⟨by decide, ht1⟩
    · exact ⟨by decide, ht2⟩
    all_goals trivial
  rw [(run_refines bucket _ emptyObjects hval soundStore_empty).1]
  rfl

theorem C6_witness :
    ((mockLock "test-bucket").run
      [Call.lock ⟨2024, 5, 17, 9, 30, 0, 0, 0⟩ 1 "a", Call.lock ⟨2024, 5, 17, 9, 30, 1, 0, 0⟩ 2 "b",
        Call.unlock "a", Call.lock ⟨2024, 5, 17, 9, 30, 2, 0, 0⟩ 3 "b", Call.getLock "a",
        Call.getLock "b"] emptyObjects).1 =
      [Answer.flag true none, Answer.flag true none, Answer.flag true none,
        Answer.flag false none, Answer.holder none none, Answer.holder (some 2) none] :=
  (C6_state_machine "test-bucket" _ (by decide)).1.trans (by decide)

/-- C7, as the claim states it, fails: the payload below is a record followed
by trailing bytes, so as a whole it is the encoding of no Lock Record, and yet
`GetLock` returns the holder 7 and no error. -/
theorem C7_counterexample :
    (∀ c : LockContent, json.Marshal c ≠ .ok
      "\x7b\"transaction_id\":7,\"created_at\":\"2024-01-01T00:00:00Z\"\x7dtrailing garbage".toList) ∧
    ((mockLock "test-bucket").GetLock "env-stage"
      (fun k => if k = "env-stage" then some
        "\x7b\"transaction_id\":7,\"created_at\":\"2024-01-01T00:00:00Z\"\x7dtrailing garbage".toList
        else none)).1 = (some 7, none) := by
  constructor
  · intro c h
    have := Marshal_last c _ h
    revert this
    decide
  · decide

/-- C7, amended. The decoder of `GetLock` reads the first JSON value of the body
and nothing after it. For a body that was read, `GetLock` returns either a
decode error or a holder, never no holder without an error, and it returns
the decode error for every body that is blank, for every truncated encoding
of a record, for every body whose first character other than white space
cannot begin a JSON value, and for every object in which a member selecting
`transaction_id` has a value of the wrong type. Bytes after a complete record
are not looked at: the holder of the record is returned. -/
theorem C7_getLock_malformed :
    (∀ (σ : Type) (s : S3Lock σ) (r : String) (st st1 : σ) (body : List Char),
      s.client.GetObject s.bucketName r st = (.ok body, st1) →
      (∃ e, json.Decode body zeroLockContent = .error e ∧
        s.GetLock r st = ((none, some (LockError.decodeLock e)), st1)) ∨
      (∃ c, json.Decode body zeroLockContent = .ok c ∧
        s.GetLock r st = ((some c.TransactionId, none), st1))) ∧
    (∀ body : List Char, body.all isSpace = true →
      json.Decode body zeroLockContent = .error JsonError.scan) ∧
    (∀ (c : LockContent) (bytes : List Char) (n : Nat), c.CreatedAt.wellFormed →
      json.Marshal c = .ok bytes → n < bytes.length →
      json.Decode (bytes.take n) zeroLockContent = .error JsonError.scan) ∧
    (∀ (body rest : List Char) (ch : Char), skipSpace body = ch :: rest →
      canBeginValue ch = false → json.Decode body zeroLockContent = .error JsonError.scan) ∧
    (∀ (body rest : List Char) (ms : List (List Char × JValue)) (key : List Char) (v : JValue),
      parseValue (2 * body.length + 1) 0 body = some (JValue.object ms, rest) →
      (key, v) ∈ ms → lookupField (unquote key) = some Field.transactionId →
      holderMismatch v → ∃ e, json.Decode body zeroLockContent = .error e) ∧
    (∀ (c : LockContent) (bytes trailing : List Char), isGoInt c.TransactionId →
      c.CreatedAt.wellFormed → json.Marshal c = .ok bytes →
      ∃ t, json.Decode (bytes ++ trailing) zeroLockContent = .ok ⟨c.TransactionId, t⟩) :=
  ⟨fun _ s r st st1 body hg => GetLock_body s r st st1 body hg,
    Decode_blank,
    fun c bytes n wf hm hn => Decode_truncated c bytes n wf hm hn,
    fun body rest ch hs hc => Decode_not_json body rest ch hs hc,
    fun body rest ms key v hp hmem hl hv => Decode_mismatch body rest ms key v hp hmem hl hv,
    fun c bytes trailing hid wf hm =>
      ⟨_, Decode_Marshal c zeroLockContent bytes trailing hid wf hm⟩⟩

/-- The scenario of the spec: a malformed payload under `env-stage` makes
`GetLock` fail with a decode error and not return none. -/
theorem C7_witness :
    (mockLock "test-bucket").GetLock "env-stage"
        (fun k => if k = "env-stage" then some "corrupted".toList else none) =
      ((none, some (LockError.decodeLock JsonError.scan)),
        fun k => if k = "env-stage" then some "corrupted".toList else none) := by
  have hd := C7_getLock_malformed.2.2.2.1 "corrupted".toList "orrupted".toList 'c' rfl (by decide)
  rcases C7_getLock_malformed.1 Objects (mockLock "test-bucket") "env-stage"
      (fun k => if k = "env-stage" then some "corrupted".toList else none) _
      "corrupted".toList rfl with ⟨e, he, hg⟩ | ⟨c, hc, _⟩
  · rw [hd] at he
    injection he with he
    subst he
    exact hg
  · rw [hd] at hc
    cases hc

/-- C8. Whenever the inspection fails, because the read fails with an error
other than `NoSuchKey` or because the body does not decode, `Lock` and
`Unlock` both return `false` with that failure and do nothing more to the
store than the one `GetObject` of the inspection: no `PutObject` and no
`DeleteObject` is made, so a corrupt record is never taken for an unlocked
resource. On the fault-free store, which only the corrupt record can make
fail, the store is left as it was. -/
theorem C8_inspection_failure (now : Time) (h : Int) (r : String) :
    (∀ (σ : Type) (s : S3Lock σ) (st st1 : σ) (e : S3Error),
      s.client.GetObject s.bucketName r st = (.error e, st1) → e.noSuchKey = false →
      s.Lock now h r st = ((false, some (LockError.getLock e)), st1) ∧
      s.Unlock r st = ((false, some (LockError.getLock e)), st1)) ∧
    (∀ (σ : Type) (s : S3Lock σ) (st st1 : σ) (body : List Char) (e : JsonError),
      s.client.GetObject s.bucketName r st = (.ok body, st1) →
      json.Decode body zeroLockContent = .error e →
      s.Lock now h r st = ((false, some (LockError.decodeLock e)), st1) ∧
      s.Unlock r st = ((false, some (LockError.decodeLock e)), st1)) ∧
    (∀ (bucket : String) (st : Objects) (body : List Char) (e : JsonError),
      st r = some body → json.Decode body zeroLockContent = .error e →
      (mockLock bucket).Lock now h r st = ((false, some (LockError.decodeLock e)), st) ∧
      (mockLock bucket).Unlock r st = ((false, some (LockError.decodeLock e)), st)) := by
  refine ⟨?_, ?_, ?_⟩
  · intro σ s st st1 e hg he
    have hgl : s.GetLock r st = ((none, some (LockError.getLock e)), st1) := by
      simp only [S3Lock.GetLock, hg, he]
      simp
    exact ⟨Lock_of_error s now h r st st1 none _ hgl, Unlock_of_error s r st st1 none _ hgl⟩
  · intro σ s st st1 body e hg hd
    have hgl : s.GetLock r st = ((none, some (LockError.decodeLock e)), st1) := by
      simp only [S3Lock.GetLock, hg, hd]
    exact ⟨Lock_of_error s now h r st st1 none _ hgl, Unlock_of_error s r st st1 none _ hgl⟩
  · intro bucket st body e hs hd
    have hgl : (mockLock bucket).GetLock r st = ((none, some (LockError.decodeLock e)), st) := by
      rw [GetLock_mock, hs]
      simp only [hd]
    exact ⟨Lock_of_error _ now h r st st none _ hgl, Unlock_of_error _ r st st none _ hgl⟩

theorem C8_witness :
    (mockLock "b").Lock ⟨2024, 5, 17, 9, 30, 0, 0, 0⟩ 9 "env-stage"
        (fun k => if k = "env-stage" then some "\x7b\"transaction_id\":\"7\"\x7d".toList else none) =
      ((false, some (LockError.decodeLock (JsonError.unmarshalType "string"))),
        fun k => if k = "env-stage" then some "\x7b\"transaction_id\":\"7\"\x7d".toList else none) ∧
    (mockLock "b").Unlock "env-stage"
        (fun k => if k = "env-stage" then some "\x7b\"transaction_id\":\"7\"\x7d".toList else none) =
      ((false, some (LockError.decodeLock (JsonError.unmarshalType "string"))),
        fun k => if k = "env-stage" then some "\x7b\"transaction_id\":\"7\"\x7d".toList else none) :=
  (C8_inspection_failure ⟨2024, 5, 17, 9, 30, 0, 0, 0⟩ 9 "env-stage").2.2 "b" _
    "\x7b\"transaction_id\":\"7\"\x7d".toList (JsonError.unmarshalType "string")
    (by decide) (by decide)

/-- C9. Round trip of the Lock Record codec: for every valid record,
`json.Marshal` succeeds, and decoding the bytes it produced with the decoder
of `GetLock` yields the record. -/
theorem C9_round_trip (c : LockContent) (hv : c.valid) :
    ∃ bytes, json.Marshal c = .ok bytes ∧ json.Decode bytes zeroLockContent = .ok c := by
  obtain ⟨hid, hr, hoff⟩ := hv
  obtain ⟨bytes, hm⟩ := Marshal_inRange c hr
  refine ⟨bytes, hm, ?_⟩
  have := Decode_Marshal c zeroLockContent bytes [] hid hr.1 hm
  rw [List.append_nil, rounded_eq _ hoff] at this
  exact this

theorem C9_witness :
    ∃ bytes, json.Marshal ⟨-9223372036854775808, ⟨1999, 12, 31, 23, 59, 59, 999999999, 3600⟩⟩
        = .ok bytes ∧
      json.Decode bytes zeroLockContent =
        .ok ⟨-9223372036854775808, ⟨1999, 12, 31, 23, 59, 59, 999999999, 3600⟩⟩ :=
  C9_round_trip ⟨-9223372036854775808, ⟨1999, 12, 31, 23, 59, 59, 999999999, 3600⟩⟩ (by decide)

/-- C10. If key `r` holds the encoding of the record with holder `h` and
creation time `t`, then on the fault-free store `GetLock(r)` returns no error
and a holder that is not nil and equals `h`; in particular the holder 0 is
reported as a holder. -/
theorem C10_getLock_holder (bucket r : String) (t : Time) (h : Int) (st : Objects)
    (bytes : List Char) (hh : isGoInt h) (wf : t.wellFormed)
    (hm : json.Marshal ⟨h, t⟩ = .ok bytes) (hs : st r = some bytes) :
    (mockLock bucket).GetLock r st = ((some h, none), st) :=
  GetLock_mock_record bucket r st ⟨h, t⟩ bytes [] hh wf hm (by simpa using hs)

theorem C10_witness :
    (mockLock "b").GetLock "test-resource"
        (fun k => if k = "test-resource" then
          some "\x7b\"transaction_id\":0,\"created_at\":\"2024-02-29T23:59:59.000000001-05:30\"\x7d".toList
          else none) =
      ((some 0, none), fun k => if k = "test-resource" then
          some "\x7b\"transaction_id\":0,\"created_at\":\"2024-02-29T23:59:59.000000001-05:30\"\x7d".toList
          else none) :=
  C10_getLock_holder "b" "test-resource" ⟨2024, 2, 29, 23, 59, 59, 1, -19800⟩ 0 _
    "\x7b\"transaction_id\":0,\"created_at\":\"2024-02-29T23:59:59.000000001-05:30\"\x7d".toList
    (by decide) (by decide) (by decide) (by decide)

/-- C11. On any client, `NewS3Lock(client, bucket)` fails exactly when
`HeadBucket` on that bucket fails, and then it returns no manager and an error
made from the failure; when the check succeeds it returns, without an error,
a manager bound to the given client and bucket. In both cases the state of
the store is the one that single `HeadBucket` leaves, and that call is the
only one recorded. -/
theorem C11_newS3Lock {σ : Type} (client : S3Client σ) (bucket : String) (st : σ) :
    (∀ err, (client.HeadBucket bucket st).1 = some err →
      (NewS3Lock client bucket st).1 = (none, some (LockError.accessBucket bucket err))) ∧
    ((client.HeadBucket bucket st).1 = none →
      (NewS3Lock client bucket st).1 = (some ⟨client, bucket⟩, none)) ∧
    ((NewS3Lock client bucket st).1.2 ≠ none ↔ (client.HeadBucket bucket st).1 ≠ none) ∧
    ((NewS3Lock client bucket st).1.1.isNone = true ↔ (client.HeadBucket bucket st).1 ≠ none) ∧
    (NewS3Lock client bucket st).2 = (client.HeadBucket bucket st).2 ∧
    ∀ log, (NewS3Lock (recording client) bucket (st, log)).2.2 =
      log ++ [Request.headBucket bucket] := by
  unfold NewS3Lock
  refine ⟨?_, ?_, ?_, ?_, ?_, ?_⟩
  · intro err h
    rcases hb : client.HeadBucket bucket st with ⟨x, st1⟩
    rw [hb] at h; simp only at h; subst h; rfl
  · intro h
    rcases hb : client.HeadBucket bucket st with ⟨x, st1⟩
    rw [hb] at h; simp only at h; subst h; rfl
  · rcases hb : client.HeadBucket bucket st with ⟨x, st1⟩
    cases x <;> simp
  · rcases hb : client.HeadBucket bucket st with ⟨x, st1⟩
    cases x <;> simp
  · rcases hb : client.HeadBucket bucket st with ⟨x, st1⟩
    cases x <;> rfl
  · intro log
    simp only [recording]
    rcases hb : client.HeadBucket bucket st with ⟨x, st1⟩
    cases x <;> rfl

theorem C11_witness :
    (NewS3Lock (failingClient "Forbidden") "test-bucket" ()).1.1.isNone = true ∧
    (NewS3Lock (failingClient "Forbidden") "test-bucket" ()).1.2 =
      some (LockError.accessBucket "test-bucket" ⟨false, "Forbidden"⟩) ∧
    (NewS3Lock mockS3Client "test-bucket" emptyObjects).1.2 = none :=
  ⟨((C11_newS3Lock (failingClient "Forbidden") "test-bucket" ()).2.2.2.1).2 (by decide),
    by rw [(C11_newS3Lock (failingClient "Forbidden") "test-bucket" ()).1 _ rfl],
    by rw [(C11_newS3Lock mockS3Client "test-bucket" emptyObjects).2.1 rfl]⟩

/-- C12. On any client, `Lock(h, r)` returns `true` exactly when the inspection
reports no holder and the one write it then makes, the `PutObject` of the
encoded record, succeeds; when that write fails `Lock` returns `false` with
an error made from the failure. `Unlock(r)` returns `true` exactly when the
inspection reports a holder and the `DeleteObject` succeeds; when the delete
fails it returns `false` with an error made from the failure. Neither
returns `true` together with an error. -/
theorem C12_true_iff {σ : Type} (s : S3Lock σ) (now : Time) (h : Int) (r : String) (st : σ) :
    ((s.Lock now h r st).1.1 = true ↔
      (s.GetLock r st).1 = (none, none) ∧ ∃ bytes, json.Marshal ⟨h, now⟩ = .ok bytes ∧
        (s.client.PutObject s.bucketName r bytes (s.GetLock r st).2).1 = none) ∧
    (∀ bytes err, (s.GetLock r st).1 = (none, none) → json.Marshal ⟨h, now⟩ = .ok bytes →
      (s.client.PutObject s.bucketName r bytes (s.GetLock r st).2).1 = some err →
      (s.Lock now h r st).1 = (false, some (LockError.createLock err))) ∧
    ((s.Unlock r st).1.1 = true ↔
      (∃ h1, (s.GetLock r st).1 = (some h1, none)) ∧
        (s.client.DeleteObject s.bucketName r (s.GetLock r st).2).1 = none) ∧
    (∀ h1 err, (s.GetLock r st).1 = (some h1, none) →
      (s.client.DeleteObject s.bucketName r (s.GetLock r st).2).1 = some err →
      (s.Unlock r st).1 = (false, some (LockError.deleteLock err))) ∧
    ((s.Lock now h r st).1.1 = true → (s.Lock now h r st).1.2 = none) ∧
    ((s.Unlock r st).1.1 = true → (s.Unlock r st).1.2 = none) := by
  have hL := Lock_cases s now h r st
  have hU := Unlock_cases s r st
  have putEq : ∀ bytes, s.Lock now h r st =
      (match s.client.PutObject s.bucketName r bytes (s.GetLock r st).2 with
        | (some err, st2) => ((false, some (LockError.createLock err)), st2)
        | (none, st2) => ((true, none), st2)) →
      ((s.Lock now h r st).1.1 = true ↔
        (s.client.PutObject s.bucketName r bytes (s.GetLock r st).2).1 = none) ∧
      ((s.Lock now h r st).1.1 = true → (s.Lock now h r st).1.2 = none) ∧
      ∀ err, (s.client.PutObject s.bucketName r bytes (s.GetLock r st).2).1 = some err →
        (s.Lock now h r st).1 = (false, some (LockError.createLock err)) := by
    intro bytes hl
    rw [hl]
    rcases s.client.PutObject s.bucketName r bytes (s.GetLock r st).2 with ⟨_ | e, st2⟩
    · simp
    · simp
  have delEq : s.Unlock r st =
      (match s.client.DeleteObject s.bucketName r (s.GetLock r st).2 with
        | (some err, st2) => ((false, some (LockError.deleteLock err)), st2)
        | (none, st2) => ((true, none), st2)) →
      ((s.Unlock r st).1.1 = true ↔
        (s.client.DeleteObject s.bucketName r (s.GetLock r st).2).1 = none) ∧
      ((s.Unlock r st).1.1 = true → (s.Unlock r st).1.2 = none) ∧
      ∀ err, (s.client.DeleteObject s.bucketName r (s.GetLock r st).2).1 = some err →
        (s.Unlock r st).1 = (false, some (LockError.deleteLock err)) := by
    intro hl
    rw [hl]
    rcases s.client.DeleteObject s.bucketName r (s.GetLock r st).2 with ⟨_ | e, st2⟩
    · simp
    · simp
  refine ⟨?_, ?_, ?_, ?_, ?_, ?_⟩
  · rcases hL with ⟨x, err, hg, hl⟩ | ⟨h1, hg, hl⟩ | ⟨hg, err, hm, hl⟩ | ⟨hg, bytes, hm, hl⟩
    · rw [hl, hg]; simp
    · rw [hl, hg]; simp
    · rw [hl, hm]; simp
    · obtain ⟨p1, _, _⟩ := putEq bytes hl
      rw [p1]
      constructor
      · intro hp; exact ⟨hg, bytes, hm, hp⟩
      · rintro ⟨_, b2, hm2, hp⟩
        rw [hm] at hm2; injection hm2 with hm2; subst hm2; exact hp
  · intro bytes err hg hm hp
    rcases hL with ⟨x, e2, hg2, _⟩ | ⟨h1, hg2, _⟩ | ⟨_, e2, hm2, _⟩ | ⟨_, b2, hm2, hl⟩
    · rw [hg] at hg2; cases hg2
    · rw [hg] at hg2; cases hg2
    · rw [hm] at hm2; cases hm2
    · rw [hm] at hm2; injection hm2 with hm2; subst hm2
      exact (putEq bytes hl).2.2 err hp
  · rcases hU with ⟨x, err, hg, hl⟩ | ⟨hg, hl⟩ | ⟨h1, hg, hl⟩
    · rw [hl, hg]; simp
    · rw [hl, hg]; simp
    · rw [(delEq hl).1]
      exact ⟨fun hp => ⟨⟨h1, hg⟩, hp⟩, fun hp => hp.2⟩
  · intro h1 err hg hp
    rcases hU with ⟨x, e2, hg2, _⟩ | ⟨hg2, _⟩ | ⟨h2, _, hl⟩
    · rw [hg] at hg2; cases hg2
    · rw [hg] at hg2; cases hg2
    · exact (delEq hl).2.2 err hp
  · rcases hL with ⟨x, err, hg, hl⟩ | ⟨h1, hg, hl⟩ | ⟨hg, err, hm, hl⟩ | ⟨hg, bytes, hm, hl⟩
    · rw [hl]; simp
    · rw [hl]; simp
    · rw [hl]; simp
    · exact (putEq bytes hl).2.1
  · rcases hU with ⟨x, err, hg, hl⟩ | ⟨hg, hl⟩ | ⟨h1, hg, hl⟩
    · rw [hl]; simp
    · rw [hl]; simp
    · exact (delEq hl).2.1

theorem C12_witness :
    ((mockLock "b").Lock ⟨2024, 5, 17, 9, 30, 0, 0, 0⟩ 5 "r" emptyObjects).1.1 = true ∧
    ((S3Lock.mk (failingClient "SlowDown") "b").Lock ⟨2024, 5, 17, 9, 30, 0, 0, 0⟩ 5 "r" ()).1.1
      ≠ true :=
  ⟨(C12_true_iff (mockLock "b") ⟨2024, 5, 17, 9, 30, 0, 0, 0⟩ 5 "r" emptyObjects).1.2
      ⟨by decide, _, rfl, rfl⟩,
    fun h => absurd
      ((C12_true_iff (S3Lock.mk (failingClient "SlowDown") "b") ⟨2024, 5, 17, 9, 30, 0, 0, 0⟩ 5
        "r" ()).1.1 h).1 (by decide)⟩

/-- C13. The documented race. `Lock` is its two store steps run one after the
other, the inspection and the write. When two calls `Lock(h1, r)` and
`Lock(h2, r)` on a resource whose key is absent are interleaved so that both
inspections come before either write, both find no holder, both writes
succeed and both calls return `(true, nil)`; the record left at `r` is that of
the call that wrote last, and `GetLock(r)` reports `h2`. -/
theorem C13_race (bucket r : String) (now1 now2 : Time) (h1 h2 : Int) (st : Objects)
    (hh2 : isGoInt h2) (hn1 : now1.inRange) (hn2 : now2.inRange) (habs : st r = none) :
    (∀ (σ : Type) (s : S3Lock σ) (now : Time) (h : Int) (x : σ),
      s.Lock now h r x = s.lockSteps now h r x) ∧
    ∃ b1 b2, json.Marshal ⟨h1, now1⟩ = .ok b1 ∧ json.Marshal ⟨h2, now2⟩ = .ok b2 ∧
      (mockLock bucket).lockInspect now1 h1 r st = (LockPhase.writing b1, st) ∧
      (mockLock bucket).lockInspect now2 h2 r st = (LockPhase.writing b2, st) ∧
      ((mockLock bucket).lockWrite r b1 st).1 = (true, none) ∧
      ((mockLock bucket).lockWrite r b2 ((mockLock bucket).lockWrite r b1 st).2).1 =
        (true, none) ∧
      ((mockLock bucket).lockWrite r b2 ((mockLock bucket).lockWrite r b1 st).2).2 r =
        some b2 ∧
      ((mockLock bucket).GetLock r
        ((mockLock bucket).lockWrite r b2 ((mockLock bucket).lockWrite r b1 st).2).2).1 =
        (some h2, none) := by
  obtain ⟨b1, hm1⟩ := Marshal_inRange ⟨h1, now1⟩ hn1
  obtain ⟨b2, hm2⟩ := Marshal_inRange ⟨h2, now2⟩ hn2
  refine ⟨fun σ s now h x => (lockSteps_eq s now h r x).symm, b1, b2, hm1, hm2,
    lockInspect_mock_absent bucket r now1 h1 st b1 hm1 habs,
    lockInspect_mock_absent bucket r now2 h2 st b2 hm2 habs, ?_, ?_, ?_, ?_⟩
  · rw [lockWrite_mock]
  · rw [lockWrite_mock, lockWrite_mock]
  · rw [lockWrite_mock, lockWrite_mock]; simp
  · rw [lockWrite_mock, lockWrite_mock]
    rw [GetLock_mock_record bucket r _ ⟨h2, now2⟩ b2 [] hh2 hn2.1 hm2 (by simp)]

theorem C13_witness :
    ((mockLock "b").GetLock "env-prod"
      ((mockLock "b").lockWrite "env-prod"
        "\x7b\"transaction_id\":456,\"created_at\":\"2024-05-17T09:30:00.000000002Z\"\x7d".toList
        ((mockLock "b").lockWrite "env-prod"
          "\x7b\"transaction_id\":123,\"created_at\":\"2024-05-17T09:30:00.000000001Z\"\x7d".toList
          emptyObjects).2).2).1 = (some 456, none) := by
  obtain ⟨_, b1, b2, hm1, hm2, _, _, _, _, _, hg⟩ :=
    C13_race "b" "env-prod" ⟨2024, 5, 17, 9, 30, 0, 1, 0⟩ ⟨2024, 5, 17, 9, 30, 0, 2, 0⟩ 123 456
      emptyObjects (by decide) (by decide) (by decide) rfl
  have e1 : b1 =
      "\x7b\"transaction_id\":123,\"created_at\":\"2024-05-17T09:30:00.000000001Z\"\x7d".toList := by
    have : json.Marshal ⟨123, ⟨2024, 5, 17, 9, 30, 0, 1, 0⟩⟩ = .ok
      "\x7b\"transaction_id\":123,\"created_at\":\"2024-05-17T09:30:00.000000001Z\"\x7d".toList := by
      decide
    rw [this] at hm1; injection hm1 with hm1; exact hm1.symm
  have e2 : b2 =
      "\x7b\"transaction_id\":456,\"created_at\":\"2024-05-17T09:30:00.000000002Z\"\x7d".toList := by
    have : json.Marshal ⟨456, ⟨2024, 5, 17, 9, 30, 0, 2, 0⟩⟩ = .ok
      "\x7b\"transaction_id\":456,\"created_at\":\"2024-05-17T09:30:00.000000002Z\"\x7d".toList := by
      decide
    rw [this] at hm2; injection hm2 with hm2; exact hm2.symm
  rw [← e1, ← e2]
  exact hg

/-- C14, as the claim states it, fails: on a store whose reads fail with
`AccessDenied`, the error of `GetLock` has the text
`failed to get lock: AccessDenied`, in which the resource key does not occur,
and it is the same error for two different resources. -/
theorem C14_counterexample :
    ((S3Lock.mk (failingClient "AccessDenied") "locks").GetLock "env-prod" ()).1 =
      (none, some (LockError.getLock ⟨false, "AccessDenied"⟩)) ∧
    (LockError.getLock ⟨false, "AccessDenied"⟩).Error = "failed to get lock: AccessDenied" ∧
    ¬ ("env-prod".toList <:+: "failed to get lock: AccessDenied".toList) ∧
    ((S3Lock.mk (failingClient "AccessDenied") "locks").GetLock "env-stage" ()).1 =
      ((S3Lock.mk (failingClient "AccessDenied") "locks").GetLock "env-prod" ()).1 := by
  refine ⟨by decide, by decide, by decide, by decide⟩

/-- C14, amended. On any client, a store failure other than `NoSuchKey` is
never swallowed: the caller gets an error whose text names the operation that
failed and ends with the text of the store's error. A failed read gives
`failed to get lock: ` from `GetLock`, `Lock` and `Unlock` alike, a failed
write gives `failed to create lock: ` and a failed delete
`failed to delete lock: `. The text holds neither the resource key nor the
bucket. -/
theorem C14_error_text {σ : Type} (s : S3Lock σ) (now : Time) (h : Int) (r : String) (st : σ) :
    (∀ e st1, s.client.GetObject s.bucketName r st = (.error e, st1) → e.noSuchKey = false →
      ∃ err, (s.GetLock r st).1 = (none, some err) ∧ (s.Lock now h r st).1 = (false, some err) ∧
        (s.Unlock r st).1 = (false, some err) ∧ err.Error = "failed to get lock: " ++ e.text) ∧
    (∀ bytes e, (s.GetLock r st).1 = (none, none) → json.Marshal ⟨h, now⟩ = .ok bytes →
      (s.client.PutObject s.bucketName r bytes (s.GetLock r st).2).1 = some e →
      ∃ err, (s.Lock now h r st).1 = (false, some err) ∧
        err.Error = "failed to create lock: " ++ e.text) ∧
    (∀ h1 e, (s.GetLock r st).1 = (some h1, none) →
      (s.client.DeleteObject s.bucketName r (s.GetLock r st).2).1 = some e →
      ∃ err, (s.Unlock r st).1 = (false, some err) ∧
        err.Error = "failed to delete lock: " ++ e.text) := by
  refine ⟨?_, ?_, ?_⟩
  · intro e st1 hg he
    have hgl : s.GetLock r st = ((none, some (LockError.getLock e)), st1) := by
      simp only [S3Lock.GetLock, hg, he]
      simp
    refine ⟨LockError.getLock e, by rw [hgl], ?_, ?_, rfl⟩
    · rw [Lock_of_error s now h r st st1 none _ hgl]
    · rw [Unlock_of_error s r st st1 none _ hgl]
  · intro bytes e hg hm hp
    refine ⟨LockError.createLock e, ?_, rfl⟩
    rcases Lock_cases s now h r st with
      ⟨x, e2, hg2, _⟩ | ⟨h1, hg2, _⟩ | ⟨_, e2, hm2, _⟩ | ⟨_, b2, hm2, hl⟩
    · rw [hg] at hg2; cases hg2
    · rw [hg] at hg2; cases hg2
    · rw [hm] at hm2; cases hm2
    · rw [hm] at hm2; injection hm2 with hm2; subst hm2
      rw [hl]
      rcases hq : s.client.PutObject s.bucketName r bytes (s.GetLock r st).2 with ⟨x, st2⟩
      rw [hq] at hp; simp only at hp; subst hp; rfl
  · intro h1 e hg hp
    refine ⟨LockError.deleteLock e, ?_, rfl⟩
    rcases Unlock_cases s r st with ⟨x, e2, hg2, _⟩ | ⟨hg2, _⟩ | ⟨h2, _, hl⟩
    · rw [hg] at hg2; cases hg2
    · rw [hg] at hg2; cases hg2
    · rw [hl]
      rcases hq : s.client.DeleteObject s.bucketName r (s.GetLock r st).2 with ⟨x, st2⟩
      rw [hq] at hp; simp only at hp; subst hp; rfl

theorem C14_witness :
    ∃ err, ((S3Lock.mk (failingClient "SlowDown") "locks").GetLock "env-prod" ()).1 =
        (none, some err) ∧
      ((S3Lock.mk (failingClient "SlowDown") "locks").Lock ⟨2024, 5, 17, 9, 30, 0, 0, 0⟩ 1
        "env-prod" ()).1 = (false, some err) ∧
      ((S3Lock.mk (failingClient "SlowDown") "locks").Unlock "env-prod" ()).1 =
        (false, some err) ∧
      err.Error = "failed to get lock: " ++ "SlowDown" :=
  (C14_error_text (S3Lock.mk (failingClient "SlowDown") "locks") ⟨2024, 5, 17, 9, 30, 0, 0, 0⟩ 1
    "env-prod" ()).1 ⟨false, "SlowDown"⟩ () rfl rfl

/-- C15. Key layout and frame. On any client, every store call that
`GetLock(r)`, `Lock(h, r)` or `Unlock(r)` makes addresses the bound bucket and
the key `r` as it was given. Hence on every store whose calls change nothing
that can be seen under keys other than the one they address, and so on the
fault-free store, what is stored under a key `k` other than `r` is the same
before and after the call, whatever the call returns. -/
theorem C15_key_layout (bucket r : String) (now : Time) (h : Int) :
    (∀ (σ : Type) (c : S3Client σ) (st : σ) (log : List Request),
      (∃ calls, ((S3Lock.mk (recording c) bucket).GetLock r (st, log)).2.2 = log ++ calls ∧
        ∀ q ∈ calls, q.bucket = bucket ∧ q.key = some r) ∧
      (∃ calls, ((S3Lock.mk (recording c) bucket).Lock now h r (st, log)).2.2 = log ++ calls ∧
        ∀ q ∈ calls, q.bucket = bucket ∧ q.key = some r) ∧
      (∃ calls, ((S3Lock.mk (recording c) bucket).Unlock r (st, log)).2.2 = log ++ calls ∧
        ∀ q ∈ calls, q.bucket = bucket ∧ q.key = some r)) ∧
    (∀ (σ α : Type) (s : S3Lock σ) (obs : σ → String → α) (k : String) (st : σ),
      (∀ b key x, k ≠ key → obs (s.client.GetObject b key x).2 k = obs x k) →
      (∀ b key body x, k ≠ key → obs (s.client.PutObject b key body x).2 k = obs x k) →
      (∀ b key x, k ≠ key → obs (s.client.DeleteObject b key x).2 k = obs x k) →
      k ≠ r →
      obs (s.GetLock r st).2 k = obs st k ∧ obs (s.Lock now h r st).2 k = obs st k ∧
        obs (s.Unlock r st).2 k = obs st k) ∧
    (∀ (st : Objects) (k : String), k ≠ r →
      ((mockLock bucket).GetLock r st).2 k = st k ∧
      ((mockLock bucket).Lock now h r st).2 k = st k ∧
      ((mockLock bucket).Unlock r st).2 k = st k) := by
  refine ⟨?_, ?_, ?_⟩
  · intro σ c st log
    refine ⟨⟨[Request.getObject bucket r], ?_, ?_⟩, ?_, ?_⟩
    · rw [GetLock_recording]
    · intro q hq
      simp only [List.mem_singleton] at hq
      subst hq; exact ⟨rfl, rfl⟩
    · rcases Lock_recording c bucket r now h st log with hl | ⟨body, hl⟩
      · refine ⟨[Request.getObject bucket r], hl, ?_⟩
        intro q hq
        simp only [List.mem_singleton] at hq
        subst hq; exact ⟨rfl, rfl⟩
      · refine ⟨[Request.getObject bucket r, Request.putObject bucket r body], hl, ?_⟩
        intro q hq
        simp only [List.mem_cons, List.mem_singleton, List.not_mem_nil, or_false] at hq
        rcases hq with e | e <;> subst e <;> exact ⟨rfl, rfl⟩
    · rcases Unlock_recording c bucket r st log with hl | hl
      · refine ⟨[Request.getObject bucket r], hl, ?_⟩
        intro q hq
        simp only [List.mem_singleton] at hq
        subst hq; exact ⟨rfl, rfl⟩
      · refine ⟨[Request.getObject bucket r, Request.deleteObject bucket r], hl, ?_⟩
        intro q hq
        simp only [List.mem_cons, List.mem_singleton, List.not_mem_nil, or_false] at hq
        rcases hq with e | e <;> subst e <;> exact ⟨rfl, rfl⟩
  · intro σ α s obs k st hget hput hdel hk
    exact ⟨GetLock_frame s obs r k st hget hk, Lock_frame s obs r k now h st hget hput hk,
      Unlock_frame s obs r k st hget hdel hk⟩
  · intro st k hk
    have hget : ∀ b key (x : Objects), k ≠ key →
        (fun (m : Objects) => m) ((mockLock bucket).client.GetObject b key x).2 k =
          (fun (m : Objects) => m) x k :=
      fun b key x _ => mock_get_frame k b key x
    have hput : ∀ b key body (x : Objects), k ≠ key →
        (fun (m : Objects) => m) ((mockLock bucket).client.PutObject b key body x).2 k =
          (fun (m : Objects) => m) x k :=
      fun b key body x hne => mock_put_frame k b key body x hne
    have hdel : ∀ b key (x : Objects), k ≠ key →
        (fun (m : Objects) => m) ((mockLock bucket).client.DeleteObject b key x).2 k =
          (fun (m : Objects) => m) x k :=
      fun b key x hne => mock_delete_frame k b key x hne
    exact ⟨GetLock_frame (mockLock bucket) (fun m => m) r k st hget hk,
      Lock_frame (mockLock bucket) (fun m => m) r k now h st hget hput hk,
      Unlock_frame (mockLock bucket) (fun m => m) r k st hget hdel hk⟩

theorem C15_witness :
    ((mockLock "b").Lock ⟨2024, 5, 17, 9, 30, 0, 0, 0⟩ 5 "env-prod"
        (fun k => if k = "env-stage" then some "kept".toList else none)).2 "env-stage" =
      some "kept".toList ∧
    ((mockLock "b").Unlock "env-prod"
        (fun k => if k = "env-stage" then some "kept".toList else none)).2 "env-stage" =
      some "kept".toList :=
  ⟨((C15_key_layout "b" "env-prod" ⟨2024, 5, 17, 9, 30, 0, 0, 0⟩ 5).2.2
      (fun k => if k = "env-stage" then some "kept".toList else none) "env-stage"
      (by decide)).2.1,
    ((C15_key_layout "b" "env-prod" ⟨2024, 5, 17, 9, 30, 0, 0, 0⟩ 5).2.2
      (fun k => if k = "env-stage" then some "kept".toList else none) "env-stage"
      (by decide)).2.2⟩

/-- C16, as the claim states it, fails: the payload below is the encoding of
the valid Lock Record with holder 7 to which one extra field `x` is added, a
name that selects no field of `LockContent`. The value of `x` is 10001 arrays
nested in one another, more than the `maxNestingDepth` of `encoding/json`, so
the decoder gives up on the whole object and `GetLock` returns an error in
place of the holder 7. -/
theorem C16_counterexample :
    json.Marshal ⟨7, ⟨2024, 1, 1, 0, 0, 0, 0, 0⟩⟩ =
      .ok "\x7b\"transaction_id\":7,\"created_at\":\"2024-01-01T00:00:00Z\"\x7d".toList ∧
    lookupField (unquote "x".toList) = none ∧
    ((mockLock "test-bucket").GetLock "env-stage"
      (fun k => if k = "env-stage" then some
        ("\x7b\"transaction_id\":7,\"created_at\":\"2024-01-01T00:00:00Z\",\"x\":".toList ++
          (List.replicate 10001 '[' ++ List.replicate 10001 ']' ++ ['\x7d']))
        else none)).1 = (none, some (LockError.decodeLock JsonError.scan)) :=
  ⟨by decide, by decide,
    congrArg Prod.fst (GetLock_mock_decodeError "test-bucket" "env-stage" _
      (renderObject (withExtras ⟨7, ⟨2024, 1, 1, 0, 0, 0, 0, 0⟩⟩ [] []
        [("x".toList, List.replicate (10000 + 1) '[' ++ List.replicate 10001 ']')]))
      JsonError.scan rfl
      (Decode_deep 7 ⟨2024, 1, 1, 0, 0, 0, 0, 0⟩ (by decide) "x".toList (by decide) 10000
        (by decide) _ zeroLockContent))⟩

/-- C16, amended: for every valid Lock Record with holder h, extra members may
be added to the object `json.Marshal` writes, before, between and after its
own two members, and `GetLock` still succeeds and returns h, the decoder
reading the record itself back, provided each extra member is one the decoder
does not know and the scanner accepts: its key selects no field of
`LockContent` (names are compared exactly and then with letter case ignored),
and its value is one JSON value that the scanner takes in full inside the
object, which bounds how deeply arrays and objects are nested in it. -/
theorem C16_extra_fields (bucket r : String) (st : Objects) (c : LockContent)
    (pre mid post : List (List Char × List Char))
    (hv : c.valid) (hx : ∀ m ∈ pre ++ mid ++ post, extraMember m)
    (hs : st r = some (renderObject (withExtras c pre mid post))) :
    json.Marshal c = .ok (renderObject (withExtras c [] [] [])) ∧
    json.Decode (renderObject (withExtras c pre mid post)) zeroLockContent = .ok c ∧
    (mockLock bucket).GetLock r st = ((some c.TransactionId, none), st) := by
  obtain ⟨hid, ht, ho⟩ := hv
  have hd := Decode_withExtras c zeroLockContent pre mid post hid ht hx
  rw [rounded_eq _ ho] at hd
  refine ⟨Marshal_render c ht, hd, ?_⟩
  rw [GetLock_mock, hs]
  simp only [hd]

theorem C16_witness :
    ((mockLock "test-bucket").GetLock "env-stage"
      (fun k => if k = "env-stage" then some
        ("\x7b\"version\":2,\"transaction_id\":7," ++
          "\"owner\":\x7b\"name\":\"ci\",\"tags\":[1,true,null]\x7d," ++
          "\"created_at\":\"2024-01-01T00:00:00Z\",\"note\":\"a\\nb\"\x7d").toList
        else none)).1 = (some 7, none) :=
  congrArg Prod.fst
    (C16_extra_fields "test-bucket" "env-stage" _ ⟨7, ⟨2024, 1, 1, 0, 0, 0, 0, 0⟩⟩
      [("version".toList, "2".toList)]
      [("owner".toList, "\x7b\"name\":\"ci\",\"tags\":[1,true,null]\x7d".toList)]
      [("note".toList, "\"a\\nb\"".toList)]
      (by decide)
      (by
        intro m hm
        simp only [List.mem_append, List.mem_singleton] at hm
        rcases hm with (hm | hm) | hm <;> subst hm
        · exact ⟨by decide, by decide, 4, _, rfl⟩
        · exact ⟨by decide, by decide, 12, _, rfl⟩
        · exact ⟨by decide, by decide, 4, _, rfl⟩)
      rfl).2.2

/-- C17. No retries. On any client, whatever its calls answer, `GetLock(r)`
makes exactly one `GetObject` and no other call; `Lock(h, r)` makes exactly
one `GetObject`, followed by at most one `PutObject`, and no `DeleteObject`;
`Unlock(r)` makes exactly one `GetObject`, followed by at most one
`DeleteObject`, and no `PutObject`. No call is made twice, so a failed call
is never repeated. Recording the calls changes no answer. -/
theorem C17_no_retries {σ : Type} (c : S3Client σ) (bucket r : String) (now : Time) (h : Int)
    (st : σ) (log : List Request) :
    ((S3Lock.mk (recording c) bucket).GetLock r (st, log)).2.2 =
      log ++ [Request.getObject bucket r] ∧
    (((S3Lock.mk (recording c) bucket).Lock now h r (st, log)).2.2 =
        log ++ [Request.getObject bucket r] ∨
      ∃ body, ((S3Lock.mk (recording c) bucket).Lock now h r (st, log)).2.2 =
        log ++ [Request.getObject bucket r, Request.putObject bucket r body]) ∧
    (((S3Lock.mk (recording c) bucket).Unlock r (st, log)).2.2 =
        log ++ [Request.getObject bucket r] ∨
      ((S3Lock.mk (recording c) bucket).Unlock r (st, log)).2.2 =
        log ++ [Request.getObject bucket r, Request.deleteObject bucket r]) ∧
    ((S3Lock.mk (recording c) bucket).GetLock r (st, log)).1 =
      ((S3Lock.mk c bucket).GetLock r st).1 := by
  refine ⟨?_, Lock_recording c bucket r now h st log, Unlock_recording c bucket r st log, ?_⟩
  · rw [GetLock_recording]
  · rw [GetLock_recording]

theorem C17_witness :
    ((S3Lock.mk (recording (failingClient "SlowDown")) "b").GetLock "env-prod" ((), [])).2.2 =
      [Request.getObject "b" "env-prod"] ∧
    ((S3Lock.mk (recording (failingClient "SlowDown")) "b").GetLock "env-prod" ((), [])).1 =
      (none, some (LockError.getLock ⟨false, "SlowDown"⟩)) :=
  ⟨(C17_no_retries (failingClient "SlowDown") "b" "env-prod" ⟨2024, 5, 17, 9, 30, 0, 0, 0⟩ 1
      () []).1,
    by rw [(C17_no_retries (failingClient "SlowDown") "b" "env-prod"
      ⟨2024, 5, 17, 9, 30, 0, 0, 0⟩ 1 () []).2.2.2]; decide⟩

/-- C18. The function `getDBConfig` in terms of the three environment values,
with `d` the lower-cased dialect, or `postgres` when that is empty: for `d`
equal to `postgres` it fails exactly when `DIGGER_DATABASE_URL` is empty and
else returns that dialect with the URL; for `sqlite` it never fails and
returns that dialect with `DIGGER_SQLITE_PATH`, or `digger.db` when the path
is empty; for every other `d` it fails. Whenever it succeeds the dialect
returned is `postgres` or `sqlite` and the DSN is not empty. -/
theorem C18_getDBConfig (ToLower : String → String) (envDialect envURL envPath : String) :
    (ToLower envDialect = "" ∨ ToLower envDialect = "postgres" →
      (envURL = "" → ∃ e, getDBConfig ToLower envDialect envURL envPath = .error e) ∧
      (envURL ≠ "" →
        getDBConfig ToLower envDialect envURL envPath = .ok ⟨"postgres", envURL⟩)) ∧
    (ToLower envDialect = "sqlite" →
      getDBConfig ToLower envDialect envURL envPath =
        .ok ⟨"sqlite", if envPath = "" then "digger.db" else envPath⟩) ∧
    (ToLower envDialect ≠ "" → ToLower envDialect ≠ "postgres" →
      ToLower envDialect ≠ "sqlite" →
      getDBConfig ToLower envDialect envURL envPath =
        .error ("unsupported database dialect: " ++ ToLower envDialect)) ∧
    (∀ c, getDBConfig ToLower envDialect envURL envPath = .ok c →
      (c.Dialect = "postgres" ∨ c.Dialect = "sqlite") ∧ c.DSN ≠ "") := by
  have hps : ¬ ("postgres" = "sqlite") := by decide
  have hsp : ¬ ("sqlite" = "postgres") := by decide
  have hse : ¬ ("sqlite" = "") := by decide
  have hdb : ¬ ("digger.db" = "") := by decide
  refine ⟨?_, ?_, ?_, ?_⟩
  · intro hd
    have hdial : (if ToLower envDialect = "" then "postgres" else ToLower envDialect) =
        "postgres" := by
      rcases hd with e | e
      · rw [if_pos e]
      · split
        · rfl
        · exact e
    constructor
    · intro hu
      exact ⟨"DIGGER_DATABASE_URL environment variable is required for postgres",
        by simp only [getDBConfig, hdial, if_true, hu]⟩
    · intro hu
      simp only [getDBConfig, hdial, if_true, hu, if_false]
  · intro hd
    simp only [getDBConfig, hd, hse, hsp, if_false, if_true]
  · intro h0 h1 h2
    simp only [getDBConfig, h0, h1, h2, if_false]
  · intro c hc
    simp only [getDBConfig] at hc
    generalize (if ToLower envDialect = "" then "postgres" else ToLower envDialect) = d at hc
    by_cases hp : d = "postgres"
    · by_cases hu : envURL = ""
      · simp only [hp, if_true, hu] at hc
        cases hc
      · simp only [hp, if_true, hu, if_false] at hc
        injection hc with hc; subst hc
        exact ⟨Or.inl rfl, hu⟩
    · by_cases hs : d = "sqlite"
      · simp only [hs, hsp, if_false, if_true] at hc
        injection hc with hc; subst hc
        refine ⟨Or.inr rfl, ?_⟩
        simp only
        split
        · exact hdb
        · assumption
      · simp only [hp, hs, if_false] at hc
        cases hc

theorem C18_witness :
    getDBConfig lowerASCII "SQLite" "" "" = .ok ⟨"sqlite", "digger.db"⟩ ∧
    getDBConfig lowerASCII "" "postgres://db" "" = .ok ⟨"postgres", "postgres://db"⟩ ∧
    (∃ e, getDBConfig lowerASCII "" "" "x.db" = .error e) :=
  ⟨(C18_getDBConfig lowerASCII "SQLite" "" "").2.1 (by decide),
    ((C18_getDBConfig lowerASCII "" "postgres://db" "").1 (Or.inl (by decide))).2 (by decide),
    ((C18_getDBConfig lowerASCII "" "" "x.db").1 (Or.inl (by decide))).1 rfl⟩

end Digger
